import Mathlib

/-!
# Tensor engine: layout, views and materialization

A shallow embedding of `app/src/main/cpp/src/tensor.cpp` (build without `USE_CUDA`).

Modelling conventions.

* `int` is 32 bits wide on the target.  The products computed by `std::accumulate` over a
  shape are taken in `int` arithmetic: every multiplication is reduced to the two's
  complement range (`wrapInt`), which is what the compiled code does where the C++ standard
  leaves signed overflow undefined.  A product that wraps makes the constructor and
  `reshape` accept, size or refuse a shape differently from the mathematical product, so the
  theorems about sizes carry the hypothesis that the product fits in `int` (`FitsInt`,
  `NoOverflow`).  Strides and offsets are kept as mathematical integers: on a tensor whose
  sizes agree they stay below `totalSize`, and a stride can leave the `int` range only when
  the tensor is empty.
* `std::vector<T>` is `List T`.  A read or write `v[i]` whose index depends on the tensor
  state is checked: an index outside `[0, size)` is reported as `TensorError.outOfBounds`
  (the C++ behaviour is undefined there).
* `float` is a parameter `F` with a zero (the value used by the constructor to fill fresh
  buffers).  The layout operations only copy values; the elementwise kernels use the
  arithmetic of `F`, and rounding, infinities and NaN are outside the model.
* A failed `assert` terminates the member function.  The model records the error together
  with the state of the tensor at that program point (`Res.failed`).
* `tensor.hpp` is not part of the sources; the fields of `Tensor` are the ones used by
  `tensor.cpp`.
* The logging calls (`LOG_TENSOR_OP`, `LOG_DEBUG`, `LOG_MEMORY_ALLOC`) do not touch the
  tensor and are left out.
-/

namespace TensorEngine

/-- The device tag of a tensor. -/
inductive Device
  | CPU
  | GPU
deriving DecidableEq, Repr

/-- The ways in which an operation can stop before completing.  The first four name the
assertion that failed; `outOfBounds` is a vector access outside the buffer and `badAlloc`
a `resize` with a negative element count. -/
inductive TensorError
  | shapeMismatch
  | invalidPermutation
  | broadcastError
  | indexError
  | outOfBounds
  | badAlloc
deriving DecidableEq, Repr

/-- The data members of `Tensor` used by `tensor.cpp`. -/
structure Tensor (F : Type) where
  shape : List Int
  strides : List Int
  totalSize : Int
  contiguous : Bool
  cpuData : List F
  cpuGrad : List F
  device : Device
deriving DecidableEq, Repr

/-- Outcome of a mutating member function: the tensor afterwards, or the failure and the
state in which the tensor was left. -/
inductive Res (F : Type)
  | done (t : Tensor F)
  | failed (e : TensorError) (t : Tensor F)
deriving DecidableEq, Repr

/-! ## Vector primitives -/

/-- Checked read `v[i]` with an unsigned index. -/
def vecGet {α : Type} (v : List α) (i : Nat) : Except TensorError α :=
  match v[i]? with
  | some x => .ok x
  | none => .error .outOfBounds

/-- Checked write `v[i] = x` with an unsigned index. -/
def vecSet {α : Type} (v : List α) (i : Nat) (x : α) : Except TensorError (List α) :=
  if i < v.length then .ok (v.set i x) else .error .outOfBounds

/-- Checked read `v[i]` with an `int` index. -/
def vecGetInt {α : Type} (v : List α) (i : Int) : Except TensorError α :=
  if 0 ≤ i then vecGet v i.toNat else .error .outOfBounds

/-- Checked write `v[i] = x` with an `int` index. -/
def vecSetInt {α : Type} (v : List α) (i : Int) (x : α) : Except TensorError (List α) :=
  if 0 ≤ i then vecSet v i.toNat x else .error .outOfBounds

/-- `v.resize(n)` on a vector of `int`: keeps the first `n` entries, pads with zeros. -/
def vecResize (v : List Int) (n : Nat) : List Int :=
  v.take n ++ List.replicate (n - v.length) 0

/-- The value of an `int` expression on the target: the mathematical value reduced to the
32-bit two's complement range `[-2^31, 2^31)`. -/
def wrapInt (x : Int) : Int :=
  (x + 2147483648) % 4294967296 - 2147483648

/-- The value fits in a 32-bit `int`. -/
def FitsInt (x : Int) : Prop :=
  -2147483648 ≤ x ∧ x < 2147483648

instance (x : Int) : Decidable (FitsInt x) := by
  unfold FitsInt
  exact inferInstance

/-- `std::accumulate(shape.begin(), shape.end(), 1, std::multiplies<int>())`: the running
product is an `int`, so every multiplication is reduced to the `int` range. -/
def accumulateMul (shape : List Int) : Int :=
  shape.foldl (fun acc d => wrapInt (acc * d)) 1

/-- An ascending counted loop `for (i = start; i < start + n; ++i) s = body(i, s)` whose
body may fail. -/
def forLoop {σ : Type} (body : Nat → σ → Except TensorError σ) :
    Nat → Nat → σ → Except TensorError σ
  | _, 0, s => .ok s
  | i, n + 1, s =>
    match body i s with
    | .ok s1 => forLoop body (i + 1) n s1
    | .error e => .error e

/-! ## Layout: `computeStrides`, `at`, `edit` -/

/-- The loop of `computeStrides`: `for (i = size - 1; i >= 0; --i)` with the running
`stride`; the first argument is `i + 1`. -/
def computeStridesLoop (shape : List Int) : Nat → Int → List Int → List Int
  | 0, _, strides => strides
  | i + 1, stride, strides =>
    computeStridesLoop shape i (stride * shape.getD i 0) (strides.set i stride)

/-- `Tensor::computeStrides`. -/
def Tensor.computeStrides {F : Type} (t : Tensor F) : Tensor F :=
  { t with strides :=
      computeStridesLoop t.shape t.shape.length 1 (vecResize t.strides t.shape.length) }

/-- The loop shared by `at` and `edit`: checks each index component and accumulates
`local += index[i] * strides[i]`. -/
def offsetLoop (shape strides index : List Int) (i : Nat) (loc : Int) :
    Except TensorError Int :=
  match index[i]?, shape[i]? with
  | some ix, some d =>
    if 0 ≤ ix ∧ ix < d then
      match vecGet strides i with
      | .ok s => .ok (loc + ix * s)
      | .error e => .error e
    else .error .indexError
  | _, _ => .error .outOfBounds

/-- The address computation of `at` and `edit`: the rank assertion followed by the loop. -/
def Tensor.linearOffset {F : Type} (t : Tensor F) (index : List Int) :
    Except TensorError Int :=
  if index.length = t.shape.length then
    forLoop (offsetLoop t.shape t.strides index) 0 t.shape.length 0
  else .error .indexError

/-- `Tensor::at`: the element addressed by `index`. -/
def Tensor.elemAt {F : Type} (t : Tensor F) (index : List Int) : Except TensorError F :=
  match t.linearOffset index with
  | .ok loc => vecGetInt t.cpuData loc
  | .error e => .error e

/-- `Tensor::edit`. -/
def Tensor.edit {F : Type} (t : Tensor F) (index : List Int) (val : F) : Res F :=
  match t.linearOffset index with
  | .ok loc =>
    match vecSetInt t.cpuData loc val with
    | .ok d => .done { t with cpuData := d }
    | .error e => .failed e t
  | .error e => .failed e t

/-- `Tensor::Tensor(shape, device)`; `resize` with a negative count throws. -/
def Tensor.create {F : Type} [Zero F] (shape : List Int) (dev : Device) :
    Except TensorError (Tensor F) :=
  let totalSize := accumulateMul shape
  if 0 ≤ totalSize then
    .ok (Tensor.computeStrides
      { shape := shape, strides := [], totalSize := totalSize, contiguous := true,
        cpuData := List.replicate totalSize.toNat 0,
        cpuGrad := List.replicate totalSize.toNat 0, device := dev })
  else .error .badAlloc

/-! ## Materialization -/

/-- The index-advance loop of `makeContiguousCpu` and `broadcast`:
`for (j = size - 1; j >= 0; --j) { index[j]++; if (index[j] < shape[j]) break; index[j] = 0; }`;
the first argument is `j + 1`. -/
def advanceLoop (shape : List Int) : Nat → List Int → List Int
  | 0, index => index
  | j + 1, index =>
    let index1 := index.set j (index.getD j 0 + 1)
    if index1.getD j 0 < shape.getD j 0 then index1
    else advanceLoop shape j (index1.set j 0)

/-- Body of the inner loop of `makeContiguousCpu`: `linIdx += index[j] * strides[j]`. -/
def linIdxStep (index strides : List Int) (j : Nat) (lin : Int) : Except TensorError Int :=
  match vecGet strides j with
  | .ok s => .ok (lin + index.getD j 0 * s)
  | .error e => .error e

/-- Body of the outer loop of `makeContiguousCpu`; the state is `(index, newData)`. -/
def gatherStep {F : Type} (shape strides : List Int) (cpuData : List F) (i : Nat)
    (st : List Int × List F) : Except TensorError (List Int × List F) :=
  match forLoop (linIdxStep st.1 strides) 0 shape.length 0 with
  | .ok lin =>
    match vecGetInt cpuData lin with
    | .ok v =>
      match vecSet st.2 i v with
      | .ok nd => .ok (advanceLoop shape shape.length st.1, nd)
      | .error e => .error e
    | .error e => .error e
  | .error e => .error e

/-- `Tensor::makeContiguousCpu`. -/
def Tensor.makeContiguousCpu {F : Type} [Zero F] (t : Tensor F) : Res F :=
  if t.contiguous then .done t
  else if t.totalSize < 0 then .failed .badAlloc t
  else
    match forLoop (gatherStep t.shape t.strides t.cpuData) 0 t.totalSize.toNat
        (List.replicate t.shape.length 0, List.replicate t.totalSize.toNat 0) with
    | .ok st => .done (Tensor.computeStrides { t with cpuData := st.2, contiguous := true })
    | .error e => .failed e t

/-- `Tensor::makeContiguous` (without `USE_CUDA` a tensor tagged `GPU` is left as it is). -/
def Tensor.makeContiguous {F : Type} [Zero F] (t : Tensor F) : Res F :=
  if t.contiguous then .done t
  else if t.device = Device.CPU then t.makeContiguousCpu
  else .done t

/-! ## View operations -/

/-- `Tensor::reshape`. -/
def Tensor.reshape {F : Type} [Zero F] (t : Tensor F) (newShape : List Int) : Res F :=
  match (if !t.contiguous then t.makeContiguous else .done t) with
  | .failed e t1 => .failed e t1
  | .done t1 =>
    let newSize := accumulateMul newShape
    if t1.totalSize = newSize then .done (Tensor.computeStrides { t1 with shape := newShape })
    else .failed .shapeMismatch t1

/-- `Tensor::flatten`. -/
def Tensor.flatten {F : Type} [Zero F] (t : Tensor F) : Res F :=
  match (if !t.contiguous then t.makeContiguous else .done t) with
  | .failed e t1 => .failed e t1
  | .done t1 => .done { t1 with shape := [t1.totalSize], strides := [1] }

/-- Body of the loop of `transpose`; the state is `(newShape, newStrides)`. -/
def transposeStep (shape strides order : List Int) (i : Nat) (st : List Int × List Int) :
    Except TensorError (List Int × List Int) :=
  let o := order.getD i 0
  if 0 ≤ o ∧ o.toNat < shape.length then
    match vecSet st.1 i (shape.getD o.toNat 0) with
    | .ok ns =>
      match vecGet strides o.toNat with
      | .ok s =>
        match vecSet st.2 i s with
        | .ok nst => .ok (ns, nst)
        | .error e => .error e
      | .error e => .error e
    | .error e => .error e
  else .error .invalidPermutation

/-- `Tensor::transpose`. -/
def Tensor.transpose {F : Type} (t : Tensor F) (order : List Int) : Res F :=
  if order.length = t.shape.length then
    if order.dedup.length = t.shape.length then
      match forLoop (transposeStep t.shape t.strides order) 0 t.shape.length
          (List.replicate t.shape.length 0, List.replicate t.strides.length 0) with
      | .ok st => .done { t with shape := st.1, strides := st.2, contiguous := false }
      | .error e => .failed e t
    else .failed .invalidPermutation t
  else .failed .invalidPermutation t

/-- Outcome of `broadcast`: the source afterwards together with the returned tensor, or the
failure and the state in which the source was left. -/
inductive BroadcastRes (F : Type)
  | done (src : Tensor F) (result : Tensor F)
  | failed (e : TensorError) (src : Tensor F)
deriving DecidableEq, Repr

/-- Body of the compatibility loop of `broadcast`. -/
def broadcastCheckStep (shape newShape : List Int) (i : Nat) (_ : Unit) :
    Except TensorError Unit :=
  let dim := shape.getD (shape.length - 1 - i) 0
  let newDim := newShape.getD (newShape.length - 1 - i) 0
  if newDim = dim ∨ dim = 1 then .ok () else .error .broadcastError

/-- The loop computing `mult` in `broadcast`: `for (i = size - 2; i >= 0; --i)
mult[i] = mult[i + 1] * shape[i + 1]`; the first argument is `i + 1`. -/
def multLoop (shape : List Int) : Nat → List Int → List Int
  | 0, mult => mult
  | i + 1, mult => multLoop shape i (mult.set i (mult.getD (i + 1) 0 * shape.getD (i + 1) 0))

/-- The vector `mult` of `broadcast`. -/
def broadcastMult (shape : List Int) : List Int :=
  if shape = [] then []
  else multLoop shape (shape.length - 1)
    ((List.replicate shape.length 0).set (shape.length - 1) 1)

/-- Body of the inner loop of `broadcast`: the contribution of source dimension `j`. -/
def broadcastLinStep (shape newShape mult index : List Int) (j : Nat) (lin : Int) :
    Except TensorError Int :=
  let target := newShape.length - shape.length + j
  let idx := if shape.getD j 0 = 1 then 0 else index.getD target 0
  .ok (lin + idx * mult.getD j 0)

/-- Body of the outer loop of `broadcast`; the state is `(index, result.cpuData)`. -/
def broadcastStep {F : Type} (shape newShape mult : List Int) (cpuData : List F) (i : Nat)
    (st : List Int × List F) : Except TensorError (List Int × List F) :=
  match forLoop (broadcastLinStep shape newShape mult st.1) 0 shape.length 0 with
  | .ok lin =>
    match vecGetInt cpuData lin with
    | .ok v =>
      match vecSet st.2 i v with
      | .ok rd => .ok (advanceLoop newShape newShape.length st.1, rd)
      | .error e => .error e
    | .error e => .error e
  | .error e => .error e

/-- `Tensor::broadcast`. -/
def Tensor.broadcast {F : Type} [Zero F] (t : Tensor F) (newShape : List Int) :
    BroadcastRes F :=
  if t.shape.length ≤ newShape.length then
    match forLoop (broadcastCheckStep t.shape newShape) 0 t.shape.length () with
    | .error e => .failed e t
    | .ok _ =>
      match (if !t.contiguous then t.makeContiguous else .done t) with
      | .failed e t1 => .failed e t1
      | .done t1 =>
        match (Tensor.create newShape t1.device : Except TensorError (Tensor F)) with
        | .error e => .failed e t1
        | .ok result =>
          match forLoop (broadcastStep t1.shape newShape (broadcastMult t1.shape) t1.cpuData)
              0 result.totalSize.toNat (List.replicate newShape.length 0, result.cpuData) with
          | .ok st => .done t1 { result with cpuData := st.2 }
          | .error e => .failed e t1
  else .failed .broadcastError t

/-! ## Specification vocabulary -/

/-- Canonical row-major strides: the last stride is `1` and every other one is the next
stride times the next dimension, so `strides[i]` is the product of `shape[i+1..]`. -/
def canonicalStrides : List Int → List Int
  | [] => []
  | _ :: ds => ds.prod :: canonicalStrides ds

/-- Building a tensor of this shape overflows no `int`: the product of the shape and every
canonical row-major stride fit in `int`. -/
def NoOverflow (shape : List Int) : Prop :=
  FitsInt shape.prod ∧ ∀ s ∈ canonicalStrides shape, FitsInt s

instance (shape : List Int) : Decidable (NoOverflow shape) := by
  unfold NoOverflow
  exact inferInstance

/-- All multi-indices of `shape` in row-major order (last dimension varying fastest). -/
def rowMajor : List Int → List (List Int)
  | [] => [[]]
  | d :: ds => (List.range d.toNat).flatMap (fun i => (rowMajor ds).map (fun r => (i : Int) :: r))

/-- A multi-index is valid for `shape`: same rank, every component in `[0, shape[i])`. -/
def ValidIndex (shape index : List Int) : Prop :=
  List.Forall₂ (fun d i => 0 ≤ i ∧ i < d) shape index

instance (shape index : List Int) : Decidable (ValidIndex shape index) := by
  unfold ValidIndex
  exact inferInstance

/-- The linear offset `sum(index[i] * strides[i])`. -/
def dot (index strides : List Int) : Int :=
  (List.zipWith (fun i s => i * s) index strides).sum

/-- The order is a permutation of `[0, rank)`: length equal to `rank`, no duplicate entry,
every entry in range. -/
def IsPermutation (order : List Int) (rank : Nat) : Prop :=
  order.length = rank ∧ order.Nodup ∧ ∀ o ∈ order, 0 ≤ o ∧ o < (rank : Int)

instance (order : List Int) (rank : Nat) : Decidable (IsPermutation order rank) := by
  unfold IsPermutation
  exact inferInstance

/-- The entries of `v` selected by `order`: position `i` holds `v[order[i]]`. -/
def permuteBy (v order : List Int) : List Int :=
  order.map (fun o => v.getD o.toNat 0)

/-- The inverse of a permutation given as a vector: entry `k` is the position of `k` in
`order`. -/
def inversePerm (order : List Int) : List Int :=
  (List.range order.length).map (fun k : Nat => ((order.indexOf (k : Int) : Nat) : Int))

/-- The target shape is broadcast-compatible with the source shape: it has at least as many
dimensions and, aligned at the right, every source dimension equals the target dimension
or is exactly `1`. -/
def BroadcastCompatible (shape newShape : List Int) : Prop :=
  shape.length ≤ newShape.length ∧
  ∀ i, i < shape.length →
    shape.getD (shape.length - 1 - i) 0 = newShape.getD (newShape.length - 1 - i) 0 ∨
    shape.getD (shape.length - 1 - i) 0 = 1

instance (shape newShape : List Int) : Decidable (BroadcastCompatible shape newShape) := by
  unfold BroadcastCompatible
  exact inferInstance

/-- The source multi-index read for the output multi-index `out`: source dimensions of
size `1` are pinned to `0`, the others take the right-aligned component of `out`. -/
def broadcastSource (shape out : List Int) : List Int :=
  (List.range shape.length).map (fun j =>
    if shape.getD j 0 = 1 then 0 else out.getD (out.length - shape.length + j) 0)

/-- The state invariant of the data model.  Shape and strides have the same rank, the
dimensions are not negative, `totalSize` is the product of the shape and the length of the
values buffer, the pairs `(shape[i], strides[i])` are a rearrangement of those of a
canonical layout (as produced by the constructor, `reshape`, `flatten` and
`makeContiguous`, and rearranged by `transpose`), and a set `contiguous` flag means that
the strides are the canonical ones. -/
def Tensor.WellFormed {F : Type} (t : Tensor F) : Prop :=
  t.strides.length = t.shape.length ∧
  (∀ d ∈ t.shape, 0 ≤ d) ∧
  t.totalSize = t.shape.prod ∧
  t.cpuData.length = t.totalSize.toNat ∧
  (∃ base : List Int, (t.shape.zip t.strides).Perm (base.zip (canonicalStrides base))) ∧
  (t.contiguous = true → t.strides = canonicalStrides t.shape)

/-- A sequence of `transpose` calls, stopping at the first one that fails. -/
def transposeAll {F : Type} : Tensor F → List (List Int) → Res F
  | t, [] => .done t
  | t, order :: rest =>
    match t.transpose order with
    | .done t1 => transposeAll t1 rest
    | .failed e t1 => .failed e t1

/-! ## Closed forms of the loops and of the resulting states -/

/-- The `k`-th multi-index of `shape` written arithmetically (mixed-radix digits of `k`). -/
def unravel : List Int → Nat → List Int
  | [], _ => []
  | _ :: ds, k => ((k / ds.prod.toNat : Nat) : Int) :: unravel ds (k % ds.prod.toNat)

/-- The index advance written by structural recursion: the rightmost digit is incremented
and a carry is propagated leftwards; the flag tells whether the whole index wrapped. -/
def advanceC : List Int → List Int → List Int × Bool
  | d :: ds, i :: is =>
    if (advanceC ds is).2 then
      (if i + 1 < d then ((i + 1) :: (advanceC ds is).1, false)
       else (0 :: (advanceC ds is).1, true))
    else (i :: (advanceC ds is).1, false)
  | _, _ => ([], true)

/-- The buffer obtained by reading the cells addressed by the multi-indices of the shape,
taken in row-major order, through the current strides. -/
def Tensor.gathered {F : Type} [Zero F] (t : Tensor F) : List F :=
  (List.range t.totalSize.toNat).map
    (fun k => t.cpuData.getD (dot (unravel t.shape k) t.strides).toNat 0)

/-- The tensor after materialization: gathered buffer, canonical strides, flag set. -/
def Tensor.materialized {F : Type} [Zero F] (t : Tensor F) : Tensor F :=
  { t with strides := canonicalStrides t.shape, contiguous := true, cpuData := t.gathered }

/-- The tensor after a successful `transpose(order)`. -/
def Tensor.transposed {F : Type} (t : Tensor F) (order : List Int) : Tensor F :=
  { t with shape := permuteBy t.shape order, strides := permuteBy t.strides order,
           contiguous := false }

/-- The state of the source after the step `if (!contiguous) makeContiguous();`. -/
def Tensor.ensured {F : Type} [Zero F] (t : Tensor F) : Tensor F :=
  if t.contiguous = false ∧ t.device = Device.CPU then t.materialized else t

/-- The buffer of the tensor returned by `broadcast`, read from a contiguous source. -/
def Tensor.broadcastData {F : Type} [Zero F] (t : Tensor F) (newShape : List Int) : List F :=
  (List.range newShape.prod.toNat).map (fun k =>
    t.cpuData.getD
      (dot (broadcastSource t.shape (unravel newShape k)) (canonicalStrides t.shape)).toNat 0)

/-- The tensor returned by `broadcast` from the (contiguous) source `t`. -/
def Tensor.broadcasted {F : Type} [Zero F] (t : Tensor F) (newShape : List Int) : Tensor F :=
  { shape := newShape, strides := canonicalStrides newShape, totalSize := newShape.prod,
    contiguous := true, cpuData := t.broadcastData newShape,
    cpuGrad := List.replicate newShape.prod.toNat 0, device := t.device }

/-! ## Sample tensors -/

/-- A contiguous `2 x 3` tensor with distinguishable entries. -/
def sample23 : Tensor Int :=
  { shape := [2, 3], strides := [3, 1], totalSize := 6, contiguous := true,
    cpuData := [10, 11, 12, 13, 14, 15], cpuGrad := [0, 0, 0, 0, 0, 0], device := Device.CPU }

/-- The tensor returned by the constructor for the shape `[2, 3]` on the CPU. -/
def sampleNew23 : Tensor Int :=
  { shape := [2, 3], strides := [3, 1], totalSize := 6, contiguous := true,
    cpuData := [0, 0, 0, 0, 0, 0], cpuGrad := [0, 0, 0, 0, 0, 0], device := Device.CPU }

/-- The transposed view of `sample23`: shape `3 x 2`, strides `[1, 3]`, flag cleared. -/
def sample32T : Tensor Int :=
  { shape := [3, 2], strides := [1, 3], totalSize := 6, contiguous := false,
    cpuData := [10, 11, 12, 13, 14, 15], cpuGrad := [0, 0, 0, 0, 0, 0], device := Device.CPU }

/-- The state `sample32T` is left in by materialization. -/
def sample32M : Tensor Int :=
  { shape := [3, 2], strides := [2, 1], totalSize := 6, contiguous := true,
    cpuData := [10, 13, 11, 14, 12, 15], cpuGrad := [0, 0, 0, 0, 0, 0], device := Device.CPU }

/-- A contiguous vector of three entries. -/
def sample3 : Tensor Int :=
  { shape := [3], strides := [1], totalSize := 3, contiguous := true,
    cpuData := [7, 8, 9], cpuGrad := [0, 0, 0], device := Device.CPU }

/-- A contiguous `2 x 1` tensor. -/
def sample21 : Tensor Int :=
  { shape := [2, 1], strides := [1, 1], totalSize := 2, contiguous := true,
    cpuData := [7, 8], cpuGrad := [0, 0], device := Device.CPU }

/-! ## Elementwise kernel set

The arithmetic of `float` is that of the element type `F`: the kernels use its `+`, `-`,
`*`, `/`, unary `-`, `<`, the maximum (`fmaxf`) and the `<cmath>` functions of
`FloatMath`.  Without `USE_CUDA` a tensor tagged `GPU` is left as it is by the dispatching
member functions. -/

/-- The `<cmath>` functions applied by the activation kernels. -/
class FloatMath (F : Type) where
  /-- `expf`. -/
  expf : F → F
  /-- `tanhf`. -/
  tanhf : F → F
  /-- `sqrtf`. -/
  sqrtf : F → F
  /-- `logf`. -/
  logf : F → F

/-- Everything the kernels need of the element type. -/
class FloatOps (F : Type) extends Zero F, One F, Add F, Sub F, Mul F, Div F, Neg F, Max F,
    LT F, FloatMath F where
  /-- The comparison `x < y` can be evaluated. -/
  decLt : ∀ a b : F, Decidable (a < b)

instance {F : Type} [FloatOps F] (a b : F) : Decidable (a < b) := FloatOps.decLt a b

/-- Body of the loop of a unary kernel: `cpuData[i] = f(cpuData[i])`. -/
def unaryStep {F : Type} (f : F → F) (i : Nat) (data : List F) : Except TensorError (List F) :=
  match vecGet data i with
  | .ok x => vecSet data i (f x)
  | .error e => .error e

/-- A unary kernel: `for (i = 0; i < cpuData.size(); ++i) cpuData[i] = f(cpuData[i])`. -/
def Tensor.unaryKernel {F : Type} (f : F → F) (t : Tensor F) : Res F :=
  match forLoop (unaryStep f) 0 t.cpuData.length t.cpuData with
  | .ok d => .done { t with cpuData := d }
  | .error e => .failed e t

/-- Body of the loop of a binary kernel: `cpuData[i] = op(cpuData[i], other.cpuData[i])`. -/
def binaryStep {F : Type} (op : F → F → F) (other : List F) (i : Nat) (data : List F) :
    Except TensorError (List F) :=
  match vecGet data i with
  | .ok x =>
    match vecGet other i with
    | .ok y => vecSet data i (op x y)
    | .error e => .error e
  | .error e => .error e

/-- A binary kernel:
`for (i = 0; i < cpuData.size(); ++i) cpuData[i] = op(cpuData[i], other.cpuData[i])`. -/
def Tensor.binaryKernel {F : Type} (op : F → F → F) (t other : Tensor F) : Res F :=
  match forLoop (binaryStep op other.cpuData) 0 t.cpuData.length t.cpuData with
  | .ok d => .done { t with cpuData := d }
  | .error e => .failed e t

/-- Innermost body of a bias kernel: `idx = n * strides[0] + c * strides[1] + h * strides[2]
+ w * strides[3]; cpuData[idx] = op(cpuData[idx], b)`. -/
def biasCellStep {F : Type} (op : F → F → F) (strides : List Int) (b : F) (n c h w : Nat)
    (data : List F) : Except TensorError (List F) :=
  match vecGet strides 0, vecGet strides 1, vecGet strides 2, vecGet strides 3 with
  | .ok s0, .ok s1, .ok s2, .ok s3 =>
    match vecGetInt data ((n : Int) * s0 + (c : Int) * s1 + (h : Int) * s2 + (w : Int) * s3) with
    | .ok x =>
      vecSetInt data ((n : Int) * s0 + (c : Int) * s1 + (h : Int) * s2 + (w : Int) * s3) (op x b)
    | .error e => .error e
  | _, _, _, _ => .error .outOfBounds

/-- Body of the loop over channels of a bias kernel: `b = bias.cpuData[c]` and the loops
over `h` and `w`. -/
def biasChannelStep {F : Type} (op : F → F → F) (strides : List Int) (biasData : List F)
    (H W : Int) (n c : Nat) (data : List F) : Except TensorError (List F) :=
  match vecGet biasData c with
  | .ok b =>
    forLoop (fun h d => forLoop (biasCellStep op strides b n c h) 0 W.toNat d) 0 H.toNat data
  | .error e => .error e

/-- A bias kernel: the four nested loops over `N`, `C`, `H`, `W` taken from the shape. -/
def Tensor.biasKernel {F : Type} (op : F → F → F) (t bias : Tensor F) : Res F :=
  let N := t.shape.getD 0 0
  let C := t.shape.getD 1 0
  let H := t.shape.getD 2 0
  let W := t.shape.getD 3 0
  match forLoop (fun n d =>
      forLoop (biasChannelStep op t.strides bias.cpuData H W n) 0 C.toNat d)
      0 N.toNat t.cpuData with
  | .ok d => .done { t with cpuData := d }
  | .error e => .failed e t

/-- `Tensor::fillCpu`: `std::fill` over the values buffer. -/
def Tensor.fillCpu {F : Type} (t : Tensor F) (val : F) : Tensor F :=
  { t with cpuData := List.replicate t.cpuData.length val }

/-- `Tensor::addTensorCpu`. -/
def Tensor.addTensorCpu {F : Type} [Add F] (t other : Tensor F) : Res F :=
  t.binaryKernel (fun x y => x + y) other

/-- `Tensor::addScalarCpu`. -/
def Tensor.addScalarCpu {F : Type} [Add F] (t : Tensor F) (val : F) : Res F :=
  t.unaryKernel (fun x => x + val)

/-- `Tensor::addBiasCpu`. -/
def Tensor.addBiasCpu {F : Type} [Add F] (t bias : Tensor F) : Res F :=
  t.biasKernel (fun x b => x + b) bias

/-- `Tensor::subtractTensorCpu`. -/
def Tensor.subtractTensorCpu {F : Type} [Sub F] (t other : Tensor F) : Res F :=
  t.binaryKernel (fun x y => x - y) other

/-- `Tensor::subtractScalarCpu`. -/
def Tensor.subtractScalarCpu {F : Type} [Sub F] (t : Tensor F) (val : F) : Res F :=
  t.unaryKernel (fun x => x - val)

/-- `Tensor::multiplyTensorCpu`. -/
def Tensor.multiplyTensorCpu {F : Type} [Mul F] (t other : Tensor F) : Res F :=
  t.binaryKernel (fun x y => x * y) other

/-- `Tensor::multiplyScalarCpu`. -/
def Tensor.multiplyScalarCpu {F : Type} [Mul F] (t : Tensor F) (val : F) : Res F :=
  t.unaryKernel (fun x => x * val)

/-- `Tensor::multiplyBiasCpu`. -/
def Tensor.multiplyBiasCpu {F : Type} [Mul F] (t bias : Tensor F) : Res F :=
  t.biasKernel (fun x b => x * b) bias

/-- `Tensor::divideTensorCpu`. -/
def Tensor.divideTensorCpu {F : Type} [Div F] (t other : Tensor F) : Res F :=
  t.binaryKernel (fun x y => x / y) other

/-- `Tensor::divideScalarCpu`. -/
def Tensor.divideScalarCpu {F : Type} [Div F] (t : Tensor F) (val : F) : Res F :=
  t.unaryKernel (fun x => x / val)

/-- `Tensor::negateCpu`. -/
def Tensor.negateCpu {F : Type} [Neg F] (t : Tensor F) : Res F :=
  t.unaryKernel (fun x => -x)

/-- `Tensor::ReLUCpu`: `fmaxf(cpuData[i], 0.0f)`. -/
def Tensor.ReLUCpu {F : Type} [Zero F] [Max F] (t : Tensor F) : Res F :=
  t.unaryKernel (fun x => max x 0)

/-- `Tensor::sigmoidCpu`: `1.0f / (1.0f + expf(-cpuData[i]))`. -/
def Tensor.sigmoidCpu {F : Type} [One F] [Add F] [Div F] [Neg F] [FloatMath F]
    (t : Tensor F) : Res F :=
  t.unaryKernel (fun x => 1 / (1 + FloatMath.expf (-x)))

/-- `Tensor::tanhCpu`. -/
def Tensor.tanhCpu {F : Type} [FloatMath F] (t : Tensor F) : Res F :=
  t.unaryKernel (fun x => FloatMath.tanhf x)

/-- `Tensor::LReLUCpu`: `cpuData[i] < 0 ? alpha * cpuData[i] : cpuData[i]`. -/
def Tensor.LReLUCpu {F : Type} [Zero F] [Mul F] [LT F] [∀ a b : F, Decidable (a < b)]
    (t : Tensor F) (alpha : F) : Res F :=
  t.unaryKernel (fun x => if x < 0 then alpha * x else x)

/-- `Tensor::ELUCpu`: `cpuData[i] < 0 ? alpha * (expf(cpuData[i]) - 1) : cpuData[i]`. -/
def Tensor.ELUCpu {F : Type} [Zero F] [One F] [Sub F] [Mul F] [LT F]
    [∀ a b : F, Decidable (a < b)] [FloatMath F] (t : Tensor F) (alpha : F) : Res F :=
  t.unaryKernel (fun x => if x < 0 then alpha * (FloatMath.expf x - 1) else x)

/-- `Tensor::squareCpu`. -/
def Tensor.squareCpu {F : Type} [Mul F] (t : Tensor F) : Res F :=
  t.unaryKernel (fun x => x * x)

/-- `Tensor::sqrtCpu`. -/
def Tensor.sqrtCpu {F : Type} [FloatMath F] (t : Tensor F) : Res F :=
  t.unaryKernel (fun x => FloatMath.sqrtf x)

/-- `Tensor::expCpu`. -/
def Tensor.expCpu {F : Type} [FloatMath F] (t : Tensor F) : Res F :=
  t.unaryKernel (fun x => FloatMath.expf x)

/-- `Tensor::logCpu`. -/
def Tensor.logCpu {F : Type} [FloatMath F] (t : Tensor F) : Res F :=
  t.unaryKernel (fun x => FloatMath.logf x)

/-- `Tensor::zeroGradCpu`: `std::fill` over the gradient buffer. -/
def Tensor.zeroGradCpu {F : Type} [Zero F] (t : Tensor F) : Tensor F :=
  { t with cpuGrad := List.replicate t.cpuGrad.length 0 }

/-- The device dispatch `if (device == Device::CPU) kernel();`. -/
def Tensor.dispatch {F : Type} (t : Tensor F) (kernel : Tensor F → Res F) : Res F :=
  if t.device = Device.CPU then kernel t else .done t

/-- `Tensor::fill`. -/
def Tensor.fill {F : Type} (t : Tensor F) (val : F) : Res F :=
  t.dispatch (fun s => .done (s.fillCpu val))

/-- `Tensor::addTensor`. -/
def Tensor.addTensor {F : Type} [Add F] (t other : Tensor F) : Res F :=
  if t.shape = other.shape then t.dispatch (fun s => s.addTensorCpu other)
  else .failed .shapeMismatch t

/-- `Tensor::addScalar`. -/
def Tensor.addScalar {F : Type} [Add F] (t : Tensor F) (val : F) : Res F :=
  t.dispatch (fun s => s.addScalarCpu val)

/-- The three assertions of `addBias` and `multiplyBias`. -/
def biasShapesOk (shape biasShape : List Int) : Prop :=
  shape.length = 4 ∧ biasShape.length = 1 ∧ shape.getD 1 0 = biasShape.getD 0 0

instance (shape biasShape : List Int) : Decidable (biasShapesOk shape biasShape) := by
  unfold biasShapesOk
  exact inferInstance

/-- `Tensor::addBias`. -/
def Tensor.addBias {F : Type} [Add F] (t bias : Tensor F) : Res F :=
  if biasShapesOk t.shape bias.shape then t.dispatch (fun s => s.addBiasCpu bias)
  else .failed .shapeMismatch t

/-- `Tensor::subtractTensor`. -/
def Tensor.subtractTensor {F : Type} [Sub F] (t other : Tensor F) : Res F :=
  if t.shape = other.shape then t.dispatch (fun s => s.subtractTensorCpu other)
  else .failed .shapeMismatch t

/-- `Tensor::subtractScalar`. -/
def Tensor.subtractScalar {F : Type} [Sub F] (t : Tensor F) (val : F) : Res F :=
  t.dispatch (fun s => s.subtractScalarCpu val)

/-- `Tensor::multiplyTensor`. -/
def Tensor.multiplyTensor {F : Type} [Mul F] (t other : Tensor F) : Res F :=
  if t.shape = other.shape then t.dispatch (fun s => s.multiplyTensorCpu other)
  else .failed .shapeMismatch t

/-- `Tensor::multiplyScalar`. -/
def Tensor.multiplyScalar {F : Type} [Mul F] (t : Tensor F) (val : F) : Res F :=
  t.dispatch (fun s => s.multiplyScalarCpu val)

/-- `Tensor::multiplyBias`. -/
def Tensor.multiplyBias {F : Type} [Mul F] (t bias : Tensor F) : Res F :=
  if biasShapesOk t.shape bias.shape then t.dispatch (fun s => s.multiplyBiasCpu bias)
  else .failed .shapeMismatch t

/-- `Tensor::divideTensor`. -/
def Tensor.divideTensor {F : Type} [Div F] (t other : Tensor F) : Res F :=
  if t.shape = other.shape then t.dispatch (fun s => s.divideTensorCpu other)
  else .failed .shapeMismatch t

/-- `Tensor::divideScalar`. -/
def Tensor.divideScalar {F : Type} [Div F] (t : Tensor F) (val : F) : Res F :=
  t.dispatch (fun s => s.divideScalarCpu val)

/-- `Tensor::negate`. -/
def Tensor.negate {F : Type} [Neg F] (t : Tensor F) : Res F :=
  t.dispatch (fun s => s.negateCpu)

/-- `Tensor::ReLU`. -/
def Tensor.ReLU {F : Type} [Zero F] [Max F] (t : Tensor F) : Res F :=
  t.dispatch (fun s => s.ReLUCpu)

/-- `Tensor::sigmoid`. -/
def Tensor.sigmoid {F : Type} [One F] [Add F] [Div F] [Neg F] [FloatMath F]
    (t : Tensor F) : Res F :=
  t.dispatch (fun s => s.sigmoidCpu)

/-- `Tensor::tanh`. -/
def Tensor.tanh {F : Type} [FloatMath F] (t : Tensor F) : Res F :=
  t.dispatch (fun s => s.tanhCpu)

/-- `Tensor::LReLU`. -/
def Tensor.LReLU {F : Type} [Zero F] [Mul F] [LT F] [∀ a b : F, Decidable (a < b)]
    (t : Tensor F) (alpha : F) : Res F :=
  t.dispatch (fun s => s.LReLUCpu alpha)

/-- `Tensor::ELU`. -/
def Tensor.ELU {F : Type} [Zero F] [One F] [Sub F] [Mul F] [LT F]
    [∀ a b : F, Decidable (a < b)] [FloatMath F] (t : Tensor F) (alpha : F) : Res F :=
  t.dispatch (fun s => s.ELUCpu alpha)

/-- `Tensor::square`. -/
def Tensor.square {F : Type} [Mul F] (t : Tensor F) : Res F :=
  t.dispatch (fun s => s.squareCpu)

/-- `Tensor::sqrt`. -/
def Tensor.sqrt {F : Type} [FloatMath F] (t : Tensor F) : Res F :=
  t.dispatch (fun s => s.sqrtCpu)

/-- `Tensor::exp`. -/
def Tensor.exp {F : Type} [FloatMath F] (t : Tensor F) : Res F :=
  t.dispatch (fun s => s.expCpu)

/-- `Tensor::log`. -/
def Tensor.log {F : Type} [FloatMath F] (t : Tensor F) : Res F :=
  t.dispatch (fun s => s.logCpu)

/-- `Tensor::zeroGrad`. -/
def Tensor.zeroGrad {F : Type} [Zero F] (t : Tensor F) : Res F :=
  t.dispatch (fun s => .done s.zeroGradCpu)

/-- The contract of a binary tensor-tensor operation `run` computing `op`: it completes
exactly when the two shapes are equal; on a mismatch it stops with the shape-mismatch error
and the tensor untouched; on a CPU tensor with equal shapes it replaces `values[i]` by
`op(values[i], other.values[i])` at every position and changes no other field. -/
def BinaryContract {F : Type} (run : Tensor F → Tensor F → Res F) (op : F → F → F)
    (t other : Tensor F) : Prop :=
  ((∃ t1, run t other = .done t1) ↔ t.shape = other.shape) ∧
  (t.shape ≠ other.shape → run t other = .failed .shapeMismatch t) ∧
  (t.shape = other.shape → t.device = Device.CPU →
    run t other = .done { t with cpuData := List.zipWith op t.cpuData other.cpuData } ∧
    (List.zipWith op t.cpuData other.cpuData).length = t.cpuData.length ∧
    ∀ i, i < t.cpuData.length →
      ∃ x y, t.cpuData[i]? = some x ∧ other.cpuData[i]? = some y ∧
        (List.zipWith op t.cpuData other.cpuData)[i]? = some (op x y))

/-- The sizes of a tensor agree: `len(shape) == len(strides)`, `totalSize == product(shape)`
(the product as the program computes it, in `int` arithmetic) and
`len(values) == totalSize`. -/
def Tensor.SizeInvariant {F : Type} (t : Tensor F) : Prop :=
  t.shape.length = t.strides.length ∧ t.totalSize = accumulateMul t.shape ∧
  (t.cpuData.length : Int) = t.totalSize

instance {F : Type} (t : Tensor F) : Decidable t.SizeInvariant := by
  unfold Tensor.SizeInvariant
  exact inferInstance

/-- The state `sample32T` is left in by `addTensor(sample32M)`. -/
def sample32TSum : Tensor Int :=
  { shape := [3, 2], strides := [1, 3], totalSize := 6, contiguous := false,
    cpuData := [20, 24, 23, 27, 26, 30], cpuGrad := [0, 0, 0, 0, 0, 0], device := Device.CPU }

/-! ## Sequences of operations -/

/-- The mutating member functions of `Tensor`, with their arguments.  `broadcastSource`
stands for the effect of `broadcast` on the tensor it is called on. -/
inductive Op (F : Type)
  | reshape (newShape : List Int)
  | flatten
  | transpose (order : List Int)
  | makeContiguous
  | edit (index : List Int) (val : F)
  | broadcastSource (newShape : List Int)
  | fill (val : F)
  | addTensor (other : Tensor F)
  | addScalar (val : F)
  | addBias (bias : Tensor F)
  | subtractTensor (other : Tensor F)
  | subtractScalar (val : F)
  | multiplyTensor (other : Tensor F)
  | multiplyScalar (val : F)
  | multiplyBias (bias : Tensor F)
  | divideTensor (other : Tensor F)
  | divideScalar (val : F)
  | negate
  | ReLU
  | sigmoid
  | tanh
  | LReLU (alpha : F)
  | ELU (alpha : F)
  | square
  | sqrt
  | exp
  | log
  | zeroGrad

/-- The outcome of an operation on a tensor. -/
def Op.run {F : Type} [FloatOps F] : Op F → Tensor F → Res F
  | .reshape newShape, t => t.reshape newShape
  | .flatten, t => t.flatten
  | .transpose order, t => t.transpose order
  | .makeContiguous, t => t.makeContiguous
  | .edit index val, t => t.edit index val
  | .broadcastSource newShape, t =>
    match t.broadcast newShape with
    | .done src _ => .done src
    | .failed e src => .failed e src
  | .fill val, t => t.fill val
  | .addTensor other, t => t.addTensor other
  | .addScalar val, t => t.addScalar val
  | .addBias bias, t => t.addBias bias
  | .subtractTensor other, t => t.subtractTensor other
  | .subtractScalar val, t => t.subtractScalar val
  | .multiplyTensor other, t => t.multiplyTensor other
  | .multiplyScalar val, t => t.multiplyScalar val
  | .multiplyBias bias, t => t.multiplyBias bias
  | .divideTensor other, t => t.divideTensor other
  | .divideScalar val, t => t.divideScalar val
  | .negate, t => t.negate
  | .ReLU, t => t.ReLU
  | .sigmoid, t => t.sigmoid
  | .tanh, t => t.tanh
  | .LReLU alpha, t => t.LReLU alpha
  | .ELU alpha, t => t.ELU alpha
  | .square, t => t.square
  | .sqrt, t => t.sqrt
  | .exp, t => t.exp
  | .log, t => t.log
  | .zeroGrad, t => t.zeroGrad

/-- The tensors that can be reached: built by the constructor from a shape satisfying
`okShape`, then modified by any sequence of successful operations satisfying `allowed`;
the tensors returned by an allowed `broadcast` on such a tensor are included. -/
inductive ReachableVia {F : Type} [FloatOps F] (okShape : List Int → Prop)
    (allowed : Op F → Prop) : Tensor F → Prop
  | create (shape : List Int) (dev : Device) (t : Tensor F) :
      okShape shape → Tensor.create shape dev = .ok t → ReachableVia okShape allowed t
  | step (t t1 : Tensor F) (op : Op F) :
      ReachableVia okShape allowed t → allowed op → op.run t = .done t1 →
      ReachableVia okShape allowed t1
  | broadcast (t src result : Tensor F) (newShape : List Int) :
      ReachableVia okShape allowed t → allowed (Op.broadcastSource newShape) →
      t.broadcast newShape = .done src result → ReachableVia okShape allowed result

/-- The tensors reachable by all operations from any constructor call. -/
def Reachable {F : Type} [FloatOps F] (t : Tensor F) : Prop :=
  ReachableVia (fun _ => True) (fun _ => True) t

/-- Two states of a tensor with the same shape, strides, `totalSize` and buffer length. -/
def SameSizes {F : Type} (t t1 : Tensor F) : Prop :=
  t1.shape = t.shape ∧ t1.strides = t.strides ∧ t1.totalSize = t.totalSize ∧
  t1.cpuData.length = t.cpuData.length

/-- Integers as a stand-in for the element type in the samples; the `<cmath>` functions,
which no sample uses, are the identity. -/
instance sampleFloatOps : FloatOps Int where
  expf := fun x => x
  tanhf := fun x => x
  sqrtf := fun x => x
  logf := fun x => x
  decLt := fun _ _ => inferInstance

/-- The constructed `2 x 3` tensor after `fill(7)`. -/
def sampleFill7 : Tensor Int :=
  { sampleNew23 with cpuData := [7, 7, 7, 7, 7, 7] }

/-- The state `sampleFill7` after `transpose([1, 0])`. -/
def sampleFill7T : Tensor Int :=
  { sample32T with cpuData := [7, 7, 7, 7, 7, 7] }

/-- The state `sampleFill7T` after `addScalar(1)`. -/
def sampleFill8T : Tensor Int :=
  { sample32T with cpuData := [8, 8, 8, 8, 8, 8] }

/-- The state `sampleFill8T` after `reshape([6])`. -/
def sampleFill8Flat : Tensor Int :=
  { shape := [6], strides := [1], totalSize := 6, contiguous := true,
    cpuData := [8, 8, 8, 8, 8, 8], cpuGrad := [0, 0, 0, 0, 0, 0], device := Device.CPU }

/-- A loop over the entries of a list, stopping at the first failing step. -/
def runList {α σ : Type} (step : α → σ → Except TensorError σ) :
    List α → σ → Except TensorError σ
  | [], s => .ok s
  | a :: l, s =>
    match step a s with
    | .ok s1 => runList step l s1
    | .error e => .error e

/-- The update a bias kernel applies for the multi-index `index`: the cell at
`sum(index[i] * strides[i])` is combined with the bias entry of channel `index[1]`. -/
def biasCellOf {F : Type} [Zero F] (op : F → F → F) (strides : List Int) (biasData : List F)
    (index : List Int) (data : List F) : Except TensorError (List F) :=
  match vecGetInt data (dot index strides) with
  | .ok x => vecSetInt data (dot index strides) (op x (biasData.getD (index.getD 1 0).toNat 0))
  | .error e => .error e

/-- A `2 x 3 x 4 x 4` tensor holding `0, 1, ..., 95`. -/
def sample2344 : Tensor Int :=
  { shape := [2, 3, 4, 4], strides := [48, 16, 4, 1], totalSize := 96, contiguous := true,
    cpuData := (List.range 96).map (fun k : Nat => (k : Int)),
    cpuGrad := List.replicate 96 0, device := Device.CPU }

/-- The bias vector `[1, 2, 3]`. -/
def sampleBias : Tensor Int :=
  { shape := [3], strides := [1], totalSize := 3, contiguous := true,
    cpuData := [1, 2, 3], cpuGrad := [0, 0, 0], device := Device.CPU }

/-! ## Sequences of calls and classes of operations -/

/-- Two member-function calls in sequence: the second runs on the state left by the first,
and a failure of the first ends the sequence. -/
def Res.andThen {F : Type} (r : Res F) (f : Tensor F → Res F) : Res F :=
  match r with
  | .done t => f t
  | .failed e t => .failed e t

/-- The calls `reshape`, `flatten`, `transpose` and `makeContiguous`. -/
def Op.isLayoutCall {F : Type} : Op F → Prop
  | .reshape _ => True
  | .flatten => True
  | .transpose _ => True
  | .makeContiguous => True
  | _ => False

/-- The constructed `2 x 3` tensor after `transpose([1, 0])`. -/
def sampleNew32T : Tensor Int :=
  { shape := [3, 2], strides := [1, 3], totalSize := 6, contiguous := false,
    cpuData := [0, 0, 0, 0, 0, 0], cpuGrad := [0, 0, 0, 0, 0, 0], device := Device.CPU }

/-- The tensor with its device tag replaced, everything else kept. -/
def Tensor.onDevice {F : Type} (t : Tensor F) (dev : Device) : Tensor F :=
  { t with device := dev }

/-- The member functions that route by the device tag
(`if (device == Device::CPU) ...Cpu();`): `makeContiguous`, `fill`, the scalar, tensor and
bias arithmetic, the activations and the other elementwise functions, and `zeroGrad`. -/
def Op.isRouted {F : Type} : Op F → Prop
  | .reshape _ => False
  | .flatten => False
  | .transpose _ => False
  | .edit _ _ => False
  | .broadcastSource _ => False
  | _ => True

/-- The routed member functions other than `makeContiguous`. -/
def Op.isElementwise {F : Type} : Op F → Prop
  | .reshape _ => False
  | .flatten => False
  | .transpose _ => False
  | .edit _ _ => False
  | .broadcastSource _ => False
  | .makeContiguous => False
  | _ => True

/-- The second state differs from the first in the values and gradient buffers only. -/
def DataOnly {F : Type} (t t1 : Tensor F) : Prop :=
  ∃ d g, t1 = { t with cpuData := d, cpuGrad := g }

/-- How the run of a routed member function on a tensor tagged `GPU` (outcome `rg`, started
from `tg`) relates to its run on the same tensor tagged `CPU` (outcome `rc`, started from
`tc`) without `USE_CUDA`: the first leaves the tensor as it is or stops at the shape
assertion; it completes whenever the second does; and it stops at the assertion only if the
second does. -/
def RoutedAlike {F : Type} (rg rc : Res F) (tg tc : Tensor F) : Prop :=
  (rg = .done tg ∨ rg = .failed .shapeMismatch tg) ∧
  (∀ t1, rc = .done t1 → rg = .done tg) ∧
  (rg = .failed .shapeMismatch tg → rc = .failed .shapeMismatch tc)

/-- The constructed `2 x 3` tensor tagged `GPU`. -/
def sampleGpu23 : Tensor Int := sampleNew23.onDevice Device.GPU

/-- The transposed view `sample32T` tagged `GPU`. -/
def sampleGpu32T : Tensor Int := sample32T.onDevice Device.GPU

/-- A shape all of whose dimensions are positive. -/
def PositiveShape (shape : List Int) : Prop := ∀ d ∈ shape, 0 < d

instance (shape : List Int) : Decidable (PositiveShape shape) := by
  unfold PositiveShape
  exact inferInstance

/-- The view operations: `reshape`, `flatten`, `transpose`, `makeContiguous` and
`broadcast`. -/
def Op.isView {F : Type} : Op F → Prop
  | .reshape _ => True
  | .flatten => True
  | .transpose _ => True
  | .makeContiguous => True
  | .broadcastSource _ => True
  | _ => False

/-- The invariant of the reachable tensors: the sizes agree and, unless a dimension is
negative or the product of the shape has left the `int` range, the layout is well
formed. -/
def Tensor.LayoutInvariant {F : Type} (t : Tensor F) : Prop :=
  t.SizeInvariant ∧ ((∀ d ∈ t.shape, 0 ≤ d) → FitsInt t.shape.prod → t.WellFormed)

/-- The constructed `2 x 3` tensor after `reshape([-2, -3])`. -/
def sampleNeg23 : Tensor Int :=
  { shape := [-2, -3], strides := [-3, 1], totalSize := 6, contiguous := true,
    cpuData := [0, 0, 0, 0, 0, 0], cpuGrad := [0, 0, 0, 0, 0, 0], device := Device.CPU }

/-- The tensor returned by the constructor for the shape `[1, 2, 1]` on the CPU. -/
def sampleNew121 : Tensor Int :=
  { shape := [1, 2, 1], strides := [2, 1, 1], totalSize := 2, contiguous := true,
    cpuData := [0, 0], cpuGrad := [0, 0], device := Device.CPU }

/-- The state `sampleNew121` after `reshape([-1, 2, -1])`. -/
def sampleNeg121 : Tensor Int :=
  { shape := [-1, 2, -1], strides := [-2, -1, 1], totalSize := 2, contiguous := true,
    cpuData := [0, 0], cpuGrad := [0, 0], device := Device.CPU }

/-- The state `sampleNeg121` after `transpose([0, 1, 2])`. -/
def sampleNeg121T : Tensor Int :=
  { shape := [-1, 2, -1], strides := [-2, -1, 1], totalSize := 2, contiguous := false,
    cpuData := [0, 0], cpuGrad := [0, 0], device := Device.CPU }

/-- The tensor returned by the constructor for the shape `[1]` on the CPU. -/
def sampleNew1 : Tensor Int :=
  { shape := [1], strides := [1], totalSize := 1, contiguous := true,
    cpuData := [0], cpuGrad := [0], device := Device.CPU }

/-- The state `sampleNew1` after `reshape([9, 954437177])`: the `int` product of the new
shape wraps to `1`. -/
def sampleWrapped : Tensor Int :=
  { shape := [9, 954437177], strides := [954437177, 1], totalSize := 1, contiguous := true,
    cpuData := [0], cpuGrad := [0], device := Device.CPU }

/-- The tensor returned by the constructor for the shape `[65536, 65536]`, whose `int`
product wraps to `0`. -/
def sampleWrappedEmpty : Tensor Int :=
  { shape := [65536, 65536], strides := [65536, 1], totalSize := 0, contiguous := true,
    cpuData := [], cpuGrad := [], device := Device.CPU }

/-! # Properties -/

/-! ## Basic facts about the primitives -/

theorem wrapInt_of_fits (x : Int) (h : FitsInt x) : wrapInt x = x := by
  obtain ⟨h1, h2⟩ := h
  unfold wrapInt
  omega

theorem wrapInt_fits (x : Int) : FitsInt (wrapInt x) := by
  unfold wrapInt FitsInt
  omega

/-- Reducing a factor first does not change the reduced product. -/
theorem wrapInt_mul_left (a b : Int) : wrapInt (wrapInt a * b) = wrapInt (a * b) := by
  have h : wrapInt a = a - 4294967296 * ((a + 2147483648) / 4294967296) := by
    unfold wrapInt
    omega
  have h2 : wrapInt a * b + 2147483648
      = (a * b + 2147483648) + 4294967296 * (-(((a + 2147483648) / 4294967296) * b)) := by
    rw [h]; ring
  unfold wrapInt at h2 ⊢
  rw [h2, Int.add_mul_emod_self_left]

theorem foldl_wrapInt_eq (l : List Int) :
    ∀ a : Int, l.foldl (fun acc d => wrapInt (acc * d)) (wrapInt a) = wrapInt (a * l.prod) := by
  induction l with
  | nil => intro a; simp
  | cons x xs ih =>
    intro a
    rw [List.foldl_cons, wrapInt_mul_left, ih, List.prod_cons, mul_assoc]

/-- The `int` product of a shape is the mathematical product reduced to the `int` range. -/
theorem accumulateMul_eq_wrapInt (shape : List Int) :
    accumulateMul shape = wrapInt shape.prod := by
  have h := foldl_wrapInt_eq shape 1
  rw [one_mul] at h
  exact h

theorem accumulateMul_fits (shape : List Int) : FitsInt (accumulateMul shape) := by
  rw [accumulateMul_eq_wrapInt]
  exact wrapInt_fits _

/-- When the mathematical product fits in `int`, the `int` product is that product. -/
theorem accumulateMul_eq_prod (shape : List Int) (h : FitsInt shape.prod) :
    accumulateMul shape = shape.prod := by
  rw [accumulateMul_eq_wrapInt, wrapInt_of_fits _ h]

theorem canonicalStrides_length (shape : List Int) :
    (canonicalStrides shape).length = shape.length := by
  induction shape with
  | nil => rfl
  | cons d ds ih => simp [canonicalStrides, ih]

theorem canonicalStrides_getElem? (shape : List Int) (i : Nat) (h : i < shape.length) :
    (canonicalStrides shape)[i]? = some ((shape.drop (i + 1)).prod) := by
  induction shape generalizing i with
  | nil => simp at h
  | cons d ds ih =>
    cases i with
    | zero => simp [canonicalStrides]
    | succ j =>
      simp only [List.length_cons, Nat.add_lt_add_iff_right] at h
      simpa [canonicalStrides] using ih j h

theorem vecResize_length (v : List Int) (n : Nat) : (vecResize v n).length = n := by
  simp [vecResize]
  omega

theorem drop_set_self {α : Type} (l : List α) (i : Nat) (v : α) (h : i < l.length) :
    (l.set i v).drop i = v :: l.drop (i + 1) := by
  induction l generalizing i with
  | nil => simp at h
  | cons x xs ih =>
    cases i with
    | zero => simp
    | succ j =>
      simp only [List.length_cons, Nat.add_lt_add_iff_right] at h
      simpa using ih j h

theorem computeStridesLoop_eq (shape : List Int) :
    ∀ (i : Nat) (strides : List Int), i ≤ shape.length → strides.length = shape.length →
      computeStridesLoop shape i ((shape.drop i).prod) strides
        = (canonicalStrides shape).take i ++ strides.drop i := by
  intro i
  induction i with
  | zero => intro strides _ _; simp [computeStridesLoop]
  | succ i ih =>
    intro strides hi hlen
    have hi' : i < shape.length := hi
    have hget : shape.getD i 0 = shape[i] := by
      simp [List.getD_eq_getElem?_getD, List.getElem?_eq_getElem hi']
    have hdrop : shape.drop i = shape[i] :: shape.drop (i + 1) :=
      (List.drop_eq_getElem_cons hi')
    have hprod : (shape.drop (i + 1)).prod * shape.getD i 0 = (shape.drop i).prod := by
      rw [hdrop, List.prod_cons, hget, mul_comm]
    rw [computeStridesLoop, hprod, ih _ (Nat.le_of_lt hi') (by simpa using hlen)]
    have hcs : i < (canonicalStrides shape).length := by
      rw [canonicalStrides_length]; exact hi'
    have hcsi : (canonicalStrides shape)[i] = (shape.drop (i + 1)).prod := by
      have := canonicalStrides_getElem? shape i hi'
      rw [List.getElem?_eq_getElem hcs] at this
      exact Option.some.inj this
    have hsl : i < strides.length := by omega
    rw [List.take_succ, List.getElem?_eq_getElem hcs, hcsi]
    simp [drop_set_self _ _ _ hsl, List.append_assoc]

theorem computeStrides_strides {F : Type} (t : Tensor F) :
    t.computeStrides.strides = canonicalStrides t.shape := by
  have h := computeStridesLoop_eq t.shape t.shape.length (vecResize t.strides t.shape.length)
    (Nat.le_refl _) (vecResize_length _ _)
  simp only [List.drop_length, List.prod_nil] at h
  simp only [Tensor.computeStrides, h]
  rw [List.take_of_length_le (by rw [canonicalStrides_length]), List.drop_of_length_le
    (by rw [vecResize_length])]
  simp

/-! ## Loops -/

theorem forLoop_inv {σ : Type} (body : Nat → σ → Except TensorError σ)
    (P : Nat → σ → Prop) :
    ∀ (n i : Nat) (s : σ), P i s →
      (∀ j s1, i ≤ j → j < i + n → P j s1 → ∃ s2, body j s1 = .ok s2 ∧ P (j + 1) s2) →
      ∃ s1, forLoop body i n s = .ok s1 ∧ P (i + n) s1 := by
  intro n
  induction n with
  | zero => intro i s h _; exact ⟨s, rfl, h⟩
  | succ n ih =>
    intro i s h hb
    obtain ⟨s2, h2, hP2⟩ := hb i s (Nat.le_refl _) (by omega) h
    obtain ⟨s3, h3, hP3⟩ := ih (i + 1) s2 hP2
      (fun j s1 hj hj2 hP => hb j s1 (by omega) (by omega) hP)
    refine ⟨s3, ?_, ?_⟩
    · simp only [forLoop, h2, h3]
    · have : i + (n + 1) = i + 1 + n := by omega
      rw [this]; exact hP3

theorem dot_cons (i s : Int) (is ss : List Int) :
    dot (i :: is) (s :: ss) = i * s + dot is ss := by
  simp [dot]

theorem getElem?_some_of_lt {α : Type} (l : List α) (i : Nat) (h : i < l.length) :
    l[i]? = some l[i] := List.getElem?_eq_getElem h

/-- On a valid index the loop of `at` and `edit` completes with `sum(index[i] * strides[i])`. -/
theorem offsetLoop_valid (shape strides index : List Int)
    (hs : strides.length = shape.length) (hx : index.length = shape.length) :
    ∀ (n i : Nat) (loc : Int), i + n = shape.length →
      ValidIndex (shape.drop i) (index.drop i) →
      forLoop (offsetLoop shape strides index) i n loc
        = .ok (loc + dot (index.drop i) (strides.drop i)) := by
  intro n
  induction n with
  | zero =>
    intro i loc hi _
    have h1 : index.drop i = [] := List.drop_of_length_le (by omega)
    simp [forLoop, h1, dot]
  | succ n ih =>
    intro i loc hi hv
    have hi1 : i < shape.length := by omega
    have hi2 : i < index.length := by omega
    have hi3 : i < strides.length := by omega
    rw [List.drop_eq_getElem_cons hi1, List.drop_eq_getElem_cons hi2] at hv
    rw [ValidIndex, List.forall₂_cons] at hv
    have hstep : offsetLoop shape strides index i loc = .ok (loc + index[i] * strides[i]) := by
      simp only [offsetLoop, getElem?_some_of_lt _ _ hi1, getElem?_some_of_lt _ _ hi2,
        vecGet, getElem?_some_of_lt _ _ hi3]
      rw [if_pos hv.1]
    rw [forLoop, hstep]
    simp only
    rw [ih (i + 1) _ (by omega) hv.2, List.drop_eq_getElem_cons hi2,
      List.drop_eq_getElem_cons hi3, dot_cons, add_assoc]

theorem ValidIndex.length_eq {shape index : List Int} (h : ValidIndex shape index) :
    index.length = shape.length :=
  (List.Forall₂.length_eq h).symm

theorem linearOffset_valid {F : Type} (t : Tensor F) (index : List Int)
    (hs : t.strides.length = t.shape.length) (hv : ValidIndex t.shape index) :
    t.linearOffset index = .ok (dot index t.strides) := by
  have hx := hv.length_eq
  have h := offsetLoop_valid t.shape t.strides index hs hx t.shape.length 0 0 (by omega)
    (by simpa using hv)
  simp only [Tensor.linearOffset, hx, if_true, h]
  simp

/-! ## Row-major enumeration -/

theorem range_mul_flatMap {β : Type} (P : Nat) (f : Nat → Nat → β) (D : Nat) :
    (List.range D).flatMap (fun q => (List.range P).map (fun r => f q r))
      = (List.range (D * P)).map (fun k => f (k / P) (k % P)) := by
  induction D with
  | zero => simp
  | succ D ih =>
    rw [List.range_succ, List.flatMap_append, ih, List.flatMap_singleton, Nat.succ_mul,
      List.range_add, List.map_append, List.map_map]
    congr 1
    apply List.map_congr_left
    intro r hr
    have hr' : r < P := List.mem_range.mp hr
    have hP : 0 < P := by omega
    simp only [Function.comp]
    rw [Nat.add_comm (D * P) r, Nat.add_mul_div_right _ _ hP, Nat.add_mul_mod_self_right,
      Nat.div_eq_of_lt hr', Nat.mod_eq_of_lt hr', Nat.zero_add]

theorem prod_nonneg_of_nonneg (shape : List Int) (h : ∀ d ∈ shape, 0 ≤ d) : 0 ≤ shape.prod := by
  induction shape with
  | nil => simp
  | cons d ds ih =>
    rw [List.prod_cons]
    exact mul_nonneg (h d (List.mem_cons_self _ _))
      (ih (fun x hx => h x (List.mem_cons_of_mem _ hx)))

theorem prod_cons_toNat (d : Int) (ds : List Int) (h : ∀ x ∈ d :: ds, 0 ≤ x) :
    (d :: ds).prod.toNat = d.toNat * ds.prod.toNat := by
  have hd : 0 ≤ d := h d (List.mem_cons_self _ _)
  have hp : 0 ≤ ds.prod := prod_nonneg_of_nonneg ds (fun x hx => h x (List.mem_cons_of_mem _ hx))
  rw [List.prod_cons]
  apply Int.ofNat.inj
  simp only [Int.ofNat_eq_coe]
  rw [Int.toNat_of_nonneg (mul_nonneg hd hp)]
  push_cast
  rw [Int.toNat_of_nonneg hd, Int.toNat_of_nonneg hp]

theorem rowMajor_eq_map_unravel (shape : List Int) (h : ∀ d ∈ shape, 0 ≤ d) :
    rowMajor shape = (List.range shape.prod.toNat).map (unravel shape) := by
  induction shape with
  | nil => simp [rowMajor, unravel]
  | cons d ds ih =>
    have hds : ∀ x ∈ ds, 0 ≤ x := fun x hx => h x (List.mem_cons_of_mem _ hx)
    rw [rowMajor, ih hds, prod_cons_toNat d ds h]
    simp only [List.map_map]
    exact range_mul_flatMap ds.prod.toNat (fun q r => ((q : Nat) : Int) :: unravel ds r) d.toNat

theorem rowMajor_length (shape : List Int) (h : ∀ d ∈ shape, 0 ≤ d) :
    (rowMajor shape).length = shape.prod.toNat := by
  rw [rowMajor_eq_map_unravel shape h]; simp

theorem rowMajor_getElem (shape : List Int) (h : ∀ d ∈ shape, 0 ≤ d) (k : Nat)
    (hk : k < (rowMajor shape).length) : (rowMajor shape)[k] = unravel shape k := by
  have h1 : (rowMajor shape)[k]? = some (unravel shape k) := by
    rw [rowMajor_eq_map_unravel shape h]
    rw [rowMajor_length shape h] at hk
    simp [List.getElem?_map, List.getElem?_range hk]
  rw [List.getElem?_eq_getElem hk] at h1
  exact Option.some.inj h1

/-- Row-major offsets count up: the canonical offset of the `k`-th index is `k`. -/
theorem dot_unravel (shape : List Int) (h : ∀ d ∈ shape, 0 ≤ d) :
    ∀ k : Nat, k < shape.prod.toNat → dot (unravel shape k) (canonicalStrides shape) = k := by
  induction shape with
  | nil =>
    intro k hk
    simp at hk
    simp [unravel, canonicalStrides, dot, hk]
  | cons d ds ih =>
    intro k hk
    have hds : ∀ x ∈ ds, 0 ≤ x := fun x hx => h x (List.mem_cons_of_mem _ hx)
    have hp : 0 ≤ ds.prod := prod_nonneg_of_nonneg ds hds
    rw [prod_cons_toNat d ds h] at hk
    have hP : 0 < ds.prod.toNat := by
      rcases Nat.eq_zero_or_pos ds.prod.toNat with h0 | h0
      · rw [h0] at hk; simp at hk
      · exact h0
    rw [unravel, canonicalStrides, dot_cons, ih hds _ (Nat.mod_lt _ hP)]
    have hc : ((ds.prod.toNat : Nat) : Int) = ds.prod := Int.toNat_of_nonneg hp
    rw [← hc]
    have := Nat.div_add_mod k ds.prod.toNat
    rw [mul_comm]
    exact_mod_cast this

theorem unravel_valid (shape : List Int) (h : ∀ d ∈ shape, 0 ≤ d) :
    ∀ k : Nat, k < shape.prod.toNat → ValidIndex shape (unravel shape k) := by
  induction shape with
  | nil => intro k _; exact List.Forall₂.nil
  | cons d ds ih =>
    intro k hk
    have hds : ∀ x ∈ ds, 0 ≤ x := fun x hx => h x (List.mem_cons_of_mem _ hx)
    have hd : 0 ≤ d := h d (List.mem_cons_self _ _)
    rw [prod_cons_toNat d ds h] at hk
    have hP : 0 < ds.prod.toNat := by
      rcases Nat.eq_zero_or_pos ds.prod.toNat with h0 | h0
      · rw [h0] at hk; simp at hk
      · exact h0
    rw [unravel, ValidIndex, List.forall₂_cons]
    refine ⟨⟨by positivity, ?_⟩, ih hds _ (Nat.mod_lt _ hP)⟩
    have h1 : k / ds.prod.toNat < d.toNat :=
      Nat.div_lt_of_lt_mul (by rw [Nat.mul_comm]; exact hk)
    have h2 : ((d.toNat : Nat) : Int) = d := Int.toNat_of_nonneg hd
    rw [← h2]
    exact_mod_cast h1

theorem dot_canonical_bounds {shape index : List Int} (hv : ValidIndex shape index) :
    0 ≤ dot index (canonicalStrides shape) ∧ dot index (canonicalStrides shape) < shape.prod := by
  induction hv with
  | nil => simp [canonicalStrides, dot]
  | @cons d i ds is hd _ ih =>
    rw [canonicalStrides, dot_cons, List.prod_cons]
    obtain ⟨h0, h1⟩ := ih
    have hP : 0 < ds.prod := lt_of_le_of_lt h0 h1
    constructor
    · have := mul_nonneg hd.1 (le_of_lt hP)
      omega
    · have h2 : i * ds.prod ≤ (d - 1) * ds.prod :=
        mul_le_mul_of_nonneg_right (by omega) (le_of_lt hP)
      have h3 : (d - 1) * ds.prod = d * ds.prod - ds.prod := by ring
      omega

theorem unravel_dot {shape index : List Int} (hv : ValidIndex shape index) :
    unravel shape (dot index (canonicalStrides shape)).toNat = index := by
  induction hv with
  | nil => simp [unravel]
  | @cons d i ds is hd hrest ih =>
    have hb := dot_canonical_bounds hrest
    obtain ⟨h0, h1⟩ := hb
    have hP : 0 < ds.prod := lt_of_le_of_lt h0 h1
    rw [canonicalStrides, dot_cons, unravel]
    have hk : (i * ds.prod + dot is (canonicalStrides ds)).toNat
        = (dot is (canonicalStrides ds)).toNat + ds.prod.toNat * i.toNat := by
      apply Int.ofNat.inj
      simp only [Int.ofNat_eq_coe]
      rw [Int.toNat_of_nonneg (by have := mul_nonneg hd.1 (le_of_lt hP); omega)]
      push_cast
      rw [Int.toNat_of_nonneg h0, Int.toNat_of_nonneg (le_of_lt hP), Int.toNat_of_nonneg hd.1]
      ring
    have hPn : 0 < ds.prod.toNat := by omega
    have hr : (dot is (canonicalStrides ds)).toNat < ds.prod.toNat := by omega
    rw [hk, Nat.add_mul_div_left _ _ hPn, Nat.add_mul_mod_self_left, Nat.div_eq_of_lt hr,
      Nat.mod_eq_of_lt hr, ih]
    simp [Int.toNat_of_nonneg hd.1]

theorem forLoop_inv_or {σ : Type} (body : Nat → σ → Except TensorError σ)
    (P : Nat → σ → Prop) (e : TensorError) :
    ∀ (n i : Nat) (s : σ), P i s →
      (∀ j s1, i ≤ j → j < i + n → P j s1 →
        (∃ s2, body j s1 = .ok s2 ∧ P (j + 1) s2) ∨ body j s1 = .error e) →
      (∃ s1, forLoop body i n s = .ok s1 ∧ P (i + n) s1) ∨ forLoop body i n s = .error e := by
  intro n
  induction n with
  | zero => intro i s h _; exact Or.inl ⟨s, rfl, h⟩
  | succ n ih =>
    intro i s h hb
    rcases hb i s (Nat.le_refl _) (by omega) h with ⟨s2, h2, hP2⟩ | herr
    · rcases ih (i + 1) s2 hP2 (fun j s1 hj hj2 hP => hb j s1 (by omega) (by omega) hP) with
        ⟨s3, h3, hP3⟩ | herr
      · left
        refine ⟨s3, ?_, ?_⟩
        · simp only [forLoop, h2, h3]
        · have : i + (n + 1) = i + 1 + n := by omega
          rw [this]; exact hP3
      · right
        simp only [forLoop, h2, herr]
    · right
      simp only [forLoop, herr]

theorem set_append_replicate {α : Type} (a : List α) (m : Nat) (z v : α) :
    (a ++ List.replicate (m + 1) z).set a.length v = (a ++ [v]) ++ List.replicate m z := by
  induction a with
  | nil => simp [List.replicate_succ]
  | cons x xs ih => simpa using ih

theorem getD_of_lt {α : Type} (l : List α) (i : Nat) (d : α) (h : i < l.length) :
    l.getD i d = l[i] := by
  rw [List.getD_eq_getElem?_getD, List.getElem?_eq_getElem h]
  rfl

theorem vecGet_of_lt {α : Type} (v : List α) (i : Nat) (h : i < v.length) :
    vecGet v i = .ok v[i] := by
  simp only [vecGet, List.getElem?_eq_getElem h]

theorem vecGet_getD {α : Type} (v : List α) (i : Nat) (d : α) (h : i < v.length) :
    vecGet v i = .ok (v.getD i d) := by
  rw [vecGet_of_lt v i h, getD_of_lt v i d h]

theorem take_succ_map_getD (order : List Int) (f : Int → Int) (j : Nat) (h : j < order.length) :
    (order.take (j + 1)).map f = (order.take j).map f ++ [f (order.getD j 0)] := by
  rw [List.take_succ, List.getElem?_eq_getElem h, getD_of_lt order j 0 h]
  simp only [Option.toList, List.map_append, List.map_cons, List.map_nil]

/-- The loop of `transpose` either completes, with every entry of `order` in range and the
two gathered vectors as its result, or stops at the range assertion. -/
theorem transposeLoop_cases (shape strides order : List Int)
    (hs : strides.length = shape.length) (ho : order.length = shape.length) :
    (forLoop (transposeStep shape strides order) 0 shape.length
        (List.replicate shape.length 0, List.replicate strides.length 0)
        = .ok (permuteBy shape order, permuteBy strides order)
      ∧ ∀ o ∈ order, 0 ≤ o ∧ o < (shape.length : Int))
    ∨ forLoop (transposeStep shape strides order) 0 shape.length
        (List.replicate shape.length 0, List.replicate strides.length 0)
        = .error .invalidPermutation := by
  have key := forLoop_inv_or (transposeStep shape strides order)
    (fun j st => j ≤ shape.length ∧
      st.1 = permuteBy shape (order.take j) ++ List.replicate (shape.length - j) 0 ∧
      st.2 = permuteBy strides (order.take j) ++ List.replicate (shape.length - j) 0 ∧
      ∀ o ∈ order.take j, 0 ≤ o ∧ o < (shape.length : Int))
    .invalidPermutation shape.length 0
    (List.replicate shape.length 0, List.replicate strides.length 0)
    (by simp [permuteBy, hs])
    (by
      intro j st _ hj hP
      obtain ⟨_, h1, h2, h3⟩ := hP
      have hj' : j < shape.length := by omega
      have hjo : j < order.length := by omega
      by_cases hr : 0 ≤ order.getD j 0 ∧ (order.getD j 0).toNat < shape.length
      · left
        have hrs : (order.getD j 0).toNat < strides.length := by omega
        have hl1 : (permuteBy shape (order.take j)).length = j := by
          simp [permuteBy, List.length_take]; omega
        have hl2 : (permuteBy strides (order.take j)).length = j := by
          simp [permuteBy, List.length_take]; omega
        have hrep : shape.length - j = (shape.length - (j + 1)) + 1 := by omega
        refine ⟨(permuteBy shape (order.take (j + 1))
            ++ List.replicate (shape.length - (j + 1)) 0,
          permuteBy strides (order.take (j + 1))
            ++ List.replicate (shape.length - (j + 1)) 0), ?_, by omega, rfl, rfl, ?_⟩
        · have e1 : vecSet st.1 j (shape.getD (order.getD j 0).toNat 0)
              = .ok (permuteBy shape (order.take (j + 1))
                  ++ List.replicate (shape.length - (j + 1)) 0) := by
            rw [vecSet, if_pos (by rw [h1]; simp [hl1]; omega), h1, hrep]
            have := set_append_replicate (permuteBy shape (order.take j))
              (shape.length - (j + 1)) 0 (shape.getD (order.getD j 0).toNat 0)
            rw [hl1] at this
            rw [this, permuteBy, permuteBy, take_succ_map_getD _ _ _ hjo]
          have e2 : vecGet strides (order.getD j 0).toNat
              = .ok (strides.getD (order.getD j 0).toNat 0) := vecGet_getD _ _ _ hrs
          have e3 : vecSet st.2 j (strides.getD (order.getD j 0).toNat 0)
              = .ok (permuteBy strides (order.take (j + 1))
                  ++ List.replicate (shape.length - (j + 1)) 0) := by
            rw [vecSet, if_pos (by rw [h2]; simp [hl2]; omega), h2, hrep]
            have := set_append_replicate (permuteBy strides (order.take j))
              (shape.length - (j + 1)) 0 (strides.getD (order.getD j 0).toNat 0)
            rw [hl2] at this
            rw [this, permuteBy, permuteBy, take_succ_map_getD _ _ _ hjo]
          simp only [transposeStep, if_pos hr, e1, e2, e3]
        · intro o ho'
          rw [List.take_succ, List.getElem?_eq_getElem hjo] at ho'
          simp only [Option.toList, List.mem_append, List.mem_singleton] at ho'
          rcases ho' with ho' | ho'
          · exact h3 o ho'
          · have : order.getD j 0 = order[j] := by
              simp [List.getD_eq_getElem?_getD, List.getElem?_eq_getElem hjo]
            rw [ho', ← this]
            omega
      · right
        simp only [transposeStep, if_neg hr])
  rcases key with ⟨s1, hrun, _, h1, h2, h3⟩ | herr
  · left
    have ht : order.take (0 + shape.length) = order := by
      rw [Nat.zero_add, ← ho]; exact List.take_length _
    rw [ht] at h1 h2 h3
    simp only [Nat.zero_add, Nat.sub_self, List.replicate_zero, List.append_nil] at h1 h2
    refine ⟨?_, h3⟩
    rw [hrun, ← h1, ← h2]
  · right; exact herr

theorem dedup_length_eq_iff (l : List Int) : l.dedup.length = l.length ↔ l.Nodup := by
  constructor
  · intro h
    have := (List.dedup_sublist l).eq_of_length h
    exact List.dedup_eq_self.mp this
  · intro h
    rw [List.dedup_eq_self.mpr h]

/-- With a permutation as order, `transpose` completes and gathers shape and strides. -/
theorem transpose_done {F : Type} (t : Tensor F) (order : List Int)
    (hs : t.strides.length = t.shape.length) (hp : IsPermutation order t.shape.length) :
    t.transpose order = .done { t with shape := permuteBy t.shape order,
                                       strides := permuteBy t.strides order,
                                       contiguous := false } := by
  obtain ⟨hl, hnd, hr⟩ := hp
  have hd : order.dedup.length = t.shape.length := by
    rw [(dedup_length_eq_iff order).mpr hnd, hl]
  rcases transposeLoop_cases t.shape t.strides order hs hl with ⟨hrun, _⟩ | herr
  · simp only [Tensor.transpose, hl, hd, if_true, hrun]
  · exfalso
    -- the loop cannot stop: every entry is in range
    have key := forLoop_inv (transposeStep t.shape t.strides order)
      (fun j st => st.1.length = t.shape.length ∧ st.2.length = t.shape.length)
      t.shape.length 0
      (List.replicate t.shape.length 0, List.replicate t.strides.length 0)
      (by simp [hs])
      (by
        intro j st _ hj hP
        have hjo : j < order.length := by omega
        have hmem : order.getD j 0 ∈ order := by
          simp [List.getD_eq_getElem?_getD, List.getElem?_eq_getElem hjo]
        have hrange := hr _ hmem
        have hr' : 0 ≤ order.getD j 0 ∧ (order.getD j 0).toNat < t.shape.length := by omega
        have hrs : (order.getD j 0).toNat < t.strides.length := by omega
        have e2 : vecGet t.strides (order.getD j 0).toNat
            = .ok (t.strides.getD (order.getD j 0).toNat 0) := vecGet_getD _ _ _ hrs
        refine ⟨(st.1.set j (t.shape.getD (order.getD j 0).toNat 0),
          st.2.set j (t.strides.getD (order.getD j 0).toNat 0)), ?_, by simp [hP.1], by simp [hP.2]⟩
        simp only [transposeStep, if_pos hr', vecSet, e2]
        rw [if_pos (by omega), if_pos (by omega)])
    obtain ⟨s1, hrun, _⟩ := key
    rw [herr] at hrun
    cases hrun

/-- When the order is not a permutation, `transpose` stops at one of its assertions with
the tensor untouched. -/
theorem transpose_failed {F : Type} (t : Tensor F) (order : List Int)
    (hs : t.strides.length = t.shape.length) (hp : ¬ IsPermutation order t.shape.length) :
    t.transpose order = .failed .invalidPermutation t := by
  by_cases hl : order.length = t.shape.length
  · by_cases hd : order.dedup.length = t.shape.length
    · have hnd : order.Nodup := (dedup_length_eq_iff order).mp (by rw [hd, hl])
      rcases transposeLoop_cases t.shape t.strides order hs hl with ⟨_, hr⟩ | herr
      · exact absurd ⟨hl, hnd, hr⟩ hp
      · simp only [Tensor.transpose, hl, hd, if_true, herr]
    · simp only [Tensor.transpose, hl, hd, if_true, if_false]
  · simp only [Tensor.transpose, hl, if_false]
theorem permuteBy_length (v order : List Int) : (permuteBy v order).length = order.length := by
  simp [permuteBy]

theorem permuteBy_getElem? (v order : List Int) (i o : Nat) (ho : order[i]? = some (o : Int))
    (hlt : o < v.length) : (permuteBy v order)[i]? = v[o]? := by
  simp only [permuteBy, List.getElem?_map, ho, Option.map_some', Int.toNat_ofNat]
  rw [getD_of_lt v o 0 hlt, List.getElem?_eq_getElem hlt]

/-- C4.  For a tensor of rank `r` and an order that is a permutation of `[0, r)`,
`transpose(order)` completes; afterwards `shape[i] = oldShape[order[i]]` and
`strides[i] = oldStrides[order[i]]` for every `i < r`, the values buffer and `totalSize`
are unchanged, and `contiguous` is `false` whatever the order is (the identity included). -/
theorem transpose_permutes_layout {F : Type} (t : Tensor F) (order : List Int)
    (hs : t.strides.length = t.shape.length) (hp : IsPermutation order t.shape.length) :
    ∃ t1, t.transpose order = .done t1 ∧
      t1.shape.length = t.shape.length ∧ t1.strides.length = t.shape.length ∧
      (∀ i, i < t.shape.length →
        ∃ o : Nat, order[i]? = some (o : Int) ∧ o < t.shape.length ∧
          t1.shape[i]? = t.shape[o]? ∧ t1.strides[i]? = t.strides[o]?) ∧
      t1.cpuData = t.cpuData ∧ t1.totalSize = t.totalSize ∧ t1.contiguous = false ∧
      t1.cpuGrad = t.cpuGrad ∧ t1.device = t.device := by
  refine ⟨_, transpose_done t order hs hp, ?_, ?_, ?_, rfl, rfl, rfl, rfl, rfl⟩
  · simp only [permuteBy_length, hp.1]
  · simp only [permuteBy_length, hp.1]
  · intro i hi
    have hio : i < order.length := by rw [hp.1]; exact hi
    have hrange := hp.2.2 order[i] (List.getElem_mem hio)
    refine ⟨order[i].toNat, ?_, by omega, ?_, ?_⟩
    · rw [List.getElem?_eq_getElem hio, Int.toNat_of_nonneg hrange.1]
    · exact permuteBy_getElem? _ _ _ _
        (by rw [List.getElem?_eq_getElem hio, Int.toNat_of_nonneg hrange.1]) (by omega)
    · exact permuteBy_getElem? _ _ _ _
        (by rw [List.getElem?_eq_getElem hio, Int.toNat_of_nonneg hrange.1]) (by omega)

/-- C4 at the identity order on a canonical `2 x 3` tensor: the layout stays canonical and
the flag is cleared all the same. -/
theorem transpose_permutes_layout_witness :
    sample23.strides.length = sample23.shape.length ∧
    IsPermutation [0, 1] sample23.shape.length ∧
    ∃ t1, sample23.transpose [0, 1] = .done t1 ∧
      t1.shape.length = sample23.shape.length ∧ t1.strides.length = sample23.shape.length ∧
      (∀ i, i < sample23.shape.length →
        ∃ o : Nat, ([0, 1] : List Int)[i]? = some (o : Int) ∧ o < sample23.shape.length ∧
          t1.shape[i]? = sample23.shape[o]? ∧ t1.strides[i]? = sample23.strides[o]?) ∧
      t1.cpuData = sample23.cpuData ∧ t1.totalSize = sample23.totalSize ∧
      t1.contiguous = false ∧ t1.cpuGrad = sample23.cpuGrad ∧ t1.device = sample23.device :=
  ⟨by decide, by decide, transpose_permutes_layout sample23 [0, 1] (by decide) (by decide)⟩

/-- C5.  `transpose(order)` completes exactly when `order` is a permutation of `[0, rank)`;
for every other order it stops with the invalid-permutation error and the tensor (shape,
strides, flag, values and all other fields) is the one before the call. -/
theorem transpose_succeeds_iff_permutation {F : Type} (t : Tensor F) (order : List Int)
    (hs : t.strides.length = t.shape.length) :
    ((∃ t1, t.transpose order = .done t1) ↔ IsPermutation order t.shape.length) ∧
    (¬ IsPermutation order t.shape.length →
      t.transpose order = .failed .invalidPermutation t) := by
  refine ⟨⟨?_, fun hp => ⟨_, transpose_done t order hs hp⟩⟩, transpose_failed t order hs⟩
  rintro ⟨t1, h1⟩
  by_contra hp
  rw [transpose_failed t order hs hp] at h1
  cases h1

/-- C5 on a `2 x 3` tensor with the orders `[1, 1]` (duplicate) and `[0, 2]` (out of range). -/
theorem transpose_succeeds_iff_permutation_witness :
    sample23.strides.length = sample23.shape.length ∧
    sample23.transpose [1, 1] = .failed .invalidPermutation sample23 ∧
    sample23.transpose [0, 2] = .failed .invalidPermutation sample23 ∧
    ∃ t1, sample23.transpose [1, 0] = .done t1 :=
  ⟨by decide,
   (transpose_succeeds_iff_permutation sample23 [1, 1] (by decide)).2 (by decide),
   (transpose_succeeds_iff_permutation sample23 [0, 2] (by decide)).2 (by decide),
   (transpose_succeeds_iff_permutation sample23 [1, 0] (by decide)).1.mpr (by decide)⟩

/-! ## The index odometer -/

theorem linIdxLoop_eq (index strides : List Int) (hl : index.length = strides.length) :
    ∀ (n i : Nat) (lin : Int), i + n = strides.length →
      forLoop (linIdxStep index strides) i n lin
        = .ok (lin + dot (index.drop i) (strides.drop i)) := by
  intro n
  induction n with
  | zero =>
    intro i lin hi
    have h1 : index.drop i = [] := List.drop_of_length_le (by omega)
    simp [forLoop, h1, dot]
  | succ n ih =>
    intro i lin hi
    have hi2 : i < index.length := by omega
    have hi3 : i < strides.length := by omega
    have hstep : linIdxStep index strides i lin = .ok (lin + index[i] * strides[i]) := by
      simp only [linIdxStep, vecGet_of_lt _ _ hi3, getD_of_lt _ _ _ hi2]
    rw [forLoop, hstep]
    simp only
    rw [ih (i + 1) _ (by omega), List.drop_eq_getElem_cons hi2,
      List.drop_eq_getElem_cons hi3, dot_cons, add_assoc]

theorem advanceC_snoc (spre : List Int) :
    ∀ (pre : List Int) (d x : Int), pre.length = spre.length →
      advanceC (spre ++ [d]) (pre ++ [x])
        = if x + 1 < d then (pre ++ [x + 1], false)
          else ((advanceC spre pre).1 ++ [0], (advanceC spre pre).2) := by
  induction spre with
  | nil =>
    intro pre d x hl
    have : pre = [] := List.length_eq_zero.mp hl
    subst this
    simp [advanceC]
  | cons s ss ih =>
    intro pre d x hl
    cases pre with
    | nil => simp at hl
    | cons p ps =>
      have hl' : ps.length = ss.length := by simpa using hl
      rw [List.cons_append, List.cons_append, advanceC, ih ps d x hl']
      by_cases hx : x + 1 < d
      · simp [hx]
      · simp only [hx, if_false]
        rw [advanceC]
        by_cases hc : (advanceC ss ps).2 = true
        · by_cases hp : p + 1 < s <;> simp [hc, hp]
        · simp [hc]

theorem getD_append_cons {α : Type} (a b : List α) (x d : α) :
    (a ++ x :: b).getD a.length d = x := by
  induction a with
  | nil => simp
  | cons y ys ih => simpa using ih

theorem set_append_cons {α : Type} (a b : List α) (x y : α) :
    (a ++ x :: b).set a.length y = a ++ y :: b := by
  induction a with
  | nil => simp
  | cons z zs ih => simp [ih]

theorem advanceLoop_append (spre : List Int) :
    ∀ (pre : List Int), pre.length = spre.length → ∀ (ssuf suf : List Int),
      advanceLoop (spre ++ ssuf) spre.length (pre ++ suf) = (advanceC spre pre).1 ++ suf := by
  induction spre using List.reverseRecOn with
  | nil =>
    intro pre hl ssuf suf
    have : pre = [] := List.length_eq_zero.mp hl
    subst this
    simp [advanceLoop, advanceC]
  | append_singleton sp d ih =>
    intro pre hl ssuf suf
    rcases List.eq_nil_or_concat pre with hnil | ⟨pp, x, hpre⟩
    · subst hnil; simp at hl
    · subst hpre
      rw [List.concat_eq_append] at hl ⊢
      have hl' : pp.length = sp.length := by simpa using hl
      have hlen : (sp ++ [d]).length = sp.length + 1 := by simp
      rw [hlen, advanceC_snoc sp pp d x hl']
      simp only [List.append_assoc, List.singleton_append]
      rw [advanceLoop]
      rw [← hl', getD_append_cons, set_append_cons, getD_append_cons, set_append_cons, hl',
        getD_append_cons]
      by_cases hx : x + 1 < d
      · simp [hx]
      · simp only [hx, if_false]
        have := ih pp hl' (d :: ssuf) (0 :: suf)
        simp only [List.append_assoc, List.singleton_append] at this ⊢
        exact this

theorem advanceLoop_eq_advanceC (shape index : List Int) (hl : index.length = shape.length) :
    advanceLoop shape shape.length index = (advanceC shape index).1 := by
  have := advanceLoop_append shape index hl [] []
  simpa using this

theorem unravel_length (shape : List Int) : ∀ k, (unravel shape k).length = shape.length := by
  induction shape with
  | nil => intro k; rfl
  | cons d ds ih => intro k; simp [unravel, ih]

theorem unravel_zero (shape : List Int) : unravel shape 0 = List.replicate shape.length 0 := by
  induction shape with
  | nil => rfl
  | cons d ds ih => simp [unravel, ih, List.replicate_succ]

theorem div_mod_succ_lt (k P : Nat) (h : k % P + 1 < P) :
    (k + 1) / P = k / P ∧ (k + 1) % P = k % P + 1 := by
  have hP : 0 < P := by omega
  rw [Nat.div_mod_unique hP]
  have := Nat.div_add_mod k P
  omega

theorem div_mod_succ_eq (k P : Nat) (hP : 0 < P) (h : k % P + 1 = P) :
    (k + 1) / P = k / P + 1 ∧ (k + 1) % P = 0 := by
  rw [Nat.div_mod_unique hP]
  have := Nat.div_add_mod k P
  rw [Nat.mul_succ]
  omega

/-- One advance of the odometer moves from the `k`-th index to the `(k+1)`-th, and wraps to
the zero index after the last one. -/
theorem advanceC_unravel (shape : List Int) (h : ∀ d ∈ shape, 0 ≤ d) :
    ∀ k : Nat, k < shape.prod.toNat →
      advanceC shape (unravel shape k)
        = if k + 1 < shape.prod.toNat then (unravel shape (k + 1), false)
          else (List.replicate shape.length 0, true) := by
  induction shape with
  | nil =>
    intro k hk
    simp at hk
    simp [advanceC, unravel, hk]
  | cons d ds ih =>
    intro k hk
    have hds : ∀ x ∈ ds, 0 ≤ x := fun x hx => h x (List.mem_cons_of_mem _ hx)
    have hd : 0 ≤ d := h d (List.mem_cons_self _ _)
    rw [prod_cons_toNat d ds h] at hk ⊢
    have hP : 0 < ds.prod.toNat := by
      rcases Nat.eq_zero_or_pos ds.prod.toNat with h0 | h0
      · rw [h0] at hk; simp at hk
      · exact h0
    have hr := Nat.mod_lt k hP
    have hq : k / ds.prod.toNat < d.toNat :=
      Nat.div_lt_of_lt_mul (by rw [Nat.mul_comm]; exact hk)
    have hdm := Nat.div_add_mod k ds.prod.toNat
    have hdc : ((d.toNat : Nat) : Int) = d := Int.toNat_of_nonneg hd
    simp only [unravel, advanceC, ih hds _ hr]
    by_cases hc : k % ds.prod.toNat + 1 < ds.prod.toNat
    · obtain ⟨e1, e2⟩ := div_mod_succ_lt k _ hc
      have hlt : k + 1 < d.toNat * ds.prod.toNat := by
        have : (k / ds.prod.toNat + 1) * ds.prod.toNat ≤ d.toNat * ds.prod.toNat :=
          Nat.mul_le_mul_right _ hq
        rw [Nat.succ_mul, Nat.mul_comm] at this
        omega
      simp only [hc, hlt, e1, e2, if_true, Bool.false_eq_true, if_false]
    · have hc' : k % ds.prod.toNat + 1 = ds.prod.toNat := by omega
      obtain ⟨e1, e2⟩ := div_mod_succ_eq k _ hP hc'
      have hk1 : k + 1 = (k / ds.prod.toNat + 1) * ds.prod.toNat := by
        rw [Nat.succ_mul, Nat.mul_comm]; omega
      simp only [hc, if_false, if_true]
      by_cases hq1 : ((k / ds.prod.toNat : Nat) : Int) + 1 < d
      · have hq2 : k / ds.prod.toNat + 1 < d.toNat := by omega
        have hlt : k + 1 < d.toNat * ds.prod.toNat := by
          rw [hk1]; exact Nat.mul_lt_mul_of_pos_right hq2 hP
        simp only [hq1, hlt, e1, e2, unravel_zero, if_true, Nat.cast_add, Nat.cast_one]
      · have hq2 : k / ds.prod.toNat + 1 = d.toNat := by omega
        have hlt : ¬ (k + 1 < d.toNat * ds.prod.toNat) := by
          rw [hk1, hq2]; omega
        simp only [hq1, hlt, if_false, List.replicate_succ, List.length_cons]

/-! ## Addresses stay inside the buffer -/

theorem exists_perm_map {α β : Type} (f : α → β) {m l1 : List β} (h : l1.Perm m) :
    ∀ L : List α, L.map f = l1 → ∃ L1 : List α, L1.Perm L ∧ L1.map f = m := by
  induction h with
  | nil =>
    intro L hL
    exact ⟨L, List.Perm.refl _, hL⟩
  | cons x _ ih =>
    intro L hL
    obtain ⟨a, L0, rfl, ha, hL0⟩ := List.map_eq_cons_iff.mp hL
    obtain ⟨L1, hp, hm⟩ := ih L0 hL0
    exact ⟨a :: L1, List.Perm.cons a hp, by simp [ha, hm]⟩
  | swap x y l =>
    intro L hL
    obtain ⟨a, L0, rfl, ha, hL0⟩ := List.map_eq_cons_iff.mp hL
    obtain ⟨b, L00, rfl, hb, hL00⟩ := List.map_eq_cons_iff.mp hL0
    exact ⟨b :: a :: L00, List.Perm.swap a b L00, by simp [ha, hb, hL00]⟩
  | trans _ _ ih1 ih2 =>
    intro L hL
    obtain ⟨L1, hp1, hm1⟩ := ih1 L hL
    obtain ⟨L2, hp2, hm2⟩ := ih2 L1 hm1
    exact ⟨L2, hp2.trans hp1, hm2⟩

theorem dot_eq_sum_zip : ∀ (index shape strides : List Int),
    index.length = shape.length → strides.length = shape.length →
    dot index strides = ((index.zip (shape.zip strides)).map (fun x => x.1 * x.2.2)).sum := by
  intro index
  induction index with
  | nil => intro shape strides _ _; simp [dot]
  | cons i is ih =>
    intro shape strides h1 h2
    cases shape with
    | nil => simp at h1
    | cons d ds =>
      cases strides with
      | nil => simp at h2
      | cons s ss =>
        simp only [List.length_cons, Nat.add_right_cancel_iff] at h1 h2
        simp [dot_cons, ih ds ss h1 h2]

theorem valid_zip {shape index : List Int} (hv : ValidIndex shape index) :
    ∀ strides : List Int, ∀ x ∈ index.zip (shape.zip strides), 0 ≤ x.1 ∧ x.1 < x.2.1 := by
  induction hv with
  | nil => intro strides x hx; simp at hx
  | @cons d i ds is hd _ ih =>
    intro strides x hx
    cases strides with
    | nil => simp at hx
    | cons s ss =>
      simp only [List.zip_cons_cons, List.mem_cons] at hx
      rcases hx with rfl | hx
      · exact hd
      · exact ih ss x hx

theorem canonical_triples_bound : ∀ (base : List Int) (L : List (Int × Int × Int)),
    L.map Prod.snd = base.zip (canonicalStrides base) →
    (∀ x ∈ L, 0 ≤ x.1 ∧ x.1 < x.2.1) →
    0 ≤ (L.map (fun x => x.1 * x.2.2)).sum ∧ (L.map (fun x => x.1 * x.2.2)).sum < base.prod := by
  intro base
  induction base with
  | nil =>
    intro L hL _
    have : L = [] := by simpa [canonicalStrides] using hL
    subst this
    simp
  | cons d ds ih =>
    intro L hL hv
    rw [canonicalStrides, List.zip_cons_cons] at hL
    obtain ⟨a, L0, rfl, ha, hL0⟩ := List.map_eq_cons_iff.mp hL
    obtain ⟨h0, h1⟩ := ih L0 hL0 (fun x hx => hv x (List.mem_cons_of_mem _ hx))
    have hP : 0 < ds.prod := lt_of_le_of_lt h0 h1
    have hav := hv a (List.mem_cons_self _ _)
    have ha1 : a.2.1 = d := by rw [ha]
    have ha2 : a.2.2 = ds.prod := by rw [ha]
    rw [ha1] at hav
    simp only [List.map_cons, List.sum_cons, List.prod_cons, ha2]
    constructor
    · have := mul_nonneg hav.1 (le_of_lt hP)
      omega
    · have h2 : a.1 * ds.prod ≤ (d - 1) * ds.prod :=
        mul_le_mul_of_nonneg_right (by omega) (le_of_lt hP)
      have h3 : (d - 1) * ds.prod = d * ds.prod - ds.prod := by ring
      omega

theorem zip_canonical_map_fst (base : List Int) :
    (base.zip (canonicalStrides base)).map Prod.fst = base := by
  rw [List.map_fst_zip]
  rw [canonicalStrides_length]

/-- In a well-formed tensor every valid multi-index addresses a cell of the buffer. -/
theorem Tensor.WellFormed.offset_bounds {F : Type} {t : Tensor F} (hw : t.WellFormed)
    {index : List Int} (hv : ValidIndex t.shape index) :
    0 ≤ dot index t.strides ∧ dot index t.strides < t.totalSize := by
  obtain ⟨hs, _, htot, _, ⟨base, hperm⟩, _⟩ := hw
  have hx := hv.length_eq
  have hmap : (index.zip (t.shape.zip t.strides)).map Prod.snd = t.shape.zip t.strides := by
    rw [List.map_snd_zip]
    simp [List.length_zip, hs, hx]
  obtain ⟨L1, hp1, hm1⟩ := exists_perm_map Prod.snd hperm _ hmap
  have hb := canonical_triples_bound base L1 hm1
    (fun x hx1 => valid_zip hv t.strides x (hp1.subset hx1))
  have hsum : (L1.map (fun x => x.1 * x.2.2)).sum = dot index t.strides := by
    rw [dot_eq_sum_zip index t.shape t.strides hx hs]
    exact (hp1.map _).sum_eq
  have hprod : base.prod = t.totalSize := by
    have h1 := hperm.map Prod.fst
    rw [zip_canonical_map_fst] at h1
    have h2 : (t.shape.zip t.strides).map Prod.fst = t.shape :=
      List.map_fst_zip _ _ (by rw [hs])
    rw [h2] at h1
    rw [htot]
    exact h1.prod_eq.symm
  rw [hsum, hprod] at hb
  exact hb

/-! ## Materialization -/

theorem vecGetInt_of_bounds {α : Type} (v : List α) (i : Int) (d : α) (h0 : 0 ≤ i)
    (h1 : i.toNat < v.length) : vecGetInt v i = .ok (v.getD i.toNat d) := by
  rw [vecGetInt, if_pos h0, vecGet_getD v _ d h1]

theorem range_succ_map_append_replicate {α : Type} (g : Nat → α) (k m : Nat) (z : α) :
    ((List.range k).map g ++ List.replicate (m + 1) z).set k (g k)
      = (List.range (k + 1)).map g ++ List.replicate m z := by
  have h := set_append_replicate ((List.range k).map g) m z (g k)
  simp only [List.length_map, List.length_range] at h
  rw [h, List.range_succ, List.map_append]
  rfl

/-- The gather loop of `makeContiguousCpu` runs to completion on a well-formed tensor and
fills the new buffer with `gathered`. -/
theorem gatherLoop_eq {F : Type} [Zero F] (t : Tensor F) (hw : t.WellFormed) :
    ∃ ix, forLoop (gatherStep t.shape t.strides t.cpuData) 0 t.totalSize.toNat
        (List.replicate t.shape.length 0, List.replicate t.totalSize.toNat 0)
      = .ok (ix, t.gathered) := by
  obtain ⟨hs, hnn, htot, hdata, hbase, hflag⟩ := id hw
  have hN : t.totalSize.toNat = t.shape.prod.toNat := by rw [htot]
  have key := forLoop_inv (gatherStep t.shape t.strides t.cpuData)
    (fun k st => k ≤ t.totalSize.toNat ∧
      (k < t.totalSize.toNat → st.1 = unravel t.shape k) ∧
      st.2 = (List.range k).map
          (fun k => t.cpuData.getD (dot (unravel t.shape k) t.strides).toNat 0)
        ++ List.replicate (t.totalSize.toNat - k) 0)
    t.totalSize.toNat 0
    (List.replicate t.shape.length 0, List.replicate t.totalSize.toNat 0)
    ⟨Nat.zero_le _, fun _ => (unravel_zero t.shape).symm, by simp⟩
    (by
      intro k st _ hk hP
      obtain ⟨_, h1, h2⟩ := hP
      have hk' : k < t.totalSize.toNat := by omega
      have hix := h1 hk'
      have hkp : k < t.shape.prod.toNat := by omega
      have hvalid := unravel_valid t.shape hnn k hkp
      obtain ⟨hb0, hb1⟩ := hw.offset_bounds hvalid
      have hinner : forLoop (linIdxStep st.1 t.strides) 0 t.shape.length 0
          = .ok (dot (unravel t.shape k) t.strides) := by
        rw [hix, linIdxLoop_eq _ _ (by rw [unravel_length, hs]) t.shape.length 0 0
          (by omega)]
        simp
      have hread : vecGetInt t.cpuData (dot (unravel t.shape k) t.strides)
          = .ok (t.cpuData.getD (dot (unravel t.shape k) t.strides).toNat 0) :=
        vecGetInt_of_bounds _ _ _ hb0 (by omega)
      have hrep : t.totalSize.toNat - k = (t.totalSize.toNat - (k + 1)) + 1 := by omega
      have hwrite : vecSet st.2 k (t.cpuData.getD (dot (unravel t.shape k) t.strides).toNat 0)
          = .ok ((List.range (k + 1)).map
              (fun k => t.cpuData.getD (dot (unravel t.shape k) t.strides).toNat 0)
            ++ List.replicate (t.totalSize.toNat - (k + 1)) 0) := by
        rw [vecSet, if_pos (by rw [h2]; simp; omega), h2, hrep]
        rw [range_succ_map_append_replicate
          (fun k => t.cpuData.getD (dot (unravel t.shape k) t.strides).toNat 0)]
      refine ⟨(advanceLoop t.shape t.shape.length st.1, _), ?_, by omega, ?_, rfl⟩
      · simp only [gatherStep, hinner, hread, hwrite]
      · intro hk1
        simp only
        rw [hix, advanceLoop_eq_advanceC _ _ (unravel_length _ _),
          advanceC_unravel t.shape hnn k hkp, if_pos (by omega)])
  obtain ⟨s1, hrun, _, _, h2⟩ := key
  refine ⟨s1.1, ?_⟩
  rw [hrun]
  simp only [Nat.zero_add, Nat.sub_self, List.replicate_zero, List.append_nil] at h2
  rw [Tensor.gathered, ← h2]

theorem computeStrides_eq {F : Type} (t : Tensor F) :
    t.computeStrides = { t with strides := canonicalStrides t.shape } := by
  have := computeStrides_strides t
  simp only [Tensor.computeStrides] at this ⊢
  rw [this]

/-- On a well-formed tensor whose flag is cleared `makeContiguousCpu` completes with the
materialized tensor. -/
theorem makeContiguousCpu_done {F : Type} [Zero F] (t : Tensor F) (hw : t.WellFormed)
    (hc : t.contiguous = false) : t.makeContiguousCpu = .done t.materialized := by
  obtain ⟨ix, hrun⟩ := gatherLoop_eq t hw
  have hnn : ¬ t.totalSize < 0 := by
    have := prod_nonneg_of_nonneg t.shape hw.2.1
    rw [hw.2.2.1]; omega
  simp only [Tensor.makeContiguousCpu, hc, Bool.false_eq_true, if_false, hnn, hrun,
    computeStrides_eq, Tensor.materialized]

theorem makeContiguous_done {F : Type} [Zero F] (t : Tensor F) (hw : t.WellFormed)
    (hc : t.contiguous = false) (hdev : t.device = Device.CPU) :
    t.makeContiguous = .done t.materialized := by
  simp only [Tensor.makeContiguous, hc, Bool.false_eq_true, if_false, hdev, if_true,
    makeContiguousCpu_done t hw hc]

theorem gathered_length {F : Type} [Zero F] (t : Tensor F) :
    t.gathered.length = t.totalSize.toNat := by
  simp [Tensor.gathered]

/-- Reading a well-formed tensor at a valid multi-index returns the addressed cell. -/
theorem Tensor.WellFormed.elemAt_eq {F : Type} [Zero F] {t : Tensor F} (hw : t.WellFormed)
    {index : List Int} (hv : ValidIndex t.shape index) :
    t.elemAt index = .ok (t.cpuData.getD (dot index t.strides).toNat 0) := by
  obtain ⟨hb0, hb1⟩ := hw.offset_bounds hv
  rw [Tensor.elemAt, linearOffset_valid t index hw.1 hv]
  exact vecGetInt_of_bounds _ _ _ hb0 (by have := hw.2.2.2.1; omega)

/-- Materialization preserves every logical element. -/
theorem materialized_elemAt {F : Type} [Zero F] (t : Tensor F) (hw : t.WellFormed)
    {index : List Int} (hv : ValidIndex t.shape index) :
    t.materialized.elemAt index = t.elemAt index := by
  obtain ⟨hs, hnn, htot, hdata, hbase, hflag⟩ := id hw
  obtain ⟨hc0, hc1⟩ := dot_canonical_bounds hv
  have hoff : t.materialized.linearOffset index = .ok (dot index (canonicalStrides t.shape)) :=
    linearOffset_valid t.materialized index (by simp [Tensor.materialized, canonicalStrides_length])
      hv
  have hk : (dot index (canonicalStrides t.shape)).toNat < t.totalSize.toNat := by
    rw [htot]; omega
  rw [hw.elemAt_eq hv, Tensor.elemAt, hoff]
  simp only
  rw [vecGetInt_of_bounds _ _ 0 hc0 (by
    show _ < t.gathered.length
    rw [gathered_length]; exact hk)]
  congr 1
  show t.gathered.getD _ 0 = _
  rw [Tensor.gathered, getD_of_lt _ _ _ (by rw [List.length_map, List.length_range]; exact hk)]
  simp only [List.getElem_map, List.getElem_range]
  rw [unravel_dot hv]

/-! ## The invariant is established by the constructor and kept by `transpose` -/

theorem perm_range_of_isPermutation {order : List Int} {n : Nat} (hp : IsPermutation order n) :
    order.Perm ((List.range n).map (fun k : Nat => (k : Int))) := by
  obtain ⟨hl, hnd, hr⟩ := hp
  apply (List.subperm_of_subset hnd _).perm_of_length_le
  · simp [hl]
  · intro o ho
    obtain ⟨h0, h1⟩ := hr o ho
    rw [List.mem_map]
    exact ⟨o.toNat, List.mem_range.mpr (by omega), Int.toNat_of_nonneg h0⟩

theorem map_getD_range {α : Type} (l : List α) (d : α) :
    (List.range l.length).map (fun k => l.getD k d) = l := by
  apply List.ext_getElem
  · simp
  · intro i h1 h2
    simp only [List.getElem_map, List.getElem_range]
    exact getD_of_lt l i d h2

/-- Gathering a vector through a permutation of its positions rearranges its entries. -/
theorem map_getD_perm {α : Type} (l : List α) (d : α) {order : List Int}
    (hp : IsPermutation order l.length) :
    (order.map (fun o => l.getD o.toNat d)).Perm l := by
  have h1 := (perm_range_of_isPermutation hp).map (fun o : Int => l.getD o.toNat d)
  rw [List.map_map] at h1
  have h2 : ((fun o : Int => l.getD o.toNat d) ∘ fun k : Nat => (k : Int))
      = fun k => l.getD k d := by
    funext k; simp
  rw [h2, map_getD_range] at h1
  exact h1

theorem zip_getD {α β : Type} (a : List α) (b : List β) (da : α) (db : β) (k : Nat)
    (h : a.length = b.length) :
    (a.zip b).getD k (da, db) = (a.getD k da, b.getD k db) := by
  induction a generalizing b k with
  | nil =>
    have : b = [] := List.length_eq_zero.mp h.symm
    subst this; simp
  | cons x xs ih =>
    cases b with
    | nil => simp at h
    | cons y ys =>
      cases k with
      | zero => simp
      | succ j =>
        simp only [List.length_cons, Nat.add_right_cancel_iff] at h
        simpa using ih ys j h

theorem transpose_wellFormed {F : Type} (t : Tensor F) (order : List Int)
    (hw : t.WellFormed) (hp : IsPermutation order t.shape.length) :
    ({ t with shape := permuteBy t.shape order, strides := permuteBy t.strides order,
              contiguous := false } : Tensor F).WellFormed := by
  obtain ⟨hs, hnn, htot, hdata, ⟨base, hbase⟩, _⟩ := hw
  have hperm : (permuteBy t.shape order).Perm t.shape := map_getD_perm t.shape 0 hp
  refine ⟨?_, ?_, ?_, hdata, ⟨base, ?_⟩, ?_⟩
  · simp [permuteBy_length]
  · intro d hd
    exact hnn d (hperm.subset hd)
  · show t.totalSize = (permuteBy t.shape order).prod
    rw [hperm.prod_eq, htot]
  · show ((permuteBy t.shape order).zip (permuteBy t.strides order)).Perm _
    refine List.Perm.trans ?_ hbase
    have hz : (permuteBy t.shape order).zip (permuteBy t.strides order)
        = order.map (fun o => (t.shape.zip t.strides).getD o.toNat (0, 0)) := by
      rw [permuteBy, permuteBy, List.zip_map']
      apply List.map_congr_left
      intro o _
      rw [zip_getD _ _ _ _ _ hs.symm]
    rw [hz]
    exact map_getD_perm _ _ (by simpa [List.length_zip, hs] using hp)
  · intro h; cases h

theorem transposeAll_wellFormed {F : Type} (orders : List (List Int)) :
    ∀ (t t1 : Tensor F), t.WellFormed → transposeAll t orders = .done t1 →
      t1.WellFormed ∧ t1.device = t.device ∧ t1.totalSize = t.totalSize := by
  induction orders with
  | nil =>
    intro t t1 hw h
    simp only [transposeAll] at h
    cases h
    exact ⟨hw, rfl, rfl⟩
  | cons order rest ih =>
    intro t t1 hw h
    by_cases hp : IsPermutation order t.shape.length
    · rw [transposeAll, transpose_done t order hw.1 hp] at h
      obtain ⟨h1, h2, h3⟩ := ih _ t1 (transpose_wellFormed t order hw hp) h
      exact ⟨h1, h2, h3⟩
    · rw [transposeAll, transpose_failed t order hw.1 hp] at h
      cases h

theorem create_wellFormed {F : Type} [Zero F] (shape : List Int) (dev : Device)
    (hnn : ∀ d ∈ shape, 0 ≤ d) (hfit : FitsInt shape.prod) (t : Tensor F)
    (h : Tensor.create shape dev = .ok t)
    (vals : List F) (hv : vals.length = t.cpuData.length) :
    ({ t with cpuData := vals } : Tensor F).WellFormed
      ∧ t.device = dev ∧ t.shape = shape ∧ t.contiguous = true := by
  have hprod := prod_nonneg_of_nonneg shape hnn
  rw [Tensor.create, accumulateMul_eq_prod shape hfit, if_pos hprod, computeStrides_eq] at h
  cases h
  refine ⟨⟨?_, hnn, rfl, ?_, ⟨shape, List.Perm.refl _⟩, fun _ => rfl⟩, rfl, rfl, rfl⟩
  · simp [canonicalStrides_length]
  · simpa using hv

/-! ## `makeContiguous` and `reshape` -/

theorem gathered_of_canonical {F : Type} [Zero F] (t : Tensor F) (hw : t.WellFormed)
    (hc : t.strides = canonicalStrides t.shape) : t.gathered = t.cpuData := by
  obtain ⟨hs, hnn, htot, hdata, hbase, hflag⟩ := id hw
  apply List.ext_getElem
  · rw [gathered_length, hdata]
  · intro k h1 h2
    have hk : k < t.shape.prod.toNat := by rw [← htot, ← hdata]; exact h2
    simp only [Tensor.gathered, List.getElem_map, List.getElem_range]
    rw [hc, dot_unravel t.shape hnn k hk]
    simpa using getD_of_lt t.cpuData k 0 h2

theorem materialized_wellFormed {F : Type} [Zero F] (t : Tensor F) (hw : t.WellFormed) :
    t.materialized.WellFormed := by
  obtain ⟨hs, hnn, htot, hdata, hbase, hflag⟩ := hw
  refine ⟨?_, hnn, htot, ?_, ⟨t.shape, List.Perm.refl _⟩, fun _ => rfl⟩
  · simp [Tensor.materialized, canonicalStrides_length]
  · show t.gathered.length = _
    rw [gathered_length]; rfl

/-- C3.  Take a tensor built by the constructor on the CPU (dimensions not negative, no
`int` overflow in the product or the strides of the shape, any buffer contents) and apply
transposes; if the outcome is flagged non-contiguous and its canonical strides fit in `int`
as well, then `makeContiguous` completes, leaves shape and `totalSize` unchanged, sets the
strides to the canonical row-major strides of the shape (none of which wrapped), sets
`contiguous`, keeps the buffer length equal to `totalSize`, and for every valid multi-index
`at` returns the same element after the call as before. -/
theorem makeContiguous_preserves_elements {F : Type} [Zero F] (shape0 : List Int)
    (t0 t : Tensor F) (vals : List F) (orders : List (List Int))
    (hdims : ∀ d ∈ shape0, 0 ≤ d) (hfit : NoOverflow shape0)
    (hcreate : Tensor.create shape0 Device.CPU = .ok t0)
    (hvals : vals.length = t0.cpuData.length)
    (htr : transposeAll { t0 with cpuData := vals } orders = .done t)
    (hnc : t.contiguous = false) (hfit1 : NoOverflow t.shape) :
    ∃ t1, t.makeContiguous = .done t1 ∧
      t1.shape = t.shape ∧ t1.strides = canonicalStrides t.shape ∧
      (∀ s ∈ t1.strides, FitsInt s) ∧ t1.contiguous = true ∧
      t1.totalSize = t.totalSize ∧ (t1.cpuData.length : Int) = t.totalSize ∧
      ∀ index, ValidIndex t.shape index →
        ∃ v, t.elemAt index = .ok v ∧ t1.elemAt index = .ok v := by
  obtain ⟨hw0, hdev0, _, _⟩ :=
    create_wellFormed shape0 Device.CPU hdims hfit.1 t0 hcreate vals hvals
  obtain ⟨hw, hdev, _⟩ := transposeAll_wellFormed orders _ t hw0 htr
  have hcpu : t.device = Device.CPU := by rw [hdev]; exact hdev0
  refine ⟨t.materialized, makeContiguous_done t hw hnc hcpu, rfl, rfl, hfit1.2, rfl, rfl,
    ?_, ?_⟩
  · show ((t.gathered.length : Nat) : Int) = t.totalSize
    rw [gathered_length]
    have := prod_nonneg_of_nonneg t.shape hw.2.1
    rw [← hw.2.2.1] at this
    exact Int.toNat_of_nonneg this
  · intro index hv
    exact ⟨_, hw.elemAt_eq hv, by rw [materialized_elemAt t hw hv, hw.elemAt_eq hv]⟩

/-- C3 on the `2 x 3` sample transposed to `3 x 2`. -/
theorem makeContiguous_preserves_elements_witness :
    (∀ d ∈ ([2, 3] : List Int), 0 ≤ d) ∧ NoOverflow [2, 3] ∧
    (Tensor.create [2, 3] Device.CPU : Except TensorError (Tensor Int)) = .ok sampleNew23 ∧
    transposeAll { sampleNew23 with cpuData := [10, 11, 12, 13, 14, 15] } [[1, 0]]
      = .done sample32T ∧ NoOverflow sample32T.shape ∧
    ∃ t1, sample32T.makeContiguous = .done t1 ∧
      t1.shape = sample32T.shape ∧ t1.strides = canonicalStrides sample32T.shape ∧
      (∀ s ∈ t1.strides, FitsInt s) ∧
      t1.contiguous = true ∧ t1.totalSize = sample32T.totalSize ∧
      (t1.cpuData.length : Int) = sample32T.totalSize ∧
      ∀ index, ValidIndex sample32T.shape index →
        ∃ v, sample32T.elemAt index = .ok v ∧ t1.elemAt index = .ok v :=
  ⟨by decide, by decide, rfl, by decide, by decide,
   makeContiguous_preserves_elements [2, 3] sampleNew23 sample32T [10, 11, 12, 13, 14, 15]
     [[1, 0]] (by decide) (by decide) rfl (by decide) (by decide) (by decide) (by decide)⟩

theorem sample23_wellFormed : sample23.WellFormed :=
  ⟨by decide, by decide, by decide, by decide, ⟨[2, 3], List.Perm.refl _⟩, fun _ => rfl⟩

theorem sample32T_wellFormed : sample32T.WellFormed :=
  ⟨by decide, by decide, by decide, by decide, ⟨[2, 3], List.Perm.swap _ _ _⟩,
    fun h => by cases h⟩

theorem zipWith_self_map {α β γ δ : Type} (f : α → β) (g : α → γ) (h : β → γ → δ)
    (l : List α) : List.zipWith h (l.map f) (l.map g) = l.map (fun a => h (f a) (g a)) := by
  induction l with
  | nil => rfl
  | cons x xs ih => simp [ih]

theorem zipWith_mul_getD : ∀ (a b : List Int) (k : Nat), a.length = b.length →
    (List.zipWith (fun i s => i * s) a b).getD k 0 = a.getD k 0 * b.getD k 0 := by
  intro a
  induction a with
  | nil =>
    intro b k h
    have : b = [] := List.length_eq_zero.mp h.symm
    subst this; simp
  | cons x xs ih =>
    intro b k h
    cases b with
    | nil => simp at h
    | cons y ys =>
      cases k with
      | zero => simp
      | succ j =>
        simp only [List.length_cons, Nat.add_right_cancel_iff] at h
        simpa using ih ys j h

/-- Permuting index and strides alike does not change the linear offset. -/
theorem dot_permuteBy (a b order : List Int) (hab : a.length = b.length)
    (hp : IsPermutation order a.length) :
    dot (permuteBy a order) (permuteBy b order) = dot a b := by
  have hz : (List.zipWith (fun i s => i * s) a b).length = a.length := by
    simp [List.length_zipWith, hab]
  rw [dot, permuteBy, permuteBy, zipWith_self_map]
  have h1 : order.map (fun o => a.getD o.toNat 0 * b.getD o.toNat 0)
      = order.map (fun o => (List.zipWith (fun i s => i * s) a b).getD o.toNat 0) := by
    apply List.map_congr_left
    intro o _
    rw [zipWith_mul_getD a b _ hab]
  rw [h1, dot]
  exact (map_getD_perm _ 0 (by rw [hz]; exact hp)).sum_eq

theorem validIndex_getD {shape index : List Int} (hv : ValidIndex shape index) (k : Nat)
    (hk : k < shape.length) : 0 ≤ index.getD k 0 ∧ index.getD k 0 < shape.getD k 0 := by
  have hx := hv.length_eq
  rw [ValidIndex, List.forall₂_iff_get] at hv
  have := hv.2 k hk (by omega)
  simp only [List.get_eq_getElem] at this
  rw [getD_of_lt _ _ _ hk, getD_of_lt _ _ _ (by omega : k < index.length)]
  exact this

theorem validIndex_permuteBy {shape index order : List Int} (hv : ValidIndex shape index)
    (hp : IsPermutation order shape.length) :
    ValidIndex (permuteBy shape order) (permuteBy index order) := by
  rw [ValidIndex, permuteBy, permuteBy, List.forall₂_map_left_iff,
    List.forall₂_map_right_iff, List.forall₂_same]
  intro o ho
  obtain ⟨h0, h1⟩ := hp.2.2 o ho
  exact validIndex_getD hv o.toNat (by omega)

/-- After `transpose(order)` the element at the permuted multi-index is the element that
was at the original multi-index. -/
theorem transposed_elemAt {F : Type} [Zero F] (t : Tensor F) (order : List Int)
    (hw : t.WellFormed) (hp : IsPermutation order t.shape.length)
    {index : List Int} (hv : ValidIndex t.shape index) :
    ({ t with shape := permuteBy t.shape order, strides := permuteBy t.strides order,
              contiguous := false } : Tensor F).elemAt (permuteBy index order)
      = t.elemAt index := by
  have hwT := transpose_wellFormed t order hw hp
  have hvT : ValidIndex (permuteBy t.shape order) (permuteBy index order) :=
    validIndex_permuteBy hv hp
  rw [hwT.elemAt_eq hvT, hw.elemAt_eq hv]
  show Except.ok (t.cpuData.getD
    (dot (permuteBy index order) (permuteBy t.strides order)).toNat 0) = _
  rw [dot_permuteBy index t.strides order (by rw [hv.length_eq, hw.1])
    (by rw [hv.length_eq]; exact hp)]

/-! ## The inverse permutation -/

theorem mem_of_isPermutation {order : List Int} {n : Nat} (hp : IsPermutation order n)
    (k : Nat) (hk : k < n) : (k : Int) ∈ order := by
  have := (perm_range_of_isPermutation hp).symm.subset
    (List.mem_map.mpr ⟨k, List.mem_range.mpr hk, rfl⟩)
  exact this

theorem inversePerm_length (order : List Int) : (inversePerm order).length = order.length := by
  simp [inversePerm]

theorem inversePerm_isPermutation {order : List Int} {n : Nat} (hp : IsPermutation order n) :
    IsPermutation (inversePerm order) n := by
  have hl := hp.1
  refine ⟨by rw [inversePerm_length, hl], ?_, ?_⟩
  · rw [inversePerm]
    apply List.Nodup.map_on _ (List.nodup_range _)
    intro x hx y hy hxy
    have hx' := mem_of_isPermutation hp x (by rw [← hl]; exact List.mem_range.mp hx)
    have hy' := mem_of_isPermutation hp y (by rw [← hl]; exact List.mem_range.mp hy)
    have h1 : order.indexOf (x : Int) = order.indexOf (y : Int) := by exact_mod_cast hxy
    have h2 := (List.indexOf_inj hx' hy').mp h1
    exact_mod_cast h2
  · intro o ho
    rw [inversePerm, List.mem_map] at ho
    obtain ⟨k, hk, rfl⟩ := ho
    have hk' := mem_of_isPermutation hp k (by rw [← hl]; exact List.mem_range.mp hk)
    have := List.indexOf_lt_length.mpr hk'
    constructor
    · positivity
    · rw [hl] at this; exact_mod_cast this

/-- Gathering through `order` and then through its inverse restores the vector. -/
theorem permuteBy_inversePerm (v : List Int) {order : List Int}
    (hp : IsPermutation order v.length) :
    permuteBy (permuteBy v order) (inversePerm order) = v := by
  have hl := hp.1
  apply List.ext_getElem
  · rw [permuteBy_length, inversePerm_length, hl]
  · intro k h1 h2
    have hk' := mem_of_isPermutation hp k h2
    have hlt := List.indexOf_lt_length.mpr hk'
    simp only [permuteBy, inversePerm, List.getElem_map, List.getElem_range, Int.toNat_ofNat]
    rw [getD_of_lt _ _ _ (by rw [List.length_map]; exact hlt)]
    simp only [List.getElem_map]
    rw [List.getElem_indexOf hlt]
    simpa using getD_of_lt v k 0 h2

/-- C6.  For a well-formed contiguous CPU tensor and a permutation `order` of `[0, rank)`,
the four calls `transpose(order)`, `makeContiguous()`, `transpose(inverse(order))`,
`makeContiguous()` all complete and the final tensor is the original one: same shape, same
strides, same values buffer element for element, flag set (and every other field as
before).  Positive dimensions are a special case of the non-negative ones allowed here. -/
theorem transpose_roundtrip {F : Type} [Zero F] (t : Tensor F) (order : List Int)
    (hw : t.WellFormed) (hc : t.contiguous = true) (hdev : t.device = Device.CPU)
    (hp : IsPermutation order t.shape.length) :
    ∃ t1 t2 t3 t4, t.transpose order = .done t1 ∧ t1.makeContiguous = .done t2 ∧
      t2.transpose (inversePerm order) = .done t3 ∧ t3.makeContiguous = .done t4 ∧
      t4.shape = t.shape ∧ t4.strides = t.strides ∧ t4.cpuData = t.cpuData ∧
      t4.contiguous = true ∧ t4 = t := by
  obtain ⟨hs, hnn, htot, hdata, hbase, hflag⟩ := id hw
  have hstr := hflag hc
  -- the four intermediate states
  have hw1 : (t.transposed order).WellFormed := transpose_wellFormed t order hw hp
  have hw2 : (t.transposed order).materialized.WellFormed := materialized_wellFormed _ hw1
  have hp2l : IsPermutation (inversePerm order) (permuteBy t.shape order).length := by
    rw [permuteBy_length, hp.1]
    exact inversePerm_isPermutation hp
  have hp2 : IsPermutation (inversePerm order) (t.transposed order).materialized.shape.length :=
    hp2l
  have hw3 : ((t.transposed order).materialized.transposed (inversePerm order)).WellFormed :=
    transpose_wellFormed _ (inversePerm order) hw2 hp2
  have hshape3 : ((t.transposed order).materialized.transposed (inversePerm order)).shape
      = t.shape := permuteBy_inversePerm t.shape hp
  -- the final buffer
  have hgather : ((t.transposed order).materialized.transposed (inversePerm order)).gathered
      = t.cpuData := by
    apply List.ext_getElem
    · rw [gathered_length]; exact hdata.symm
    · intro k h1 h2
      have hk : k < t.shape.prod.toNat := by rw [← htot, ← hdata]; exact h2
      have hv := unravel_valid t.shape hnn k hk
      have hv1 : ValidIndex (t.transposed order).materialized.shape
          (permuteBy (unravel t.shape k) order) := validIndex_permuteBy hv hp
      have e3 : ((t.transposed order).materialized.transposed (inversePerm order)).elemAt
          (permuteBy (permuteBy (unravel t.shape k) order) (inversePerm order))
          = (t.transposed order).materialized.elemAt (permuteBy (unravel t.shape k) order) :=
        transposed_elemAt _ (inversePerm order) hw2 hp2 hv1
      rw [permuteBy_inversePerm (unravel t.shape k)
        (by rw [hv.length_eq]; exact hp)] at e3
      have e2 : (t.transposed order).materialized.elemAt (permuteBy (unravel t.shape k) order)
          = (t.transposed order).elemAt (permuteBy (unravel t.shape k) order) :=
        materialized_elemAt _ hw1 hv1
      have e1 : (t.transposed order).elemAt (permuteBy (unravel t.shape k) order)
          = t.elemAt (unravel t.shape k) := transposed_elemAt t order hw hp hv
      have e0 := hw.elemAt_eq hv
      rw [hstr, dot_unravel t.shape hnn k hk] at e0
      have hv3 : ValidIndex ((t.transposed order).materialized.transposed
          (inversePerm order)).shape (unravel t.shape k) := by rw [hshape3]; exact hv
      have e4 := hw3.elemAt_eq hv3
      rw [e3, e2, e1, e0] at e4
      have e5 := Except.ok.inj e4
      simp only [Tensor.gathered, List.getElem_map, List.getElem_range]
      rw [hshape3]
      rw [Int.toNat_ofNat, getD_of_lt t.cpuData k 0 h2] at e5
      exact e5.symm
  have hstr4 : ((t.transposed order).materialized.transposed (inversePerm order)).materialized.strides
      = t.strides := by
    show canonicalStrides ((t.transposed order).materialized.transposed (inversePerm order)).shape
      = t.strides
    rw [hshape3, hstr]
  refine ⟨t.transposed order, (t.transposed order).materialized,
    (t.transposed order).materialized.transposed (inversePerm order),
    ((t.transposed order).materialized.transposed (inversePerm order)).materialized,
    transpose_done t order hs hp,
    makeContiguous_done _ hw1 rfl hdev,
    transpose_done _ (inversePerm order) hw2.1 hp2,
    makeContiguous_done _ hw3 rfl hdev, hshape3, hstr4, hgather, rfl, ?_⟩
  have h4 : ∀ (a b : Tensor F), a.shape = b.shape → a.strides = b.strides →
      a.totalSize = b.totalSize → a.contiguous = b.contiguous → a.cpuData = b.cpuData →
      a.cpuGrad = b.cpuGrad → a.device = b.device → a = b := by
    intro a b h1 h2 h3 h4 h5 h6 h7
    cases a; cases b; simp only [Tensor.mk.injEq]
    exact ⟨h1, h2, h3, h4, h5, h6, h7⟩
  exact h4 _ _ hshape3 hstr4 rfl hc.symm hgather rfl rfl

/-- C6 on the `2 x 3` sample with the order `[1, 0]`. -/
theorem transpose_roundtrip_witness :
    sample23.WellFormed ∧ sample23.contiguous = true ∧ sample23.device = Device.CPU ∧
    IsPermutation [1, 0] sample23.shape.length ∧
    ∃ t1 t2 t3 t4, sample23.transpose [1, 0] = .done t1 ∧ t1.makeContiguous = .done t2 ∧
      t2.transpose (inversePerm [1, 0]) = .done t3 ∧ t3.makeContiguous = .done t4 ∧
      t4.shape = sample23.shape ∧ t4.strides = sample23.strides ∧
      t4.cpuData = sample23.cpuData ∧ t4.contiguous = true ∧ t4 = sample23 :=
  ⟨sample23_wellFormed, rfl, rfl, by decide,
   transpose_roundtrip sample23 [1, 0] sample23_wellFormed rfl rfl (by decide)⟩

/-! ## Broadcast -/

theorem broadcastCheck_ok (shape newShape : List Int)
    (h : ∀ i, i < shape.length →
      shape.getD (shape.length - 1 - i) 0 = newShape.getD (newShape.length - 1 - i) 0 ∨
      shape.getD (shape.length - 1 - i) 0 = 1) :
    forLoop (broadcastCheckStep shape newShape) 0 shape.length () = .ok () := by
  obtain ⟨s1, hrun, _⟩ := forLoop_inv (broadcastCheckStep shape newShape) (fun _ _ => True)
    shape.length 0 () trivial (by
      intro j s1 _ hj _
      refine ⟨(), ?_, trivial⟩
      have hc := h j (by omega)
      have hc' : newShape.getD (newShape.length - 1 - j) 0 = shape.getD (shape.length - 1 - j) 0
          ∨ shape.getD (shape.length - 1 - j) 0 = 1 := hc.imp Eq.symm id
      simp only [broadcastCheckStep, if_pos hc'])
  exact hrun

theorem broadcastCheck_error (shape newShape : List Int)
    (h : ¬ ∀ i, i < shape.length →
      shape.getD (shape.length - 1 - i) 0 = newShape.getD (newShape.length - 1 - i) 0 ∨
      shape.getD (shape.length - 1 - i) 0 = 1) :
    forLoop (broadcastCheckStep shape newShape) 0 shape.length () = .error .broadcastError := by
  rcases forLoop_inv_or (broadcastCheckStep shape newShape)
    (fun j _ => ∀ i, i < j →
      shape.getD (shape.length - 1 - i) 0 = newShape.getD (newShape.length - 1 - i) 0 ∨
      shape.getD (shape.length - 1 - i) 0 = 1)
    .broadcastError shape.length 0 () (fun i hi => absurd hi (Nat.not_lt_zero i)) (by
      intro j s1 _ hj hP
      by_cases hc : newShape.getD (newShape.length - 1 - j) 0
          = shape.getD (shape.length - 1 - j) 0 ∨ shape.getD (shape.length - 1 - j) 0 = 1
      · left
        refine ⟨(), by simp only [broadcastCheckStep, if_pos hc], ?_⟩
        intro i hi
        rcases Nat.lt_succ_iff_lt_or_eq.mp hi with h1 | h1
        · exact hP i h1
        · rw [h1]; exact hc.imp Eq.symm id
      · right
        simp only [broadcastCheckStep, if_neg hc]) with ⟨s1, _, hP⟩ | herr
  · rw [Nat.zero_add] at hP
    exact absurd hP h
  · exact herr

theorem multLoop_eq (shape : List Int) :
    ∀ (i : Nat) (mult : List Int), i < shape.length → mult.length = shape.length →
      mult.drop i = (canonicalStrides shape).drop i →
      multLoop shape i mult = canonicalStrides shape := by
  intro i
  induction i with
  | zero => intro mult _ _ h; simpa [multLoop] using h
  | succ i ih =>
    intro mult hi hl hd
    have hi1 : i + 1 < (canonicalStrides shape).length := by rw [canonicalStrides_length]; exact hi
    have hi0 : i < (canonicalStrides shape).length := by omega
    have hm1 : i + 1 < mult.length := by omega
    have hm0 : i < mult.length := by omega
    have hcs1 : (canonicalStrides shape)[i + 1] = (shape.drop (i + 2)).prod := by
      have := canonicalStrides_getElem? shape (i + 1) hi
      rw [List.getElem?_eq_getElem hi1] at this
      exact Option.some.inj this
    have hcs0 : (canonicalStrides shape)[i] = (shape.drop (i + 1)).prod := by
      have := canonicalStrides_getElem? shape i (by omega)
      rw [List.getElem?_eq_getElem hi0] at this
      exact Option.some.inj this
    have hmi : mult.getD (i + 1) 0 = (canonicalStrides shape)[i + 1] := by
      rw [getD_of_lt _ _ _ hm1]
      have h1 := congrArg (fun l => l[0]?) hd
      simp only [List.getElem?_drop, Nat.add_zero] at h1
      rw [List.getElem?_eq_getElem hm1, List.getElem?_eq_getElem hi1] at h1
      exact Option.some.inj h1
    have hsh : shape.getD (i + 1) 0 = shape[i + 1] := getD_of_lt _ _ _ hi
    have hprod : mult.getD (i + 1) 0 * shape.getD (i + 1) 0 = (canonicalStrides shape)[i] := by
      rw [hmi, hcs1, hsh, hcs0, List.drop_eq_getElem_cons hi, List.prod_cons, mul_comm]
    rw [multLoop, hprod]
    apply ih _ (by omega) (by simpa using hl)
    rw [drop_set_self _ _ _ hm0, hd, ← List.drop_eq_getElem_cons hi0]

theorem broadcastMult_eq (shape : List Int) : broadcastMult shape = canonicalStrides shape := by
  by_cases hs : shape = []
  · subst hs; rfl
  · have hpos : 0 < shape.length := List.length_pos.mpr hs
    rw [broadcastMult, if_neg hs]
    have hn : shape.length - 1 < shape.length := by omega
    apply multLoop_eq _ _ _ hn (by simp)
    have hr : shape.length - 1 < (List.replicate shape.length (0 : Int)).length := by
      simpa using hn
    rw [drop_set_self _ _ _ hr]
    have hc : shape.length - 1 < (canonicalStrides shape).length := by
      rw [canonicalStrides_length]; exact hn
    rw [List.drop_eq_getElem_cons hc]
    have h1 := canonicalStrides_getElem? shape (shape.length - 1) hn
    rw [List.getElem?_eq_getElem hc] at h1
    have h2 : shape.length - 1 + 1 = shape.length := by omega
    rw [Option.some.inj h1, h2]
    simp [List.drop_of_length_le, canonicalStrides_length]

theorem broadcastSource_length (shape out : List Int) :
    (broadcastSource shape out).length = shape.length := by
  simp [broadcastSource]

theorem broadcastLinLoop_eq (shape newShape mult index : List Int)
    (hm : mult.length = shape.length) (hi : index.length = newShape.length) :
    ∀ (n i : Nat) (lin : Int), i + n = shape.length →
      forLoop (broadcastLinStep shape newShape mult index) i n lin
        = .ok (lin + dot ((broadcastSource shape index).drop i) (mult.drop i)) := by
  intro n
  induction n with
  | zero =>
    intro i lin h
    have h1 : mult.drop i = [] := List.drop_of_length_le (by omega)
    have h2 : (broadcastSource shape index).drop i = [] :=
      List.drop_of_length_le (by rw [broadcastSource_length]; omega)
    simp [forLoop, h1, h2, dot]
  | succ n ih =>
    intro i lin h
    have hi1 : i < (broadcastSource shape index).length := by
      rw [broadcastSource_length]; omega
    have hi2 : i < mult.length := by omega
    have hsrc : (broadcastSource shape index)[i]
        = if shape.getD i 0 = 1 then 0
          else index.getD (newShape.length - shape.length + i) 0 := by
      simp only [broadcastSource, List.getElem_map, List.getElem_range, hi]
    rw [forLoop]
    simp only [broadcastLinStep]
    rw [ih (i + 1) _ (by omega), List.drop_eq_getElem_cons hi1, List.drop_eq_getElem_cons hi2,
      dot_cons, hsrc, getD_of_lt _ _ _ hi2, add_assoc]

theorem broadcastSource_valid {shape newShape out : List Int}
    (hc : BroadcastCompatible shape newShape) (hv : ValidIndex newShape out) :
    ValidIndex shape (broadcastSource shape out) := by
  obtain ⟨hle, hdim⟩ := hc
  have hx := hv.length_eq
  rw [ValidIndex, List.forall₂_iff_get]
  refine ⟨(broadcastSource_length _ _).symm, ?_⟩
  intro j h1 h2
  simp only [List.get_eq_getElem, broadcastSource, List.getElem_map, List.getElem_range]
  have hsj : shape.getD j 0 = shape[j] := getD_of_lt _ _ _ h1
  rw [← hsj]
  by_cases h1d : shape.getD j 0 = 1
  · rw [if_pos h1d, h1d]; decide
  · rw [if_neg h1d]
    have hd := hdim (shape.length - 1 - j) (by omega)
    have e1 : shape.length - 1 - (shape.length - 1 - j) = j := by omega
    have e2 : newShape.length - 1 - (shape.length - 1 - j) = out.length - shape.length + j := by
      omega
    rw [e1, e2] at hd
    rcases hd with hd | hd
    · rw [hd]
      exact validIndex_getD hv _ (by omega)
    · exact absurd hd h1d

/-- The copy loop of `broadcast` runs to completion and fills the result buffer with
`broadcastData`. -/
theorem broadcastLoop_eq {F : Type} [Zero F] (t : Tensor F) (newShape : List Int)
    (hlen : t.cpuData.length = t.shape.prod.toNat)
    (hns : ∀ d ∈ newShape, 0 ≤ d) (hc : BroadcastCompatible t.shape newShape) :
    ∃ ix, forLoop (broadcastStep t.shape newShape (broadcastMult t.shape) t.cpuData) 0
        newShape.prod.toNat
        (List.replicate newShape.length 0, List.replicate newShape.prod.toNat 0)
      = .ok (ix, t.broadcastData newShape) := by
  have key := forLoop_inv (broadcastStep t.shape newShape (broadcastMult t.shape) t.cpuData)
    (fun k st => k ≤ newShape.prod.toNat ∧
      (k < newShape.prod.toNat → st.1 = unravel newShape k) ∧
      st.2 = (List.range k).map (fun k => t.cpuData.getD
          (dot (broadcastSource t.shape (unravel newShape k))
            (canonicalStrides t.shape)).toNat 0)
        ++ List.replicate (newShape.prod.toNat - k) 0)
    newShape.prod.toNat 0
    (List.replicate newShape.length 0, List.replicate newShape.prod.toNat 0)
    ⟨Nat.zero_le _, fun _ => (unravel_zero newShape).symm, by simp⟩
    (by
      intro k st _ hk hP
      obtain ⟨_, h1, h2⟩ := hP
      have hk' : k < newShape.prod.toNat := by omega
      have hix := h1 hk'
      have hvalid := unravel_valid newShape hns k hk'
      have hsv := broadcastSource_valid hc hvalid
      obtain ⟨hb0, hb1⟩ := dot_canonical_bounds hsv
      have hinner : forLoop (broadcastLinStep t.shape newShape (broadcastMult t.shape) st.1)
          0 t.shape.length 0
          = .ok (dot (broadcastSource t.shape (unravel newShape k))
              (canonicalStrides t.shape)) := by
        rw [hix, broadcastLinLoop_eq _ _ _ _
          (by rw [broadcastMult_eq, canonicalStrides_length]) (unravel_length _ _)
          t.shape.length 0 0 (by omega), broadcastMult_eq]
        simp
      have hread : vecGetInt t.cpuData
            (dot (broadcastSource t.shape (unravel newShape k)) (canonicalStrides t.shape))
          = .ok (t.cpuData.getD (dot (broadcastSource t.shape (unravel newShape k))
              (canonicalStrides t.shape)).toNat 0) :=
        vecGetInt_of_bounds _ _ _ hb0 (by omega)
      have hrep : newShape.prod.toNat - k = (newShape.prod.toNat - (k + 1)) + 1 := by omega
      have hwrite : vecSet st.2 k (t.cpuData.getD
            (dot (broadcastSource t.shape (unravel newShape k))
              (canonicalStrides t.shape)).toNat 0)
          = .ok ((List.range (k + 1)).map (fun k => t.cpuData.getD
              (dot (broadcastSource t.shape (unravel newShape k))
                (canonicalStrides t.shape)).toNat 0)
            ++ List.replicate (newShape.prod.toNat - (k + 1)) 0) := by
        rw [vecSet, if_pos (by rw [h2]; simp; omega), h2, hrep]
        rw [range_succ_map_append_replicate (fun k => t.cpuData.getD
          (dot (broadcastSource t.shape (unravel newShape k))
            (canonicalStrides t.shape)).toNat 0)]
      refine ⟨(advanceLoop newShape newShape.length st.1, _), ?_, by omega, ?_, rfl⟩
      · simp only [broadcastStep, hinner, hread, hwrite]
      · intro hk1
        simp only
        rw [hix, advanceLoop_eq_advanceC _ _ (unravel_length _ _),
          advanceC_unravel newShape hns k hk', if_pos (by omega)])
  obtain ⟨s1, hrun, _, _, h2⟩ := key
  refine ⟨s1.1, ?_⟩
  rw [hrun]
  simp only [Nat.zero_add, Nat.sub_self, List.replicate_zero, List.append_nil] at h2
  rw [Tensor.broadcastData, ← h2]

theorem ensure_step {F : Type} [Zero F] (t : Tensor F) (hw : t.WellFormed) :
    (if !t.contiguous then t.makeContiguous else Res.done t) = .done t.ensured := by
  by_cases hc : t.contiguous = true
  · simp [Tensor.ensured, hc]
  · have hc' : t.contiguous = false := by simpa using hc
    by_cases hd : t.device = Device.CPU
    · simp only [hc', Bool.not_false, if_true, makeContiguous_done t hw hc' hd,
        Tensor.ensured, hd, and_self]
    · simp only [hc', Bool.not_false, if_true, Tensor.makeContiguous, Bool.false_eq_true,
        if_false, hd, Tensor.ensured, and_false]

theorem ensured_wellFormed {F : Type} [Zero F] (t : Tensor F) (hw : t.WellFormed) :
    t.ensured.WellFormed := by
  rw [Tensor.ensured]
  split
  · exact materialized_wellFormed t hw
  · exact hw

theorem ensured_shape {F : Type} [Zero F] (t : Tensor F) : t.ensured.shape = t.shape := by
  rw [Tensor.ensured]
  split <;> rfl

theorem ensured_device {F : Type} [Zero F] (t : Tensor F) : t.ensured.device = t.device := by
  rw [Tensor.ensured]
  split <;> rfl

/-- On the CPU the source is contiguous after the ensuring step and holds the same
logical elements. -/
theorem ensured_cpu {F : Type} [Zero F] (t : Tensor F) (hw : t.WellFormed)
    (hd : t.device = Device.CPU) :
    t.ensured.strides = canonicalStrides t.shape ∧
    ∀ index, ValidIndex t.shape index → t.ensured.elemAt index = t.elemAt index := by
  by_cases hc : t.contiguous = true
  · have : t.ensured = t := by simp [Tensor.ensured, hc]
    rw [this]
    exact ⟨hw.2.2.2.2.2 hc, fun _ _ => rfl⟩
  · have hc' : t.contiguous = false := by simpa using hc
    have : t.ensured = t.materialized := by simp [Tensor.ensured, hc', hd]
    rw [this]
    exact ⟨rfl, fun index hv => materialized_elemAt t hw hv⟩

/-- With a well-formed source and a compatible target of non-negative dimensions whose
product fits in `int`, `broadcast` completes. -/
theorem broadcast_done {F : Type} [Zero F] (t : Tensor F) (newShape : List Int)
    (hw : t.WellFormed) (hns : ∀ d ∈ newShape, 0 ≤ d) (hfit : FitsInt newShape.prod)
    (hc : BroadcastCompatible t.shape newShape) :
    t.broadcast newShape = .done t.ensured (t.ensured.broadcasted newShape) := by
  have hw1 := ensured_wellFormed t hw
  have hsh := ensured_shape t
  have hprod := prod_nonneg_of_nonneg newShape hns
  have hc1 : BroadcastCompatible t.ensured.shape newShape := by rw [hsh]; exact hc
  obtain ⟨ix, hrun⟩ := broadcastLoop_eq t.ensured newShape
    (by rw [hw1.2.2.2.1, hw1.2.2.1]) hns hc1
  have hcreate : (Tensor.create newShape t.ensured.device : Except TensorError (Tensor F))
      = .ok { shape := newShape, strides := canonicalStrides newShape,
              totalSize := newShape.prod, contiguous := true,
              cpuData := List.replicate newShape.prod.toNat 0,
              cpuGrad := List.replicate newShape.prod.toNat 0,
              device := t.ensured.device } := by
    rw [Tensor.create, accumulateMul_eq_prod newShape hfit, if_pos hprod, computeStrides_eq]
  simp only [Tensor.broadcast, if_pos hc.1, broadcastCheck_ok t.shape newShape hc.2,
    ensure_step t hw, hcreate, hrun, Tensor.broadcasted]

/-- With an incompatible target `broadcast` stops at its assertions, the source untouched. -/
theorem broadcast_failed {F : Type} [Zero F] (t : Tensor F) (newShape : List Int)
    (hc : ¬ BroadcastCompatible t.shape newShape) :
    t.broadcast newShape = .failed .broadcastError t := by
  by_cases hle : t.shape.length ≤ newShape.length
  · have hdim : ¬ ∀ i, i < t.shape.length →
        t.shape.getD (t.shape.length - 1 - i) 0 = newShape.getD (newShape.length - 1 - i) 0 ∨
        t.shape.getD (t.shape.length - 1 - i) 0 = 1 := fun h => hc ⟨hle, h⟩
    simp only [Tensor.broadcast, if_pos hle, broadcastCheck_error t.shape newShape hdim]
  · simp only [Tensor.broadcast, if_neg hle]

theorem broadcastData_length {F : Type} [Zero F] (t : Tensor F) (newShape : List Int) :
    (t.broadcastData newShape).length = newShape.prod.toNat := by
  simp [Tensor.broadcastData]

theorem broadcasted_wellFormed {F : Type} [Zero F] (t : Tensor F) (newShape : List Int)
    (hns : ∀ d ∈ newShape, 0 ≤ d) : (t.broadcasted newShape).WellFormed :=
  ⟨canonicalStrides_length newShape, hns, rfl, broadcastData_length t newShape,
    ⟨newShape, List.Perm.refl _⟩, fun _ => rfl⟩

/-- The element of the returned tensor at a valid output multi-index is the cell of the
contiguous source addressed by the pinned, right-aligned source multi-index. -/
theorem broadcasted_elemAt {F : Type} [Zero F] (t : Tensor F) (newShape : List Int)
    (hns : ∀ d ∈ newShape, 0 ≤ d) {out : List Int} (hv : ValidIndex newShape out) :
    (t.broadcasted newShape).elemAt out
      = .ok (t.cpuData.getD
          (dot (broadcastSource t.shape out) (canonicalStrides t.shape)).toNat 0) := by
  have hwr := broadcasted_wellFormed t newShape hns
  obtain ⟨h0, h1⟩ := dot_canonical_bounds hv
  have hk : (dot out (canonicalStrides newShape)).toNat < newShape.prod.toNat := by omega
  rw [hwr.elemAt_eq hv]
  show Except.ok ((t.broadcastData newShape).getD (dot out (canonicalStrides newShape)).toNat 0)
    = _
  rw [getD_of_lt _ _ _ (by rw [broadcastData_length]; exact hk)]
  simp only [Tensor.broadcastData, List.getElem_map, List.getElem_range]
  rw [unravel_dot hv]

/-- C7.  For a well-formed CPU source of rank `r` and a broadcast-compatible `newShape` of
length `m >= r` (non-negative dimensions, no `int` overflow in its product or strides),
`broadcast(newShape)` returns a new contiguous tensor with shape `newShape`, canonical
strides (none of which wrapped) and `product(newShape)` values; for every
valid output multi-index `out` its element is the source's logical element at the index
`src` with `src[j] = 0` when `sourceShape[j] == 1` and `src[j] = out[m - r + j]`
otherwise; the buffer lists these elements along the row-major enumeration of `newShape`. -/
theorem broadcast_elements {F : Type} [Zero F] (t : Tensor F) (newShape : List Int)
    (hw : t.WellFormed) (hdev : t.device = Device.CPU) (hns : ∀ d ∈ newShape, 0 ≤ d)
    (hfit : NoOverflow newShape) (hc : BroadcastCompatible t.shape newShape) :
    ∃ src result, t.broadcast newShape = .done src result ∧
      result.shape = newShape ∧ result.strides = canonicalStrides newShape ∧
      (∀ s ∈ result.strides, FitsInt s) ∧
      result.contiguous = true ∧ result.totalSize = newShape.prod ∧
      (result.cpuData.length : Int) = newShape.prod ∧
      (∀ out, ValidIndex newShape out →
        ∃ v, t.elemAt (broadcastSource t.shape out) = .ok v ∧ result.elemAt out = .ok v) ∧
      List.Forall₂ (fun out v => t.elemAt (broadcastSource t.shape out) = .ok v)
        (rowMajor newShape) result.cpuData := by
  have hw1 := ensured_wellFormed t hw
  have hsh := ensured_shape t
  obtain ⟨hstr, helem⟩ := ensured_cpu t hw hdev
  have hprod := prod_nonneg_of_nonneg newShape hns
  have hsrc : ∀ out, ValidIndex newShape out →
      t.elemAt (broadcastSource t.shape out)
        = .ok (t.ensured.cpuData.getD
            (dot (broadcastSource t.ensured.shape out)
              (canonicalStrides t.ensured.shape)).toNat 0) := by
    intro out hv
    have hsv : ValidIndex t.shape (broadcastSource t.shape out) := broadcastSource_valid hc hv
    rw [← helem _ hsv, hw1.elemAt_eq (by rw [hsh]; exact hsv), hstr, hsh]
  refine ⟨t.ensured, t.ensured.broadcasted newShape,
    broadcast_done t newShape hw hns hfit.1 hc, rfl, rfl, hfit.2, rfl, rfl, ?_, ?_, ?_⟩
  · show (((t.ensured.broadcastData newShape).length : Nat) : Int) = _
    rw [broadcastData_length, Int.toNat_of_nonneg hprod]
  · intro out hv
    exact ⟨_, hsrc out hv, broadcasted_elemAt t.ensured newShape hns hv⟩
  · have hlen := rowMajor_length newShape hns
    rw [List.forall₂_iff_get]
    refine ⟨by
      show _ = (t.ensured.broadcastData newShape).length
      rw [hlen, broadcastData_length], ?_⟩
    intro k hk1 hk2
    simp only [List.get_eq_getElem]
    rw [rowMajor_getElem newShape hns k hk1,
      hsrc _ (unravel_valid newShape hns k (by omega))]
    show _ = Except.ok ((t.ensured.broadcastData newShape)[k])
    simp only [Tensor.broadcastData, List.getElem_map, List.getElem_range]

/-- C7 on a `2 x 1` source stretched to `2 x 2 x 3`. -/
theorem broadcast_elements_witness :
    sample21.WellFormed ∧ sample21.device = Device.CPU ∧
    (∀ d ∈ ([2, 2, 3] : List Int), 0 ≤ d) ∧ NoOverflow [2, 2, 3] ∧
    BroadcastCompatible sample21.shape [2, 2, 3] ∧
    ∃ src result, sample21.broadcast [2, 2, 3] = .done src result ∧
      result.shape = [2, 2, 3] ∧ result.strides = canonicalStrides [2, 2, 3] ∧
      (∀ s ∈ result.strides, FitsInt s) ∧
      result.contiguous = true ∧ result.totalSize = ([2, 2, 3] : List Int).prod ∧
      (result.cpuData.length : Int) = ([2, 2, 3] : List Int).prod ∧
      (∀ out, ValidIndex [2, 2, 3] out →
        ∃ v, sample21.elemAt (broadcastSource sample21.shape out) = .ok v ∧
          result.elemAt out = .ok v) ∧
      List.Forall₂ (fun out v => sample21.elemAt (broadcastSource sample21.shape out) = .ok v)
        (rowMajor [2, 2, 3]) result.cpuData :=
  ⟨⟨by decide, by decide, by decide, by decide, ⟨[2, 1], List.Perm.refl _⟩, fun _ => rfl⟩,
   rfl, by decide, by decide, by decide,
   broadcast_elements sample21 [2, 2, 3]
     ⟨by decide, by decide, by decide, by decide, ⟨[2, 1], List.Perm.refl _⟩, fun _ => rfl⟩
     rfl (by decide) (by decide) (by decide)⟩

/-- C8.  For a well-formed source and a target of non-negative dimensions whose product
fits in `int`, `broadcast(newShape)` completes exactly when `len(newShape) >= rank` and,
for every `i < rank`, the source dimension `shape[rank-1-i]` equals
`newShape[len(newShape)-1-i]` or is `1`; otherwise it stops with the broadcast error and
the source tensor is unmodified. -/
theorem broadcast_succeeds_iff_compatible {F : Type} [Zero F] (t : Tensor F)
    (newShape : List Int) (hw : t.WellFormed) (hns : ∀ d ∈ newShape, 0 ≤ d)
    (hfit : FitsInt newShape.prod) :
    ((∃ src result, t.broadcast newShape = .done src result)
      ↔ BroadcastCompatible t.shape newShape) ∧
    (¬ BroadcastCompatible t.shape newShape →
      t.broadcast newShape = .failed .broadcastError t) := by
  refine ⟨⟨?_, fun hc => ⟨_, _, broadcast_done t newShape hw hns hfit hc⟩⟩,
    broadcast_failed t newShape⟩
  rintro ⟨src, result, h⟩
  by_contra hc
  rw [broadcast_failed t newShape hc] at h
  cases h

/-- C8 on the `2 x 3` sample: `[3]` is too short, `[2, 4]` mismatches the last dimension,
`[5, 2, 3]` is compatible. -/
theorem broadcast_succeeds_iff_compatible_witness :
    sample23.WellFormed ∧ (∀ d ∈ ([5, 2, 3] : List Int), 0 ≤ d) ∧
    FitsInt ([5, 2, 3] : List Int).prod ∧
    sample23.broadcast [3] = .failed .broadcastError sample23 ∧
    sample23.broadcast [2, 4] = .failed .broadcastError sample23 ∧
    ∃ src result, sample23.broadcast [5, 2, 3] = .done src result :=
  ⟨sample23_wellFormed, by decide, by decide,
   (broadcast_succeeds_iff_compatible sample23 [3] sample23_wellFormed (by decide)
     (by decide)).2 (by decide),
   (broadcast_succeeds_iff_compatible sample23 [2, 4] sample23_wellFormed (by decide)
     (by decide)).2 (by decide),
   (broadcast_succeeds_iff_compatible sample23 [5, 2, 3] sample23_wellFormed (by decide)
     (by decide)).1.mpr (by decide)⟩

/-! ## Broadcasting a vector -/

theorem rank1_strides {F : Type} (t : Tensor F) (hw : t.WellFormed) (k : Int)
    (hs : t.shape = [k]) : t.strides = [1] := by
  obtain ⟨hl, _, _, _, ⟨base, hperm⟩, _⟩ := hw
  rw [hs] at hl hperm
  obtain ⟨s, hstr⟩ : ∃ s, t.strides = [s] := List.length_eq_one.mp hl
  rw [hstr] at hperm ⊢
  have h1 : base.zip (canonicalStrides base) = [(k, s)] := by
    have := List.perm_singleton.mp hperm.symm
    simpa using this
  cases base with
  | nil => simp [canonicalStrides] at h1
  | cons b bs =>
    cases bs with
    | nil =>
      simp only [canonicalStrides, List.prod_nil, List.zip_cons_cons, List.zip_nil_right,
        List.cons.injEq, Prod.mk.injEq, and_true] at h1
      rw [← h1.2]
    | cons c cs => simp [canonicalStrides] at h1

theorem prod_append_singleton_toNat (pre : List Int) (k : Int) (hp : ∀ d ∈ pre, 0 ≤ d)
    (hk : 0 ≤ k) : (pre ++ [k]).prod.toNat = pre.prod.toNat * k.toNat := by
  have h1 := prod_nonneg_of_nonneg pre hp
  rw [List.prod_append, List.prod_singleton]
  apply Int.ofNat.inj
  simp only [Int.ofNat_eq_coe]
  rw [Int.toNat_of_nonneg (mul_nonneg h1 hk)]
  push_cast
  rw [Int.toNat_of_nonneg h1, Int.toNat_of_nonneg hk]

/-- The last component of the `i`-th multi-index is `i` modulo the last dimension. -/
theorem unravel_last (k : Int) (hk : 0 ≤ k) (pre : List Int) (hp : ∀ d ∈ pre, 0 ≤ d) :
    ∀ i : Nat, i < (pre ++ [k]).prod.toNat →
      (unravel (pre ++ [k]) i).getD pre.length 0 = ((i % k.toNat : Nat) : Int) := by
  induction pre with
  | nil =>
    intro i hi
    have hi' : i < k.toNat := by simpa using hi
    simp [unravel, Nat.mod_eq_of_lt hi']
  | cons d ds ih =>
    intro i hi
    have hds : ∀ x ∈ ds, 0 ≤ x := fun x hx => hp x (List.mem_cons_of_mem _ hx)
    have hP := prod_append_singleton_toNat ds k hds hk
    have hpos : 0 < (ds ++ [k]).prod.toNat := by
      have h1 : ∀ x ∈ d :: (ds ++ [k]), 0 ≤ x := by
        intro x hx
        rw [List.mem_cons, List.mem_append, List.mem_singleton] at hx
        rcases hx with hx | hx | hx
        · rw [hx]; exact hp _ (List.mem_cons_self _ _)
        · exact hds x hx
        · rw [hx]; exact hk
      rw [List.cons_append, prod_cons_toNat d (ds ++ [k]) h1] at hi
      rcases Nat.eq_zero_or_pos (ds ++ [k]).prod.toNat with h0 | h0
      · rw [h0] at hi; simp at hi
      · exact h0
    rw [List.cons_append, unravel, List.length_cons, List.getD_cons_succ,
      ih hds _ (Nat.mod_lt _ hpos), hP, Nat.mod_mod_of_dvd _ (Dvd.intro_left _ rfl)]

theorem broadcastSource_singleton (k : Int) (out : List Int) :
    broadcastSource [k] out = [if k = 1 then 0 else out.getD (out.length - 1) 0] := by
  simp [broadcastSource, List.range_succ]

theorem dot_singleton_one (x : Int) : dot [x] [1] = x := by
  simp [dot]

theorem ensured_cpuData_of_canonical {F : Type} [Zero F] (t : Tensor F) (hw : t.WellFormed)
    (hc : t.strides = canonicalStrides t.shape) : t.ensured.cpuData = t.cpuData := by
  rw [Tensor.ensured]
  split
  · exact gathered_of_canonical t hw hc
  · rfl

/-- C9.  For a well-formed rank-1 source of length `k` and a target shape `pre ++ [k]`
whose last dimension is `k` and whose product fits in `int`, `broadcast` returns
`product(pre) * k` values in which every consecutive block of `k` values equals the source
buffer, and the element at an output
multi-index `front ++ [c]` is the source element at `[c]`.  With `k = 3` and `pre = [2, 4]`
this is the tensor of shape `[3]` broadcast to `[2, 4, 3]`: 24 values, the element at
`[n, h, c]` being the source element at `[c]`. -/
theorem broadcast_vector_blocks {F : Type} [Zero F] (t : Tensor F) (k : Int)
    (pre : List Int) (hw : t.WellFormed) (hs : t.shape = [k]) (hp : ∀ d ∈ pre, 0 ≤ d)
    (hfit : FitsInt (pre ++ [k]).prod) :
    ∃ src result, t.broadcast (pre ++ [k]) = .done src result ∧
      result.shape = pre ++ [k] ∧
      result.cpuData.length = pre.prod.toNat * k.toNat ∧
      t.cpuData.length = k.toNat ∧
      (∀ b j : Nat, j < k.toNat → b * k.toNat + j < result.cpuData.length →
        result.cpuData[b * k.toNat + j]? = t.cpuData[j]?) ∧
      (∀ front c, ValidIndex (pre ++ [k]) (front ++ [c]) →
        ∃ v, t.elemAt [c] = .ok v ∧ result.elemAt (front ++ [c]) = .ok v) := by
  have hk : 0 ≤ k := hw.2.1 k (by rw [hs]; exact List.mem_singleton_self k)
  have hns : ∀ d ∈ pre ++ [k], 0 ≤ d := by
    intro d hd
    rcases List.mem_append.mp hd with h | h
    · exact hp d h
    · rw [List.mem_singleton.mp h]; exact hk
  have hcompat : BroadcastCompatible t.shape (pre ++ [k]) := by
    rw [hs]
    refine ⟨by simp, ?_⟩
    intro i hi
    have hi0 : i = 0 := by simpa using hi
    subst hi0
    left
    simp
  have hstr : t.strides = [1] := rank1_strides t hw k hs
  have hcan : t.strides = canonicalStrides t.shape := by rw [hstr, hs]; rfl
  have hdata : t.ensured.cpuData = t.cpuData := ensured_cpuData_of_canonical t hw hcan
  have hsh : t.ensured.shape = [k] := by rw [ensured_shape, hs]
  have htl : t.cpuData.length = k.toNat := by
    rw [hw.2.2.2.1, hw.2.2.1, hs]; simp
  have hN := prod_append_singleton_toNat pre k hp hk
  -- the value stored at position `i` of the result
  have hval : ∀ i (hi : i < (t.ensured.broadcastData (pre ++ [k])).length),
      (t.ensured.broadcastData (pre ++ [k]))[i] = t.cpuData.getD (i % k.toNat) 0 := by
    intro i hi
    have hi' : i < (pre ++ [k]).prod.toNat := by rw [broadcastData_length] at hi; exact hi
    simp only [Tensor.broadcastData, List.getElem_map, List.getElem_range]
    rw [hsh, hdata]
    have hlast := unravel_last k hk pre hp i hi'
    have hlen : (unravel (pre ++ [k]) i).length - 1 = pre.length := by
      rw [unravel_length]; simp
    have hcs : canonicalStrides [k] = [1] := rfl
    rw [broadcastSource_singleton, hlen, hlast, hcs, dot_singleton_one]
    by_cases h1 : k = 1
    · subst h1
      simp [Nat.mod_one]
    · rw [if_neg h1, Int.toNat_ofNat]
  refine ⟨t.ensured, t.ensured.broadcasted (pre ++ [k]),
    broadcast_done t (pre ++ [k]) hw hns hfit hcompat, rfl, ?_, htl, ?_, ?_⟩
  · show (t.ensured.broadcastData (pre ++ [k])).length = _
    rw [broadcastData_length, hN]
  · intro b j hj hlt
    have hlt' : b * k.toNat + j < (t.ensured.broadcastData (pre ++ [k])).length := hlt
    show (t.ensured.broadcastData (pre ++ [k]))[b * k.toNat + j]? = _
    rw [List.getElem?_eq_getElem hlt', hval _ hlt', Nat.mul_add_mod_of_lt hj,
      List.getElem?_eq_getElem (by omega : j < t.cpuData.length),
      getD_of_lt _ _ _ (by omega : j < t.cpuData.length)]
  · intro front c hv
    have hfl : front.length = pre.length := by
      have := hv.length_eq
      simpa using this
    have hcv : 0 ≤ c ∧ c < k := by
      have := validIndex_getD hv pre.length (by simp)
      rw [← hfl, getD_append_cons, hfl, getD_append_cons] at this
      exact this
    have hsrcv : ValidIndex t.shape [c] := by
      rw [hs]
      exact List.Forall₂.cons hcv List.Forall₂.nil
    have hsrc : broadcastSource [k] (front ++ [c]) = [c] := by
      have hlen : (front ++ [c]).length - 1 = front.length := by simp
      rw [broadcastSource_singleton, hlen, getD_append_cons]
      by_cases h1 : k = 1
      · have : c = 0 := by omega
        rw [if_pos h1, this]
      · rw [if_neg h1]
    refine ⟨_, hw.elemAt_eq hsrcv, ?_⟩
    rw [broadcasted_elemAt t.ensured (pre ++ [k]) hns hv, hsh, hsrc, hdata, hcan, hs]

/-- C9 on a vector of shape `[3]` broadcast to `[2, 4, 3]`. -/
theorem broadcast_vector_blocks_witness :
    sample3.WellFormed ∧ sample3.shape = [3] ∧ (∀ d ∈ ([2, 4] : List Int), 0 ≤ d) ∧
    FitsInt ([2, 4] ++ [3] : List Int).prod ∧
    ∃ src result, sample3.broadcast ([2, 4] ++ [3]) = .done src result ∧
      result.shape = [2, 4] ++ [3] ∧
      result.cpuData.length = ([2, 4] : List Int).prod.toNat * (3 : Int).toNat ∧
      sample3.cpuData.length = (3 : Int).toNat ∧
      (∀ b j : Nat, j < (3 : Int).toNat → b * (3 : Int).toNat + j < result.cpuData.length →
        result.cpuData[b * (3 : Int).toNat + j]? = sample3.cpuData[j]?) ∧
      (∀ front c, ValidIndex ([2, 4] ++ [3]) (front ++ [c]) →
        ∃ v, sample3.elemAt [c] = .ok v ∧ result.elemAt (front ++ [c]) = .ok v) :=
  ⟨⟨by decide, by decide, by decide, by decide, ⟨[3], List.Perm.refl _⟩, fun _ => rfl⟩,
   rfl, by decide, by decide,
   broadcast_vector_blocks sample3 3 [2, 4]
     ⟨by decide, by decide, by decide, by decide, ⟨[3], List.Perm.refl _⟩, fun _ => rfl⟩
     rfl (by decide) (by decide)⟩

/-! ## `reshape` keeps the invariant -/

theorem ensured_totalSize {F : Type} [Zero F] (t : Tensor F) :
    t.ensured.totalSize = t.totalSize := by
  rw [Tensor.ensured]
  split <;> rfl

theorem reshape_eq {F : Type} [Zero F] (t : Tensor F) (newShape : List Int)
    (hw : t.WellFormed) (hprod : accumulateMul newShape = t.totalSize) :
    t.reshape newShape
      = .done { t.ensured with shape := newShape, strides := canonicalStrides newShape } := by
  have h1 : t.ensured.totalSize = accumulateMul newShape := by
    rw [ensured_totalSize, hprod]
  simp only [Tensor.reshape, ensure_step t hw, h1, if_true, computeStrides_eq]

/-- The invariant is kept by a successful `reshape` to a shape of non-negative dimensions
whose product fits in `int`. -/
theorem reshape_wellFormed {F : Type} [Zero F] (t : Tensor F) (newShape : List Int)
    (hw : t.WellFormed) (hprod : accumulateMul newShape = t.totalSize)
    (hns : ∀ d ∈ newShape, 0 ≤ d) (hfit : FitsInt newShape.prod) :
    ({ t.ensured with shape := newShape, strides := canonicalStrides newShape } :
      Tensor F).WellFormed := by
  have hw1 := ensured_wellFormed t hw
  refine ⟨canonicalStrides_length newShape, hns, ?_, hw1.2.2.2.1,
    ⟨newShape, List.Perm.refl _⟩, fun _ => rfl⟩
  show t.ensured.totalSize = newShape.prod
  rw [ensured_totalSize, ← hprod, accumulateMul_eq_prod newShape hfit]

/-! ## The model evaluated on the samples -/

theorem create_sample : (Tensor.create [2, 3] Device.CPU : Except TensorError (Tensor Int))
    = .ok sampleNew23 := rfl

theorem transpose_sample : sample23.transpose [1, 0] = .done sample32T := by decide

theorem makeContiguous_sample : sample32T.makeContiguous = .done sample32M := by decide

theorem reshape_sample :
    sample32T.reshape [6] = .done { sample32M with shape := [6], strides := [1] } := by decide

theorem elemAt_sample : sample32T.elemAt [2, 1] = .ok 15 ∧ sample32M.elemAt [2, 1] = .ok 15 ∧
    sample23.elemAt [1, 2] = .ok 15 ∧ sample23.elemAt [2, 0] = .error .indexError :=
  ⟨rfl, rfl, rfl, rfl⟩

theorem broadcast_sample :
    sample3.broadcast [2, 4, 3] = .done sample3
      { shape := [2, 4, 3], strides := [12, 3, 1], totalSize := 24, contiguous := true,
        cpuData := [7, 8, 9, 7, 8, 9, 7, 8, 9, 7, 8, 9, 7, 8, 9, 7, 8, 9, 7, 8, 9, 7, 8, 9],
        cpuGrad := List.replicate 24 0, device := Device.CPU } := by decide

theorem broadcast_stretch_sample :
    sample21.broadcast [2, 3] = .done sample21
      { shape := [2, 3], strides := [3, 1], totalSize := 6, contiguous := true,
        cpuData := [7, 7, 7, 8, 8, 8], cpuGrad := List.replicate 6 0,
        device := Device.CPU } := by decide

/-! ## The `int` product on shapes that overflow -/

theorem accumulateMul_wraps :
    accumulateMul [65536, 65536] = 0 ∧ accumulateMul [65536, 65537] = 65536 ∧
    accumulateMul [65535, 65537] = -1 ∧ accumulateMul [9, 954437177] = 1 ∧
    accumulateMul [64, 3, 4096, 4096] = -1073741824 := by
  decide

/-- The constructor on `[65536, 65536]` returns a tensor without values, and on
`[65535, 65537]` its `resize` throws. -/
theorem create_wraps_sample :
    (Tensor.create [65536, 65536] Device.CPU : Except TensorError (Tensor Int))
      = .ok sampleWrappedEmpty ∧
    (Tensor.create [65535, 65537] Device.CPU : Except TensorError (Tensor Int))
      = .error .badAlloc :=
  ⟨rfl, rfl⟩

/-- On the one-element tensor `reshape([9, 954437177])` passes the size assertion; the
valid multi-index `[1, 0]` of the new shape then addresses a cell outside the buffer. -/
theorem reshape_wraps_sample :
    sampleNew1.reshape [9, 954437177] = .done sampleWrapped ∧
    ValidIndex sampleWrapped.shape [1, 0] ∧
    sampleWrapped.elemAt [1, 0] = .error .outOfBounds ∧
    sampleWrapped.edit [1, 0] 7 = .failed .outOfBounds sampleWrapped := by
  refine ⟨by decide, by decide, rfl, by decide⟩

/-! ## `computeStrides`, the constructor, `flatten` -/

/-- C20.  For every shape whose product is not negative (in particular every shape of
non-negative dimensions) and that overflows no `int` (its product and its row-major strides
fit in `int`), the constructor returns a tensor with the given shape and device,
`totalSize` equal to the product of the shape, values and gradient buffers of length
`totalSize` holding only zeros, the canonical row-major strides (none of which wrapped)
and the flag set. -/
theorem constructor_state {F : Type} [Zero F] (shape : List Int) (dev : Device)
    (h : 0 ≤ shape.prod) (hfit : NoOverflow shape) :
    ∃ t : Tensor F, Tensor.create shape dev = .ok t ∧
      t.shape = shape ∧ t.device = dev ∧ t.totalSize = shape.prod ∧
      t.cpuData = List.replicate shape.prod.toNat 0 ∧
      t.cpuGrad = List.replicate shape.prod.toNat 0 ∧
      (t.cpuData.length : Int) = t.totalSize ∧ (t.cpuGrad.length : Int) = t.totalSize ∧
      t.strides = canonicalStrides shape ∧ (∀ s ∈ t.strides, FitsInt s) ∧
      t.contiguous = true := by
  have hacc := accumulateMul_eq_prod shape hfit.1
  refine ⟨_, by rw [Tensor.create, hacc, if_pos h, computeStrides_eq], rfl, rfl, rfl, rfl, rfl,
    ?_, ?_, rfl, hfit.2, rfl⟩
  · simp only [List.length_replicate]
    exact Int.toNat_of_nonneg h
  · simp only [List.length_replicate]
    exact Int.toNat_of_nonneg h

/-- C20 at the shape `[2, 3]`. -/
theorem constructor_state_witness :
    0 ≤ ([2, 3] : List Int).prod ∧ NoOverflow [2, 3] ∧
    ∃ t : Tensor Int, Tensor.create [2, 3] Device.CPU = .ok t ∧
      t.shape = [2, 3] ∧ t.device = Device.CPU ∧ t.totalSize = ([2, 3] : List Int).prod ∧
      t.cpuData = List.replicate ([2, 3] : List Int).prod.toNat 0 ∧
      t.cpuGrad = List.replicate ([2, 3] : List Int).prod.toNat 0 ∧
      (t.cpuData.length : Int) = t.totalSize ∧ (t.cpuGrad.length : Int) = t.totalSize ∧
      t.strides = canonicalStrides [2, 3] ∧ (∀ s ∈ t.strides, FitsInt s) ∧
      t.contiguous = true :=
  ⟨by decide, by decide, constructor_state [2, 3] Device.CPU (by decide) (by decide)⟩

theorem makeContiguous_totalSize {F : Type} [Zero F] (t t1 : Tensor F)
    (h : t.makeContiguous = .done t1) : t1.totalSize = t.totalSize := by
  rw [Tensor.makeContiguous] at h
  split at h
  · cases h; rfl
  · split at h
    · rw [Tensor.makeContiguousCpu] at h
      split at h
      · cases h; rfl
      · split at h
        · cases h
        · split at h
          · cases h; rfl
          · cases h
    · cases h; rfl

theorem ensureStep_totalSize {F : Type} [Zero F] (t t1 : Tensor F)
    (h : (if !t.contiguous then t.makeContiguous else Res.done t) = .done t1) :
    t1.totalSize = t.totalSize := by
  split at h
  · exact makeContiguous_totalSize t t1 h
  · cases h; rfl

theorem accumulateMul_singleton (n : Int) (h : FitsInt n) : accumulateMul [n] = n := by
  rw [accumulateMul_eq_prod [n] (by simpa using h)]
  simp

/-- C13.  For every tensor (the field `totalSize` being an `int`), `flatten()` ends in the
same outcome as `reshape([totalSize])` started from the same state: the same shape,
strides, flag and values buffer (and, should the materialization stop, the same
failure). -/
theorem flatten_eq_reshape {F : Type} [Zero F] (t : Tensor F) (hint : FitsInt t.totalSize) :
    t.flatten = t.reshape [t.totalSize] := by
  rw [Tensor.flatten, Tensor.reshape]
  cases hr : (if !t.contiguous then t.makeContiguous else Res.done t) with
  | failed e t1 => rfl
  | done t1 =>
    have ht := ensureStep_totalSize t t1 hr
    have hacc : accumulateMul [t.totalSize] = t.totalSize :=
      accumulateMul_singleton t.totalSize hint
    simp only [hacc, ht, if_true, computeStrides_eq]
    rfl

/-- C13 on the transposed `3 x 2` view. -/
theorem flatten_eq_reshape_witness :
    FitsInt sample32T.totalSize ∧ sample32T.flatten = sample32T.reshape [sample32T.totalSize] :=
  ⟨by decide, flatten_eq_reshape sample32T (by decide)⟩

/-- C14.  For a tensor that is flagged contiguous, with `totalSize` the product of its
shape `s` and the canonical strides of a contiguous tensor, `flatten()` followed by
`reshape(s)` completes and restores the tensor: same values buffer, same shape, same
strides (and every other field as before). -/
theorem flatten_reshape_restores {F : Type} [Zero F] (t : Tensor F)
    (hc : t.contiguous = true) (htot : t.totalSize = accumulateMul t.shape)
    (hstr : t.strides = canonicalStrides t.shape) :
    ∃ t1 t2, t.flatten = .done t1 ∧ t1.shape = [t.totalSize] ∧ t1.cpuData = t.cpuData ∧
      t1.reshape t.shape = .done t2 ∧
      t2.cpuData = t.cpuData ∧ t2.shape = t.shape ∧ t2.strides = t.strides ∧ t2 = t := by
  have h1 : t.flatten = .done { t with shape := [t.totalSize], strides := [1] } := by
    simp [Tensor.flatten, hc]
  have h2 : ({ t with shape := [t.totalSize], strides := [1] } : Tensor F).reshape t.shape
      = .done t := by
    simp only [Tensor.reshape, hc, Bool.not_true, Bool.false_eq_true, if_false, htot, if_true,
      computeStrides_eq]
    rw [← hstr, ← htot, ← hc]
  exact ⟨_, t, h1, rfl, rfl, h2, rfl, rfl, rfl, rfl⟩

/-- C14 on the `2 x 3` sample. -/
theorem flatten_reshape_restores_witness :
    sample23.contiguous = true ∧ sample23.totalSize = accumulateMul sample23.shape ∧
    sample23.strides = canonicalStrides sample23.shape ∧
    ∃ t1 t2, sample23.flatten = .done t1 ∧ t1.shape = [sample23.totalSize] ∧
      t1.cpuData = sample23.cpuData ∧ t1.reshape sample23.shape = .done t2 ∧
      t2.cpuData = sample23.cpuData ∧ t2.shape = sample23.shape ∧
      t2.strides = sample23.strides ∧ t2 = sample23 :=
  ⟨rfl, by decide, by decide, flatten_reshape_restores sample23 rfl (by decide) (by decide)⟩

/-! ## Element access -/

/-- On an index with a component out of range the loop of `at` and `edit` stops at the
range assertion. -/
theorem offsetLoop_invalid (shape strides index : List Int)
    (hs : strides.length = shape.length) (hx : index.length = shape.length) :
    ∀ (n i : Nat) (loc : Int), i + n = shape.length →
      ¬ ValidIndex (shape.drop i) (index.drop i) →
      forLoop (offsetLoop shape strides index) i n loc = .error .indexError := by
  intro n
  induction n with
  | zero =>
    intro i loc hi hv
    exfalso
    apply hv
    rw [List.drop_of_length_le (by omega), List.drop_of_length_le (by omega)]
    exact List.Forall₂.nil
  | succ n ih =>
    intro i loc hi hv
    have hi1 : i < shape.length := by omega
    have hi2 : i < index.length := by omega
    have hi3 : i < strides.length := by omega
    rw [List.drop_eq_getElem_cons hi1, List.drop_eq_getElem_cons hi2, ValidIndex,
      List.forall₂_cons] at hv
    by_cases hh : 0 ≤ index[i] ∧ index[i] < shape[i]
    · have hstep : offsetLoop shape strides index i loc = .ok (loc + index[i] * strides[i]) := by
        simp only [offsetLoop, getElem?_some_of_lt _ _ hi1, getElem?_some_of_lt _ _ hi2,
          vecGet, getElem?_some_of_lt _ _ hi3]
        rw [if_pos hh]
      rw [forLoop, hstep]
      exact ih (i + 1) _ (by omega) (fun h => hv ⟨hh, h⟩)
    · have hstep : offsetLoop shape strides index i loc = .error .indexError := by
        simp only [offsetLoop, getElem?_some_of_lt _ _ hi1, getElem?_some_of_lt _ _ hi2]
        rw [if_neg hh]
      rw [forLoop, hstep]

theorem linearOffset_invalid {F : Type} (t : Tensor F) (index : List Int)
    (hs : t.strides.length = t.shape.length) (hv : ¬ ValidIndex t.shape index) :
    t.linearOffset index = .error .indexError := by
  by_cases hx : index.length = t.shape.length
  · rw [Tensor.linearOffset, if_pos hx]
    exact offsetLoop_invalid t.shape t.strides index hs hx t.shape.length 0 0 (by omega)
      (by simpa using hv)
  · rw [Tensor.linearOffset, if_neg hx]

theorem vecSetInt_of_bounds {α : Type} (v : List α) (i : Int) (x : α) (h0 : 0 ≤ i)
    (h1 : i.toNat < v.length) : vecSetInt v i x = .ok (v.set i.toNat x) := by
  rw [vecSetInt, if_pos h0, vecSet, if_pos h1]

/-- On a well-formed tensor `edit` at a valid index writes the addressed cell. -/
theorem Tensor.WellFormed.edit_eq {F : Type} {t : Tensor F} (hw : t.WellFormed)
    {index : List Int} (hv : ValidIndex t.shape index) (val : F) :
    t.edit index val
      = .done { t with cpuData := t.cpuData.set (dot index t.strides).toNat val } := by
  obtain ⟨hb0, hb1⟩ := hw.offset_bounds hv
  rw [Tensor.edit, linearOffset_valid t index hw.1 hv]
  simp only
  rw [vecSetInt_of_bounds _ _ _ hb0 (by have := hw.2.2.2.1; omega)]

/-- C12.  On a well-formed tensor, `at(index)` and `edit(index, v)` complete exactly when
`len(index) == rank` and `0 <= index[i] < shape[i]` for every `i`; they then address the
buffer cell at the linear offset `sum(index[i] * strides[i])`, which lies inside the
buffer.  For any other index both stop with the index error, and the failing `edit` leaves
the tensor, its values buffer included, unchanged. -/
theorem at_edit_contract {F : Type} (t : Tensor F) (index : List Int) (val : F)
    (hw : t.WellFormed) :
    ((∃ v, t.elemAt index = .ok v) ↔ ValidIndex t.shape index) ∧
    ((∃ t1, t.edit index val = .done t1) ↔ ValidIndex t.shape index) ∧
    (ValidIndex t.shape index →
      t.linearOffset index = .ok (dot index t.strides) ∧
      0 ≤ dot index t.strides ∧ (dot index t.strides).toNat < t.cpuData.length ∧
      t.elemAt index = vecGet t.cpuData (dot index t.strides).toNat ∧
      t.edit index val
        = .done { t with cpuData := t.cpuData.set (dot index t.strides).toNat val }) ∧
    (¬ ValidIndex t.shape index →
      t.elemAt index = .error .indexError ∧ t.edit index val = .failed .indexError t) := by
  have hvalid : ValidIndex t.shape index →
      t.linearOffset index = .ok (dot index t.strides) ∧
      0 ≤ dot index t.strides ∧ (dot index t.strides).toNat < t.cpuData.length ∧
      t.elemAt index = vecGet t.cpuData (dot index t.strides).toNat ∧
      t.edit index val
        = .done { t with cpuData := t.cpuData.set (dot index t.strides).toNat val } := by
    intro hv
    obtain ⟨hb0, hb1⟩ := hw.offset_bounds hv
    have hlt : (dot index t.strides).toNat < t.cpuData.length := by
      have := hw.2.2.2.1; omega
    refine ⟨linearOffset_valid t index hw.1 hv, hb0, hlt, ?_, hw.edit_eq hv val⟩
    rw [Tensor.elemAt, linearOffset_valid t index hw.1 hv]
    simp only [vecGetInt, if_pos hb0]
  have hinvalid : ¬ ValidIndex t.shape index →
      t.elemAt index = .error .indexError ∧ t.edit index val = .failed .indexError t := by
    intro hv
    have := linearOffset_invalid t index hw.1 hv
    exact ⟨by rw [Tensor.elemAt, this], by rw [Tensor.edit, this]⟩
  refine ⟨⟨?_, ?_⟩, ⟨?_, ?_⟩, hvalid, hinvalid⟩
  · rintro ⟨v, h⟩
    by_contra hv
    rw [(hinvalid hv).1] at h
    cases h
  · intro hv
    obtain ⟨_, _, hlt, he, _⟩ := hvalid hv
    exact ⟨_, by rw [he, vecGet_of_lt _ _ hlt]⟩
  · rintro ⟨t1, h⟩
    by_contra hv
    rw [(hinvalid hv).2] at h
    cases h
  · intro hv
    exact ⟨_, (hvalid hv).2.2.2.2⟩

/-- C12 on the transposed `3 x 2` view: the index `[2, 1]` is valid, `[1, 2]` is out of
range and `[1]` has the wrong rank. -/
theorem at_edit_contract_witness :
    sample32T.WellFormed ∧
    sample32T.elemAt [2, 1] = vecGet sample32T.cpuData (dot [2, 1] sample32T.strides).toNat ∧
    sample32T.elemAt [1, 2] = .error .indexError ∧
    sample32T.edit [1, 2] 99 = .failed .indexError sample32T ∧
    sample32T.edit [1] 99 = .failed .indexError sample32T :=
  ⟨sample32T_wellFormed,
   ((at_edit_contract sample32T [2, 1] 0 sample32T_wellFormed).2.2.1 (by decide)).2.2.2.1,
   ((at_edit_contract sample32T [1, 2] 99 sample32T_wellFormed).2.2.2 (by decide)).1,
   ((at_edit_contract sample32T [1, 2] 99 sample32T_wellFormed).2.2.2 (by decide)).2,
   ((at_edit_contract sample32T [1] 99 sample32T_wellFormed).2.2.2 (by decide)).2⟩

/-! ## Elementwise kernels -/

theorem forLoop_preserves {σ : Type} (body : Nat → σ → Except TensorError σ) (P : σ → Prop)
    (hb : ∀ j s1 s2, P s1 → body j s1 = .ok s2 → P s2) :
    ∀ (n i : Nat) (s s1 : σ), P s → forLoop body i n s = .ok s1 → P s1 := by
  intro n
  induction n with
  | zero =>
    intro i s s1 hP h
    simp only [forLoop] at h
    cases h
    exact hP
  | succ n ih =>
    intro i s s1 hP h
    rw [forLoop] at h
    cases hbody : body i s with
    | error e => rw [hbody] at h; cases h
    | ok s2 =>
      rw [hbody] at h
      exact ih (i + 1) s2 s1 (hb i s s2 hP hbody) h

theorem take_succ_map {α β : Type} (f : α → β) (data : List α) (k : Nat) (h : k < data.length) :
    (data.take (k + 1)).map f = (data.take k).map f ++ [f data[k]] := by
  rw [List.take_succ, List.getElem?_eq_getElem h]
  simp only [Option.toList, List.map_append, List.map_cons, List.map_nil]

theorem getElem?_append_drop {α : Type} (a data : List α) (k : Nat) (ha : a.length = k)
    (h : k < data.length) : (a ++ data.drop k)[k]? = some data[k] := by
  subst ha
  rw [List.drop_eq_getElem_cons h, List.getElem?_append_right (Nat.le_refl _)]
  simp

/-- The loop of a unary kernel replaces every value by its image. -/
theorem unaryLoop_eq {F : Type} (f : F → F) (data : List F) :
    forLoop (unaryStep f) 0 data.length data = .ok (data.map f) := by
  obtain ⟨s1, hrun, hP⟩ := forLoop_inv (unaryStep f)
    (fun k d => d = (data.take k).map f ++ data.drop k) data.length 0 data (by simp)
    (by
      intro k d _ hk hP
      have hk' : k < data.length := by omega
      have hl : ((data.take k).map f).length = k := by
        simp only [List.length_map, List.length_take]; omega
      have hget : vecGet d k = .ok data[k] := by
        rw [vecGet, hP, getElem?_append_drop _ data k hl hk']
      have hlen : k < d.length := by
        rw [hP]; simp only [List.length_append, hl, List.length_drop]; omega
      refine ⟨_, ?_, rfl⟩
      simp only [unaryStep, hget, vecSet, if_pos hlen]
      rw [hP, List.drop_eq_getElem_cons hk']
      have := set_append_cons ((data.take k).map f) (data.drop (k + 1)) data[k] (f data[k])
      rw [hl] at this
      rw [this, take_succ_map f data k hk']
      simp)
  rw [hrun, hP]
  simp

theorem unaryKernel_eq {F : Type} (f : F → F) (t : Tensor F) :
    t.unaryKernel f = .done { t with cpuData := t.cpuData.map f } := by
  simp only [Tensor.unaryKernel, unaryLoop_eq]

theorem zipWith_take_succ {α : Type} (op : α → α → α) :
    ∀ (data other : List α) (k : Nat) (h1 : k < data.length) (h2 : k < other.length),
      List.zipWith op (data.take (k + 1)) other
        = List.zipWith op (data.take k) other ++ [op data[k] other[k]] := by
  intro data
  induction data with
  | nil => intro other k h1; simp at h1
  | cons x xs ih =>
    intro other k h1 h2
    cases other with
    | nil => simp at h2
    | cons y ys =>
      cases k with
      | zero => simp
      | succ j =>
        simp only [List.length_cons, Nat.add_lt_add_iff_right] at h1 h2
        simp [ih ys j h1 h2]

theorem zipWith_take_self {α : Type} (op : α → α → α) (data other : List α) :
    List.zipWith op (data.take data.length) other ++ data.drop data.length
      = List.zipWith op data other := by
  simp

/-- The loop of a binary kernel combines the two buffers position by position. -/
theorem binaryLoop_eq {F : Type} (op : F → F → F) (data other : List F)
    (hlen : data.length ≤ other.length) :
    forLoop (binaryStep op other) 0 data.length data = .ok (List.zipWith op data other) := by
  obtain ⟨s1, hrun, hP⟩ := forLoop_inv (binaryStep op other)
    (fun k d => d = List.zipWith op (data.take k) other ++ data.drop k) data.length 0 data
    (by simp)
    (by
      intro k d _ hk hP
      have hk' : k < data.length := by omega
      have hko : k < other.length := by omega
      have hl : (List.zipWith op (data.take k) other).length = k := by
        simp only [List.length_zipWith, List.length_take]; omega
      have hget : vecGet d k = .ok data[k] := by
        rw [vecGet, hP, getElem?_append_drop _ data k hl hk']
      have hlen2 : k < d.length := by
        rw [hP]; simp only [List.length_append, hl, List.length_drop]; omega
      refine ⟨_, ?_, rfl⟩
      simp only [binaryStep, hget, vecGet_of_lt other k hko, vecSet, if_pos hlen2]
      rw [hP, List.drop_eq_getElem_cons hk']
      have := set_append_cons (List.zipWith op (data.take k) other) (data.drop (k + 1))
        data[k] (op data[k] other[k])
      rw [hl] at this
      rw [this, zipWith_take_succ op data other k hk' hko]
      simp)
  rw [hrun, hP, Nat.zero_add, zipWith_take_self op data other]

theorem binaryKernel_eq {F : Type} (op : F → F → F) (t other : Tensor F)
    (hlen : t.cpuData.length ≤ other.cpuData.length) :
    t.binaryKernel op other
      = .done { t with cpuData := List.zipWith op t.cpuData other.cpuData } := by
  simp only [Tensor.binaryKernel, binaryLoop_eq op _ _ hlen]

theorem sizeInvariant_length_eq {F : Type} {t other : Tensor F} (ht : t.SizeInvariant)
    (ho : other.SizeInvariant) (hs : t.shape = other.shape) :
    t.cpuData.length = other.cpuData.length := by
  have h1 := ht.2.2
  have h2 := ho.2.2
  rw [ht.2.1, hs, ← ho.2.1, ← h2] at h1
  exact_mod_cast h1

/-- The contract shared by the four binary tensor-tensor operations. -/
theorem binaryContract_of {F : Type} (run : Tensor F → Tensor F → Res F) (op : F → F → F)
    (hrun : ∀ t other : Tensor F, run t other
      = if t.shape = other.shape then t.dispatch (fun s => s.binaryKernel op other)
        else .failed .shapeMismatch t)
    (t other : Tensor F) (ht : t.SizeInvariant) (ho : other.SizeInvariant) :
    BinaryContract run op t other := by
  refine ⟨⟨?_, ?_⟩, ?_, ?_⟩
  · rintro ⟨t1, h⟩
    by_contra hs
    rw [hrun, if_neg hs] at h
    cases h
  · intro hs
    have hl := sizeInvariant_length_eq ht ho hs
    rw [hrun, if_pos hs, Tensor.dispatch]
    split
    · exact ⟨_, binaryKernel_eq op t other (by omega)⟩
    · exact ⟨_, rfl⟩
  · intro hs
    rw [hrun, if_neg hs]
  · intro hs hd
    have hl := sizeInvariant_length_eq ht ho hs
    refine ⟨?_, by simp only [List.length_zipWith]; omega, ?_⟩
    · rw [hrun, if_pos hs, Tensor.dispatch, if_pos hd]
      exact binaryKernel_eq op t other (by omega)
    · intro i hi
      have hio : i < other.cpuData.length := by omega
      refine ⟨t.cpuData[i], other.cpuData[i], List.getElem?_eq_getElem hi,
        List.getElem?_eq_getElem hio, ?_⟩
      rw [List.getElem?_zipWith, List.getElem?_eq_getElem hi, List.getElem?_eq_getElem hio]

/-- C16.  For two tensors whose sizes agree with their shapes, each of `addTensor`,
`subtractTensor`, `multiplyTensor` and `divideTensor` completes exactly when the two shapes
are equal (there is no implicit broadcasting); on a shape mismatch it stops with the
shape-mismatch error and leaves the tensor, every element of `values` included,
untouched; on success on a CPU tensor `values[i]` becomes `values[i] op other.values[i]`
for every `i` and nothing else changes.  The operand `other` is passed by constant
reference and is not part of the resulting state. -/
theorem binary_operations_contract {F : Type} [Add F] [Sub F] [Mul F] [Div F]
    (t other : Tensor F) (ht : t.SizeInvariant) (ho : other.SizeInvariant) :
    BinaryContract Tensor.addTensor (fun x y => x + y) t other ∧
    BinaryContract Tensor.subtractTensor (fun x y => x - y) t other ∧
    BinaryContract Tensor.multiplyTensor (fun x y => x * y) t other ∧
    BinaryContract Tensor.divideTensor (fun x y => x / y) t other :=
  ⟨binaryContract_of _ _ (fun _ _ => rfl) t other ht ho,
   binaryContract_of _ _ (fun _ _ => rfl) t other ht ho,
   binaryContract_of _ _ (fun _ _ => rfl) t other ht ho,
   binaryContract_of _ _ (fun _ _ => rfl) t other ht ho⟩

/-- C16 on the `2 x 3` sample with itself as second operand (equal shapes) and with the
`3 x 2` tensor `sample32M` (a mismatch, although the sizes agree). -/
theorem binary_operations_contract_witness :
    sample23.SizeInvariant ∧ sample32M.SizeInvariant ∧
    sample23.addTensor sample32M = .failed .shapeMismatch sample23 ∧
    sample23.addTensor sample23
      = .done { sample23 with cpuData := [20, 22, 24, 26, 28, 30] } ∧
    sample23.divideTensor sample32M = .failed .shapeMismatch sample23 :=
  ⟨by decide, by decide,
   (binary_operations_contract sample23 sample32M (by decide) (by decide)).1.2.1 (by decide),
   ((binary_operations_contract sample23 sample23 (by decide) (by decide)).1.2.2 rfl rfl).1,
   (binary_operations_contract sample23 sample32M (by decide) (by decide)).2.2.2.2.1
     (by decide)⟩

/-- C15, as stated, fails.  `sample32T` is the non-contiguous `3 x 2` view reached by
`transpose([1, 0])`, `sample32M` a contiguous tensor of the same shape.  `addTensor` adds
the two buffers position by position without materializing: afterwards the flag is still
cleared, and the element at `[0, 1]` is `27`, not the sum `13 + 13` of the two elements
that were at `[0, 1]`. -/
theorem addTensor_counterexample :
    sample23.transpose [1, 0] = .done sample32T ∧
    sample32T.contiguous = false ∧ sample32T.shape = sample32M.shape ∧
    sample32T.addTensor sample32M = .done sample32TSum ∧
    sample32TSum.contiguous = false ∧
    sample32T.elemAt [0, 1] = .ok 13 ∧ sample32M.elemAt [0, 1] = .ok 13 ∧
    sample32TSum.elemAt [0, 1] = .ok 27 :=
  ⟨by decide, rfl, rfl, by decide, rfl, rfl, rfl, rfl⟩

/-- C15, amended.  `addTensor` does not materialize.  For well-formed tensors `t` (on the
CPU) and `other` of the same shape it completes, leaves shape, strides, `totalSize` and the
`contiguous` flag of `t` as they were and replaces `values[i]` by
`values[i] + other.values[i]` at every buffer position; when `t` and `other` have the same
strides (in particular when both are contiguous), the element of `t` at every valid
multi-index becomes the sum of the elements `t` and `other` had at that index. -/
theorem addTensor_same_layout {F : Type} [Zero F] [Add F] (t other : Tensor F)
    (hw : t.WellFormed) (hwo : other.WellFormed) (hdev : t.device = Device.CPU)
    (hs : t.shape = other.shape) :
    ∃ t1, t.addTensor other = .done t1 ∧
      t1.shape = t.shape ∧ t1.strides = t.strides ∧ t1.totalSize = t.totalSize ∧
      t1.contiguous = t.contiguous ∧
      t1.cpuData = List.zipWith (fun x y => x + y) t.cpuData other.cpuData ∧
      (t.strides = other.strides → ∀ index, ValidIndex t.shape index →
        ∃ a b, t.elemAt index = .ok a ∧ other.elemAt index = .ok b ∧
          t1.elemAt index = .ok (a + b)) := by
  have hl : t.cpuData.length = other.cpuData.length := by
    rw [hw.2.2.2.1, hwo.2.2.2.1, hw.2.2.1, hwo.2.2.1, hs]
  have hrun : t.addTensor other
      = .done { t with cpuData := List.zipWith (fun x y => x + y) t.cpuData other.cpuData } := by
    rw [Tensor.addTensor, if_pos hs, Tensor.dispatch, if_pos hdev]
    exact binaryKernel_eq _ t other (by omega)
  have hzl : (List.zipWith (fun x y => x + y) t.cpuData other.cpuData).length
      = t.cpuData.length := by
    simp only [List.length_zipWith]; omega
  have hw1 : ({ t with cpuData := List.zipWith (fun x y => x + y) t.cpuData other.cpuData } :
      Tensor F).WellFormed :=
    ⟨hw.1, hw.2.1, hw.2.2.1, by rw [← hw.2.2.2.1]; exact hzl, hw.2.2.2.2.1, hw.2.2.2.2.2⟩
  refine ⟨_, hrun, rfl, rfl, rfl, rfl, rfl, ?_⟩
  intro hstr index hv
  have hvo : ValidIndex other.shape index := by rw [← hs]; exact hv
  obtain ⟨hb0, hb1⟩ := hw.offset_bounds hv
  have hk : (dot index t.strides).toNat < t.cpuData.length := by
    have := hw.2.2.2.1; omega
  have hko : (dot index t.strides).toNat < other.cpuData.length := by omega
  refine ⟨_, _, hw.elemAt_eq hv, hwo.elemAt_eq hvo, ?_⟩
  rw [hw1.elemAt_eq hv]
  show Except.ok ((List.zipWith (fun x y => x + y) t.cpuData other.cpuData).getD
    (dot index t.strides).toNat 0) = _
  rw [← hstr, getD_of_lt _ _ _ (by rw [hzl]; exact hk), getD_of_lt _ _ _ hk,
    getD_of_lt _ _ _ hko, List.getElem_zipWith]

/-- The amended C15 on the transposed view added to itself. -/
theorem addTensor_same_layout_witness :
    sample32T.WellFormed ∧ sample32T.device = Device.CPU ∧
    ∃ t1, sample32T.addTensor sample32T = .done t1 ∧
      t1.shape = sample32T.shape ∧ t1.strides = sample32T.strides ∧
      t1.totalSize = sample32T.totalSize ∧ t1.contiguous = sample32T.contiguous ∧
      t1.cpuData = List.zipWith (fun x y => x + y) sample32T.cpuData sample32T.cpuData ∧
      (sample32T.strides = sample32T.strides → ∀ index, ValidIndex sample32T.shape index →
        ∃ a b, sample32T.elemAt index = .ok a ∧ sample32T.elemAt index = .ok b ∧
          t1.elemAt index = .ok (a + b)) :=
  ⟨sample32T_wellFormed, rfl,
   addTensor_same_layout sample32T sample32T sample32T_wellFormed sample32T_wellFormed rfl rfl⟩

/-- C18.  With `fmaxf` the maximum of a linear order on the element type, on a CPU tensor
`fill(v)` followed by `ReLU()` completes, leaves every element equal to `max(v, 0)` and
changes nothing but the values buffer; so all elements are `0` when `v <= 0` (as for
`fill(0)` and `fill(-1)`) and all are `v` when `v >= 0` (as for `fill(2)`). -/
theorem fill_relu {F : Type} [LinearOrder F] [Zero F] (t : Tensor F) (v : F)
    (hdev : t.device = Device.CPU) :
    ∃ t1 t2, t.fill v = .done t1 ∧ t1.ReLU = .done t2 ∧
      t2 = { t with cpuData := List.replicate t.cpuData.length (max v 0) } ∧
      (∀ x ∈ t2.cpuData, x = max v 0) ∧ t2.cpuData.length = t.cpuData.length ∧
      (v ≤ 0 → ∀ x ∈ t2.cpuData, x = 0) ∧ (0 ≤ v → ∀ x ∈ t2.cpuData, x = v) := by
  have h1 : t.fill v = .done (t.fillCpu v) := by
    rw [Tensor.fill, Tensor.dispatch, if_pos hdev]
  have h2 : (t.fillCpu v).ReLU
      = .done { t with cpuData := List.replicate t.cpuData.length (max v 0) } := by
    have hd : (t.fillCpu v).device = Device.CPU := hdev
    rw [Tensor.ReLU, Tensor.dispatch, if_pos hd, Tensor.ReLUCpu, unaryKernel_eq]
    simp [Tensor.fillCpu]
  refine ⟨_, _, h1, h2, rfl, ?_, by simp, ?_, ?_⟩
  · intro x hx
    exact List.eq_of_mem_replicate hx
  · intro hv x hx
    rw [List.eq_of_mem_replicate hx, max_eq_right hv]
  · intro hv x hx
    rw [List.eq_of_mem_replicate hx, max_eq_left hv]

/-- C18 on the `2 x 3` sample with the values `0`, `-1` and `2`. -/
theorem fill_relu_witness :
    sample23.device = Device.CPU ∧
    (∃ t1 t2, sample23.fill 0 = .done t1 ∧ t1.ReLU = .done t2 ∧
      t2 = { sample23 with cpuData := List.replicate sample23.cpuData.length (max 0 0) } ∧
      (∀ x ∈ t2.cpuData, x = max 0 0) ∧ t2.cpuData.length = sample23.cpuData.length ∧
      ((0 : Int) ≤ 0 → ∀ x ∈ t2.cpuData, x = 0) ∧ ((0 : Int) ≤ 0 → ∀ x ∈ t2.cpuData, x = 0)) ∧
    (∃ t1 t2, sample23.fill (-1) = .done t1 ∧ t1.ReLU = .done t2 ∧
      t2 = { sample23 with cpuData := List.replicate sample23.cpuData.length (max (-1) 0) } ∧
      (∀ x ∈ t2.cpuData, x = max (-1) 0) ∧ t2.cpuData.length = sample23.cpuData.length ∧
      ((-1 : Int) ≤ 0 → ∀ x ∈ t2.cpuData, x = 0) ∧
      ((0 : Int) ≤ -1 → ∀ x ∈ t2.cpuData, x = -1)) ∧
    (∃ t1 t2, sample23.fill 2 = .done t1 ∧ t1.ReLU = .done t2 ∧
      t2 = { sample23 with cpuData := List.replicate sample23.cpuData.length (max 2 0) } ∧
      (∀ x ∈ t2.cpuData, x = max 2 0) ∧ t2.cpuData.length = sample23.cpuData.length ∧
      ((2 : Int) ≤ 0 → ∀ x ∈ t2.cpuData, x = 0) ∧ ((0 : Int) ≤ 2 → ∀ x ∈ t2.cpuData, x = 2)) :=
  ⟨rfl, fill_relu sample23 0 rfl, fill_relu sample23 (-1) rfl, fill_relu sample23 2 rfl⟩

/-! ## The size invariants along sequences of operations -/

theorem vecSet_length {α : Type} (v v1 : List α) (i : Nat) (x : α)
    (h : vecSet v i x = .ok v1) : v1.length = v.length := by
  rw [vecSet] at h
  split at h
  · cases h; simp
  · cases h

theorem vecSetInt_length {α : Type} (v v1 : List α) (i : Int) (x : α)
    (h : vecSetInt v i x = .ok v1) : v1.length = v.length := by
  rw [vecSetInt] at h
  split at h
  · exact vecSet_length v v1 _ x h
  · cases h

theorem SameSizes.sizeInvariant {F : Type} {t t1 : Tensor F} (h : SameSizes t t1)
    (hi : t.SizeInvariant) : t1.SizeInvariant := by
  obtain ⟨h1, h2, h3, h4⟩ := h
  rw [Tensor.SizeInvariant, h1, h2, h3, h4]
  exact hi

theorem sameSizes_of_data {F : Type} (t : Tensor F) (d : List F)
    (h : d.length = t.cpuData.length) : SameSizes t { t with cpuData := d } :=
  ⟨rfl, rfl, rfl, h⟩

theorem unaryKernel_sameSizes {F : Type} (f : F → F) (t t1 : Tensor F)
    (h : t.unaryKernel f = .done t1) : SameSizes t t1 := by
  rw [unaryKernel_eq] at h
  cases h
  exact sameSizes_of_data t _ (by simp)

theorem binaryKernel_sameSizes {F : Type} (op : F → F → F) (t other t1 : Tensor F)
    (h : t.binaryKernel op other = .done t1) : SameSizes t t1 := by
  rw [Tensor.binaryKernel] at h
  split at h
  · rename_i d hd
    cases h
    apply sameSizes_of_data
    refine forLoop_preserves _ (fun d => d.length = t.cpuData.length) ?_ _ _ _ _ rfl hd
    intro j s1 s2 hP hb
    rw [binaryStep] at hb
    split at hb
    · split at hb
      · rw [vecSet_length _ _ _ _ hb]; exact hP
      · cases hb
    · cases hb
  · cases h

theorem biasCellStep_length {F : Type} (op : F → F → F) (strides : List Int) (b : F)
    (n c h w : Nat) (s1 s2 : List F) (hb : biasCellStep op strides b n c h w s1 = .ok s2) :
    s2.length = s1.length := by
  rw [biasCellStep] at hb
  split at hb
  · split at hb
    · exact vecSetInt_length _ _ _ _ hb
    · cases hb
  · cases hb

theorem biasKernel_sameSizes {F : Type} (op : F → F → F) (t bias t1 : Tensor F)
    (h : t.biasKernel op bias = .done t1) : SameSizes t t1 := by
  rw [Tensor.biasKernel] at h
  split at h
  · rename_i d hd
    cases h
    apply sameSizes_of_data
    refine forLoop_preserves _ (fun d => d.length = t.cpuData.length) ?_ _ _ _ _ rfl hd
    intro n s1 s2 hP hb
    refine forLoop_preserves _ (fun d => d.length = t.cpuData.length) ?_ _ _ _ _ hP hb
    intro c s3 s4 hP3 hb3
    rw [biasChannelStep] at hb3
    split at hb3
    · refine forLoop_preserves _ (fun d => d.length = t.cpuData.length) ?_ _ _ _ _ hP3 hb3
      intro hh s5 s6 hP5 hb5
      refine forLoop_preserves _ (fun d => d.length = t.cpuData.length) ?_ _ _ _ _ hP5 hb5
      intro w s7 s8 hP7 hb7
      rw [biasCellStep_length _ _ _ _ _ _ _ _ _ hb7]; exact hP7
    · cases hb3
  · cases h

theorem dispatch_sameSizes {F : Type} (kernel : Tensor F → Res F) (t t1 : Tensor F)
    (hk : ∀ s1, kernel t = .done s1 → SameSizes t s1) (h : t.dispatch kernel = .done t1) :
    SameSizes t t1 := by
  rw [Tensor.dispatch] at h
  split at h
  · exact hk t1 h
  · cases h; exact ⟨rfl, rfl, rfl, rfl⟩

theorem guarded_sameSizes {F : Type} (p : Prop) [Decidable p] (r : Res F) (t t1 : Tensor F)
    (hk : r = .done t1 → SameSizes t t1)
    (h : (if p then r else .failed .shapeMismatch t) = .done t1) : SameSizes t t1 := by
  split at h
  · exact hk h
  · cases h

theorem edit_sameSizes {F : Type} (t t1 : Tensor F) (index : List Int) (val : F)
    (h : t.edit index val = .done t1) : SameSizes t t1 := by
  rw [Tensor.edit] at h
  split at h
  · split at h
    · rename_i d hd
      cases h
      exact sameSizes_of_data t _ (vecSetInt_length _ _ _ _ hd)
    · cases h
  · cases h
theorem gatherStep_length {F : Type} (shape strides : List Int) (cpuData : List F) (i : Nat)
    (s1 s2 : List Int × List F) (hb : gatherStep shape strides cpuData i s1 = .ok s2) :
    s2.2.length = s1.2.length := by
  rw [gatherStep] at hb
  split at hb
  · split at hb
    · split at hb
      · rename_i nd hnd
        cases hb
        exact vecSet_length _ _ _ _ hnd
      · cases hb
    · cases hb
  · cases hb

theorem makeContiguous_sizeInvariant {F : Type} [Zero F] (t t1 : Tensor F)
    (hi : t.SizeInvariant) (h : t.makeContiguous = .done t1) : t1.SizeInvariant := by
  rw [Tensor.makeContiguous] at h
  split at h
  · cases h; exact hi
  · split at h
    · rw [Tensor.makeContiguousCpu] at h
      split at h
      · cases h; exact hi
      · split at h
        · cases h
        · rename_i hneg
          split at h
          · rename_i st hst
            cases h
            have hlen : st.2.length = t.totalSize.toNat := by
              have := forLoop_preserves (gatherStep t.shape t.strides t.cpuData)
                (fun s => s.2.length = t.totalSize.toNat)
                (fun j s1 s2 hP hb => (gatherStep_length _ _ _ _ _ _ hb).trans hP)
                _ _ _ _ (by simp) hst
              exact this
            rw [computeStrides_eq]
            refine ⟨by simp [canonicalStrides_length], hi.2.1, ?_⟩
            show ((st.2.length : Nat) : Int) = t.totalSize
            rw [hlen]
            exact Int.toNat_of_nonneg (by omega)
          · cases h
    · cases h; exact hi

theorem ensureStep_sizeInvariant {F : Type} [Zero F] (t t1 : Tensor F)
    (hi : t.SizeInvariant)
    (h : (if !t.contiguous then t.makeContiguous else Res.done t) = .done t1) :
    t1.SizeInvariant := by
  split at h
  · exact makeContiguous_sizeInvariant t t1 hi h
  · cases h; exact hi

theorem reshape_sizeInvariant {F : Type} [Zero F] (t t1 : Tensor F) (newShape : List Int)
    (hi : t.SizeInvariant) (h : t.reshape newShape = .done t1) : t1.SizeInvariant := by
  rw [Tensor.reshape] at h
  split at h
  · cases h
  · rename_i t2 h2
    have hi2 := ensureStep_sizeInvariant t t2 hi h2
    simp only at h
    split at h
    · rename_i heq
      cases h
      rw [computeStrides_eq]
      exact ⟨by simp [canonicalStrides_length], heq, hi2.2.2⟩
    · cases h

theorem flatten_sizeInvariant {F : Type} [Zero F] (t t1 : Tensor F)
    (hi : t.SizeInvariant) (h : t.flatten = .done t1) : t1.SizeInvariant := by
  rw [Tensor.flatten] at h
  split at h
  · cases h
  · rename_i t2 h2
    have hi2 := ensureStep_sizeInvariant t t2 hi h2
    have hfit : FitsInt t2.totalSize := by rw [hi2.2.1]; exact accumulateMul_fits _
    cases h
    exact ⟨rfl, (accumulateMul_singleton _ hfit).symm, hi2.2.2⟩

theorem transpose_sizeInvariant {F : Type} (t t1 : Tensor F) (order : List Int)
    (hi : t.SizeInvariant) (h : t.transpose order = .done t1) : t1.SizeInvariant := by
  have hs : t.strides.length = t.shape.length := hi.1.symm
  have hp : IsPermutation order t.shape.length := by
    by_contra hp
    rw [transpose_failed t order hs hp] at h
    cases h
  rw [transpose_done t order hs hp] at h
  cases h
  refine ⟨by simp [permuteBy_length], ?_, hi.2.2⟩
  show t.totalSize = accumulateMul (permuteBy t.shape order)
  have hpe : (permuteBy t.shape order).prod = t.shape.prod :=
    (map_getD_perm t.shape 0 hp).prod_eq
  rw [accumulateMul_eq_wrapInt, hpe, ← accumulateMul_eq_wrapInt]
  exact hi.2.1

theorem create_sizeInvariant {F : Type} [Zero F] (shape : List Int) (dev : Device)
    (t : Tensor F) (h : Tensor.create shape dev = .ok t) : t.SizeInvariant := by
  rw [Tensor.create] at h
  split at h
  · rename_i hnn
    cases h
    rw [computeStrides_eq]
    refine ⟨by simp [canonicalStrides_length], rfl, ?_⟩
    simp only [List.length_replicate]
    exact Int.toNat_of_nonneg hnn
  · cases h

theorem broadcastStep_length {F : Type} (shape newShape mult : List Int) (cpuData : List F)
    (i : Nat) (s1 s2 : List Int × List F)
    (hb : broadcastStep shape newShape mult cpuData i s1 = .ok s2) :
    s2.2.length = s1.2.length := by
  rw [broadcastStep] at hb
  split at hb
  · split at hb
    · split at hb
      · rename_i rd hrd
        cases hb
        exact vecSet_length _ _ _ _ hrd
      · cases hb
    · cases hb
  · cases hb

/-- Both tensors produced by a successful `broadcast` satisfy the size invariants. -/
theorem broadcast_sizeInvariant {F : Type} [Zero F] (t src result : Tensor F)
    (newShape : List Int) (hi : t.SizeInvariant)
    (h : t.broadcast newShape = .done src result) :
    src.SizeInvariant ∧ result.SizeInvariant := by
  rw [Tensor.broadcast] at h
  split at h
  · split at h
    · cases h
    · split at h
      · cases h
      · rename_i t2 h2
        have hi2 := ensureStep_sizeInvariant t t2 hi h2
        split at h
        · cases h
        · rename_i res hres
          have hir := create_sizeInvariant newShape t2.device res hres
          split at h
          · rename_i st hst
            cases h
            refine ⟨hi2, hir.1, hir.2.1, ?_⟩
            have hlen : st.2.length = res.cpuData.length :=
              forLoop_preserves _
                (fun s => s.2.length = res.cpuData.length)
                (fun j s1 s2 hP hb => (broadcastStep_length _ _ _ _ _ _ _ hb).trans hP)
                _ _ _ _ rfl hst
            show ((st.2.length : Nat) : Int) = res.totalSize
            rw [hlen]
            exact hir.2.2
          · cases h
  · cases h

/-- Every successful operation keeps the size invariants. -/
theorem Op.run_sizeInvariant {F : Type} [FloatOps F] (op : Op F) (t t1 : Tensor F)
    (hi : t.SizeInvariant) (h : op.run t = .done t1) : t1.SizeInvariant := by
  cases op with
  | reshape newShape => exact reshape_sizeInvariant t t1 newShape hi h
  | flatten => exact flatten_sizeInvariant t t1 hi h
  | transpose order => exact transpose_sizeInvariant t t1 order hi h
  | makeContiguous => exact makeContiguous_sizeInvariant t t1 hi h
  | edit index val => exact (edit_sameSizes t t1 index val h).sizeInvariant hi
  | broadcastSource newShape =>
    rw [Op.run] at h
    split at h
    · rename_i src res hb
      cases h
      exact (broadcast_sizeInvariant t _ res newShape hi hb).1
    · cases h
  | fill val =>
    have h1 : t.dispatch (fun s => .done (s.fillCpu val)) = .done t1 := h
    refine (dispatch_sameSizes _ t t1 ?_ h1).sizeInvariant hi
    intro s1 hs1
    cases hs1
    exact sameSizes_of_data t _ (by simp)
  | addTensor other =>
    exact (guarded_sameSizes _ _ t t1 (fun h1 => dispatch_sameSizes _ t t1
      (fun s1 hs1 => binaryKernel_sameSizes _ t other s1 hs1) h1) h).sizeInvariant hi
  | addScalar val =>
    exact (dispatch_sameSizes _ t t1
      (fun s1 hs1 => unaryKernel_sameSizes _ t s1 hs1) h).sizeInvariant hi
  | addBias bias =>
    exact (guarded_sameSizes _ _ t t1 (fun h1 => dispatch_sameSizes _ t t1
      (fun s1 hs1 => biasKernel_sameSizes _ t bias s1 hs1) h1) h).sizeInvariant hi
  | subtractTensor other =>
    exact (guarded_sameSizes _ _ t t1 (fun h1 => dispatch_sameSizes _ t t1
      (fun s1 hs1 => binaryKernel_sameSizes _ t other s1 hs1) h1) h).sizeInvariant hi
  | subtractScalar val =>
    exact (dispatch_sameSizes _ t t1
      (fun s1 hs1 => unaryKernel_sameSizes _ t s1 hs1) h).sizeInvariant hi
  | multiplyTensor other =>
    exact (guarded_sameSizes _ _ t t1 (fun h1 => dispatch_sameSizes _ t t1
      (fun s1 hs1 => binaryKernel_sameSizes _ t other s1 hs1) h1) h).sizeInvariant hi
  | multiplyScalar val =>
    exact (dispatch_sameSizes _ t t1
      (fun s1 hs1 => unaryKernel_sameSizes _ t s1 hs1) h).sizeInvariant hi
  | multiplyBias bias =>
    exact (guarded_sameSizes _ _ t t1 (fun h1 => dispatch_sameSizes _ t t1
      (fun s1 hs1 => biasKernel_sameSizes _ t bias s1 hs1) h1) h).sizeInvariant hi
  | divideTensor other =>
    exact (guarded_sameSizes _ _ t t1 (fun h1 => dispatch_sameSizes _ t t1
      (fun s1 hs1 => binaryKernel_sameSizes _ t other s1 hs1) h1) h).sizeInvariant hi
  | divideScalar val =>
    exact (dispatch_sameSizes _ t t1
      (fun s1 hs1 => unaryKernel_sameSizes _ t s1 hs1) h).sizeInvariant hi
  | negate =>
    exact (dispatch_sameSizes _ t t1
      (fun s1 hs1 => unaryKernel_sameSizes _ t s1 hs1) h).sizeInvariant hi
  | ReLU =>
    exact (dispatch_sameSizes _ t t1
      (fun s1 hs1 => unaryKernel_sameSizes _ t s1 hs1) h).sizeInvariant hi
  | sigmoid =>
    exact (dispatch_sameSizes _ t t1
      (fun s1 hs1 => unaryKernel_sameSizes _ t s1 hs1) h).sizeInvariant hi
  | tanh =>
    exact (dispatch_sameSizes _ t t1
      (fun s1 hs1 => unaryKernel_sameSizes _ t s1 hs1) h).sizeInvariant hi
  | LReLU alpha =>
    exact (dispatch_sameSizes _ t t1
      (fun s1 hs1 => unaryKernel_sameSizes _ t s1 hs1) h).sizeInvariant hi
  | ELU alpha =>
    exact (dispatch_sameSizes _ t t1
      (fun s1 hs1 => unaryKernel_sameSizes _ t s1 hs1) h).sizeInvariant hi
  | square =>
    exact (dispatch_sameSizes _ t t1
      (fun s1 hs1 => unaryKernel_sameSizes _ t s1 hs1) h).sizeInvariant hi
  | sqrt =>
    exact (dispatch_sameSizes _ t t1
      (fun s1 hs1 => unaryKernel_sameSizes _ t s1 hs1) h).sizeInvariant hi
  | exp =>
    exact (dispatch_sameSizes _ t t1
      (fun s1 hs1 => unaryKernel_sameSizes _ t s1 hs1) h).sizeInvariant hi
  | log =>
    exact (dispatch_sameSizes _ t t1
      (fun s1 hs1 => unaryKernel_sameSizes _ t s1 hs1) h).sizeInvariant hi
  | zeroGrad =>
    have h1 : t.dispatch (fun s => .done s.zeroGradCpu) = .done t1 := h
    refine (dispatch_sameSizes _ t t1 ?_ h1).sizeInvariant hi
    intro s1 hs1
    cases hs1
    exact ⟨rfl, rfl, rfl, rfl⟩

/-- C19.  For every tensor built by the shape constructor and then modified by any sequence
of successful `reshape`, `flatten`, `transpose`, `makeContiguous`, `edit` and elementwise
operations, and for every tensor returned by `broadcast` on such a tensor, the invariants
`len(shape) == len(strides)`, `totalSize == product(shape)` and `len(values) == totalSize`
hold.  The product is the one the program computes, in `int` arithmetic
(`std::accumulate` over the shape); it is the mathematical product whenever that fits in
`int`. -/
theorem reachable_sizeInvariant {F : Type} [FloatOps F] (t : Tensor F) (h : Reachable t) :
    t.shape.length = t.strides.length ∧ t.totalSize = accumulateMul t.shape ∧
    (FitsInt t.shape.prod → t.totalSize = t.shape.prod) ∧
    (t.cpuData.length : Int) = t.totalSize := by
  have key : t.SizeInvariant := by
    induction h with
    | create shape dev t _ hc => exact create_sizeInvariant shape dev t hc
    | step t t1 op _ _ hrun ih => exact Op.run_sizeInvariant op t t1 ih hrun
    | broadcast t src result newShape _ _ hb ih =>
      exact (broadcast_sizeInvariant t src result newShape ih hb).2
  obtain ⟨h1, h2, h3⟩ := key
  exact ⟨h1, h2, fun hfit => by rw [h2, accumulateMul_eq_prod _ hfit], h3⟩

/-- C19 on the tensor reached by the constructor, `fill(7)`, `transpose([1, 0])`,
`addScalar(1)` and `reshape([6])`. -/
theorem reachable_sizeInvariant_witness :
    Reachable sampleFill8Flat ∧
    (sampleFill8Flat.shape.length = sampleFill8Flat.strides.length ∧
     sampleFill8Flat.totalSize = accumulateMul sampleFill8Flat.shape ∧
     (FitsInt sampleFill8Flat.shape.prod →
       sampleFill8Flat.totalSize = sampleFill8Flat.shape.prod) ∧
     (sampleFill8Flat.cpuData.length : Int) = sampleFill8Flat.totalSize) :=
  have hr : Reachable sampleFill8Flat :=
    ReachableVia.step sampleFill8T sampleFill8Flat (Op.reshape [6])
      (ReachableVia.step sampleFill7T sampleFill8T (Op.addScalar 1)
        (ReachableVia.step sampleFill7 sampleFill7T (Op.transpose [1, 0])
          (ReachableVia.step sampleNew23 sampleFill7 (Op.fill 7)
            (ReachableVia.create [2, 3] Device.CPU sampleNew23 trivial rfl)
            trivial (by decide))
          trivial (by decide))
        trivial (by decide))
      trivial (by decide)
  ⟨hr, reachable_sizeInvariant sampleFill8Flat hr⟩

/-! ## Loops as runs over lists -/

theorem forLoop_eq_runList {σ : Type} (body : Nat → σ → Except TensorError σ) :
    ∀ (n i : Nat) (s : σ), forLoop body i n s = runList body (List.range' i n) s := by
  intro n
  induction n with
  | zero => intro i s; rfl
  | succ n ih =>
    intro i s
    rw [forLoop, List.range'_succ, runList]
    cases body i s with
    | ok s1 => exact ih (i + 1) s1
    | error e => rfl

theorem forLoop_zero_eq_runList {σ : Type} (body : Nat → σ → Except TensorError σ) (n : Nat)
    (s : σ) : forLoop body 0 n s = runList body (List.range n) s := by
  rw [forLoop_eq_runList, List.range_eq_range']

theorem runList_append {α σ : Type} (step : α → σ → Except TensorError σ) :
    ∀ (l1 l2 : List α) (s : σ),
      runList step (l1 ++ l2) s
        = match runList step l1 s with
          | .ok s1 => runList step l2 s1
          | .error e => .error e := by
  intro l1
  induction l1 with
  | nil => intro l2 s; rfl
  | cons a l ih =>
    intro l2 s
    rw [List.cons_append, runList, runList]
    cases step a s with
    | ok s1 => exact ih l2 s1
    | error e => rfl

theorem runList_flatMap {α β σ : Type} (step : β → σ → Except TensorError σ)
    (g : α → List β) :
    ∀ (l : List α) (s : σ),
      runList step (l.flatMap g) s = runList (fun a s1 => runList step (g a) s1) l s := by
  intro l
  induction l with
  | nil => intro s; rfl
  | cons a l ih =>
    intro s
    rw [List.flatMap_cons, runList_append, runList]
    cases runList step (g a) s with
    | ok s1 => exact ih s1
    | error e => rfl

theorem runList_map {α β σ : Type} (step : β → σ → Except TensorError σ) (f : α → β) :
    ∀ (l : List α) (s : σ),
      runList step (l.map f) s = runList (fun a s1 => step (f a) s1) l s := by
  intro l
  induction l with
  | nil => intro s; rfl
  | cons a l ih =>
    intro s
    rw [List.map_cons, runList, runList]
    cases step (f a) s with
    | ok s1 => exact ih s1
    | error e => rfl

theorem runList_congr {α σ : Type} (step1 step2 : α → σ → Except TensorError σ) :
    ∀ (l : List α) (s : σ), (∀ a ∈ l, ∀ s1, step1 a s1 = step2 a s1) →
      runList step1 l s = runList step2 l s := by
  intro l
  induction l with
  | nil => intro s _; rfl
  | cons a l ih =>
    intro s h
    rw [runList, runList, h a (List.mem_cons_self _ _) s]
    cases step2 a s with
    | ok s1 => exact ih s1 (fun b hb s2 => h b (List.mem_cons_of_mem _ hb) s2)
    | error e => rfl

theorem runList_singleton {α σ : Type} (step : α → σ → Except TensorError σ) (a : α) (s : σ) :
    runList step [a] s = step a s := by
  rw [runList]
  cases step a s with
  | ok s1 => rfl
  | error e => rfl

/-- A run over the row-major enumeration of `d :: ds` is a loop over the first component
around a run over the enumeration of `ds`. -/
theorem runList_rowMajor_cons {σ : Type} (step : List Int → σ → Except TensorError σ)
    (d : Int) (ds : List Int) (s : σ) :
    runList step (rowMajor (d :: ds)) s
      = forLoop (fun i s1 => runList (fun r s2 => step ((i : Int) :: r) s2) (rowMajor ds) s1)
          0 d.toNat s := by
  rw [rowMajor, runList_flatMap, forLoop_zero_eq_runList]
  apply runList_congr
  intro i _ s1
  rw [runList_map]

theorem runList_rowMajor_nil {σ : Type} (step : List Int → σ → Except TensorError σ) (s : σ) :
    runList step (rowMajor []) s = step [] s := by
  rw [rowMajor, runList_singleton]

theorem forLoop_congr {σ : Type} (body1 body2 : Nat → σ → Except TensorError σ) :
    ∀ (n i : Nat) (s : σ), (∀ j, i ≤ j → j < i + n → ∀ s1, body1 j s1 = body2 j s1) →
      forLoop body1 i n s = forLoop body2 i n s := by
  intro n
  induction n with
  | zero => intro i s _; rfl
  | succ n ih =>
    intro i s h
    rw [forLoop, forLoop, h i (Nat.le_refl _) (by omega) s]
    cases body2 i s with
    | ok s1 => exact ih (i + 1) s1 (fun j h1 h2 s2 => h j (by omega) (by omega) s2)
    | error e => rfl

/-- The four nested loops of a bias kernel are a run of `biasCellOf` over the row-major
enumeration of the shape. -/
theorem biasLoop_eq_runList {F : Type} [Zero F] (op : F → F → F) (biasData data : List F)
    (N C H W s0 s1 s2 s3 : Int) (hb : C.toNat ≤ biasData.length) :
    forLoop (fun n d =>
        forLoop (biasChannelStep op [s0, s1, s2, s3] biasData H W n) 0 C.toNat d)
        0 N.toNat data
      = runList (biasCellOf op [s0, s1, s2, s3] biasData) (rowMajor [N, C, H, W]) data := by
  rw [runList_rowMajor_cons]
  apply forLoop_congr
  intro n _ _ d1
  rw [runList_rowMajor_cons]
  apply forLoop_congr
  intro c _ hc d2
  have hcl : c < biasData.length := by omega
  rw [biasChannelStep, vecGet_of_lt biasData c hcl, runList_rowMajor_cons]
  apply forLoop_congr
  intro h _ _ d3
  rw [runList_rowMajor_cons]
  apply forLoop_congr
  intro w _ _ d4
  rw [runList_rowMajor_nil, biasCellStep, biasCellOf]
  have hdot : dot [(n : Int), (c : Int), (h : Int), (w : Int)] [s0, s1, s2, s3]
      = (n : Int) * s0 + (c : Int) * s1 + (h : Int) * s2 + (w : Int) * s3 := by
    simp only [dot, List.zipWith_cons_cons, List.zipWith_nil_left, List.sum_cons,
      List.sum_nil]
    ring
  have hb : biasData.getD (([(n : Int), (c : Int), (h : Int), (w : Int)]).getD 1 0).toNat 0
      = biasData[c] := by
    simp only [List.getD_cons_succ, List.getD_cons_zero, Int.toNat_ofNat]
    exact getD_of_lt biasData c 0 hcl
  rw [hdot, hb]
  rfl
/-! ## Distinct valid multi-indices address distinct cells -/

theorem quad_map_left : ∀ (i j shape strides : List Int),
    i.length = shape.length → j.length = shape.length → strides.length = shape.length →
    ((i.zip j).zip (shape.zip strides)).map (fun x => (x.1.1, x.2))
      = i.zip (shape.zip strides) ∧
    ((i.zip j).zip (shape.zip strides)).map (fun x => (x.1.2, x.2))
      = j.zip (shape.zip strides) ∧
    ((i.zip j).zip (shape.zip strides)).map Prod.snd = shape.zip strides ∧
    ((i.zip j).zip (shape.zip strides)).map Prod.fst = i.zip j := by
  intro i
  induction i with
  | nil =>
    intro j shape strides h1 h2 h3
    have hs : shape = [] := List.length_eq_zero.mp h1.symm
    subst hs
    have hj : j = [] := List.length_eq_zero.mp h2
    subst hj
    simp
  | cons a as ih =>
    intro j shape strides h1 h2 h3
    cases shape with
    | nil => simp at h1
    | cons d ds =>
      cases j with
      | nil => simp at h2
      | cons b bs =>
        cases strides with
        | nil => simp at h3
        | cons s ss =>
          simp only [List.length_cons, Nat.add_right_cancel_iff] at h1 h2 h3
          obtain ⟨e1, e2, e3, e4⟩ := ih bs ds ss h1 h2 h3
          simp only [List.zip_cons_cons, List.map_cons, e1, e2, e3, e4, and_self]

theorem eq_of_zip_diag : ∀ (i j : List Int), i.length = j.length →
    (∀ p ∈ i.zip j, p.1 = p.2) → i = j := by
  intro i
  induction i with
  | nil =>
    intro j h _
    exact (List.length_eq_zero.mp h.symm).symm
  | cons a as ih =>
    intro j h hp
    cases j with
    | nil => simp at h
    | cons b bs =>
      simp only [List.length_cons, Nat.add_right_cancel_iff] at h
      have h1 : a = b := hp (a, b) (by simp)
      have h2 := ih bs h (fun p hp1 => hp p (by
        rw [List.zip_cons_cons]; exact List.mem_cons_of_mem _ hp1))
      rw [h1, h2]

/-- In a canonical layout two valid multi-indices with the same offset agree in every
component. -/
theorem canonical_quads_inj : ∀ (base : List Int) (Q : List ((Int × Int) × (Int × Int))),
    Q.map Prod.snd = base.zip (canonicalStrides base) →
    (∀ x ∈ Q, (0 ≤ x.1.1 ∧ x.1.1 < x.2.1) ∧ (0 ≤ x.1.2 ∧ x.1.2 < x.2.1)) →
    (Q.map (fun x => x.1.1 * x.2.2)).sum = (Q.map (fun x => x.1.2 * x.2.2)).sum →
    ∀ x ∈ Q, x.1.1 = x.1.2 := by
  intro base
  induction base with
  | nil =>
    intro Q hQ _ _ x hx
    have : Q = [] := by simpa [canonicalStrides] using hQ
    rw [this] at hx
    simp at hx
  | cons d ds ih =>
    intro Q hQ hv hsum
    rw [canonicalStrides, List.zip_cons_cons] at hQ
    obtain ⟨a, Q0, rfl, ha, hQ0⟩ := List.map_eq_cons_iff.mp hQ
    have hv0 : ∀ x ∈ Q0, (0 ≤ x.1.1 ∧ x.1.1 < x.2.1) ∧ (0 ≤ x.1.2 ∧ x.1.2 < x.2.1) :=
      fun x hx => hv x (List.mem_cons_of_mem _ hx)
    have hb1 := canonical_triples_bound ds (Q0.map (fun x => (x.1.1, x.2)))
      (by rw [List.map_map]; exact hQ0)
      (by
        intro y hy
        obtain ⟨x, hx, rfl⟩ := List.mem_map.mp hy
        exact (hv0 x hx).1)
    have hb2 := canonical_triples_bound ds (Q0.map (fun x => (x.1.2, x.2)))
      (by rw [List.map_map]; exact hQ0)
      (by
        intro y hy
        obtain ⟨x, hx, rfl⟩ := List.mem_map.mp hy
        exact (hv0 x hx).2)
    rw [List.map_map] at hb1 hb2
    have e1 : ((fun y : Int × Int × Int => y.1 * y.2.2) ∘ fun x : (Int × Int) × (Int × Int) =>
        (x.1.1, x.2)) = fun x => x.1.1 * x.2.2 := rfl
    have e2 : ((fun y : Int × Int × Int => y.1 * y.2.2) ∘ fun x : (Int × Int) × (Int × Int) =>
        (x.1.2, x.2)) = fun x => x.1.2 * x.2.2 := rfl
    rw [e1] at hb1
    rw [e2] at hb2
    have ha2 : a.2.2 = ds.prod := by rw [ha]
    simp only [List.map_cons, List.sum_cons, ha2] at hsum
    obtain ⟨h10, h11⟩ := hb1
    obtain ⟨h20, h21⟩ := hb2
    have hP : 0 < ds.prod := lt_of_le_of_lt h10 h11
    have hhead : a.1.1 = a.1.2 := by
      rcases lt_trichotomy a.1.1 a.1.2 with hlt | heq | hgt
      · exfalso
        have : (a.1.1 + 1) * ds.prod ≤ a.1.2 * ds.prod :=
          mul_le_mul_of_nonneg_right (by omega) (le_of_lt hP)
        have h3 : (a.1.1 + 1) * ds.prod = a.1.1 * ds.prod + ds.prod := by ring
        omega
      · exact heq
      · exfalso
        have : (a.1.2 + 1) * ds.prod ≤ a.1.1 * ds.prod :=
          mul_le_mul_of_nonneg_right (by omega) (le_of_lt hP)
        have h3 : (a.1.2 + 1) * ds.prod = a.1.2 * ds.prod + ds.prod := by ring
        omega
    intro x hx
    rcases List.mem_cons.mp hx with rfl | hx
    · exact hhead
    · refine ih Q0 hQ0 hv0 ?_ x hx
      rw [hhead] at hsum
      omega

/-- In a well-formed tensor two valid multi-indices with the same linear offset are
equal. -/
theorem Tensor.WellFormed.offset_injective {F : Type} {t : Tensor F} (hw : t.WellFormed)
    {i j : List Int} (hi : ValidIndex t.shape i) (hj : ValidIndex t.shape j)
    (h : dot i t.strides = dot j t.strides) : i = j := by
  obtain ⟨hs, _, _, _, ⟨base, hperm⟩, _⟩ := hw
  have hil := hi.length_eq
  have hjl := hj.length_eq
  obtain ⟨m1, m2, m3, m4⟩ := quad_map_left i j t.shape t.strides hil hjl hs
  obtain ⟨Q1, hp1, hm1⟩ := exists_perm_map Prod.snd hperm _ m3
  have hvalid : ∀ x ∈ (i.zip j).zip (t.shape.zip t.strides),
      (0 ≤ x.1.1 ∧ x.1.1 < x.2.1) ∧ (0 ≤ x.1.2 ∧ x.1.2 < x.2.1) := by
    intro x hx
    constructor
    · have := valid_zip hi t.strides (x.1.1, x.2)
        (by rw [← m1]; exact List.mem_map.mpr ⟨x, hx, rfl⟩)
      exact this
    · have := valid_zip hj t.strides (x.1.2, x.2)
        (by rw [← m2]; exact List.mem_map.mpr ⟨x, hx, rfl⟩)
      exact this
  have hsumI : (((i.zip j).zip (t.shape.zip t.strides)).map (fun x => x.1.1 * x.2.2)).sum
      = dot i t.strides := by
    rw [dot_eq_sum_zip i t.shape t.strides hil hs, ← m1, List.map_map]
    rfl
  have hsumJ : (((i.zip j).zip (t.shape.zip t.strides)).map (fun x => x.1.2 * x.2.2)).sum
      = dot j t.strides := by
    rw [dot_eq_sum_zip j t.shape t.strides hjl hs, ← m2, List.map_map]
    rfl
  have hdiag := canonical_quads_inj base Q1 hm1 (fun x hx => hvalid x (hp1.subset hx))
    (by rw [(hp1.map _).sum_eq, (hp1.map _).sum_eq, hsumI, hsumJ, h])
  apply eq_of_zip_diag i j (by rw [hil, hjl])
  intro p hp
  rw [← m4] at hp
  obtain ⟨x, hx, rfl⟩ := List.mem_map.mp hp
  exact hdiag x (hp1.symm.subset hx)

/-! ## The row-major enumeration lists every valid multi-index once -/

theorem mem_rowMajor_of_valid {shape index : List Int} (hnn : ∀ d ∈ shape, 0 ≤ d)
    (hv : ValidIndex shape index) : index ∈ rowMajor shape := by
  obtain ⟨h0, h1⟩ := dot_canonical_bounds hv
  rw [rowMajor_eq_map_unravel shape hnn, List.mem_map]
  exact ⟨(dot index (canonicalStrides shape)).toNat, List.mem_range.mpr (by omega),
    unravel_dot hv⟩

theorem valid_of_mem_rowMajor {shape index : List Int} (hnn : ∀ d ∈ shape, 0 ≤ d)
    (h : index ∈ rowMajor shape) : ValidIndex shape index := by
  rw [rowMajor_eq_map_unravel shape hnn, List.mem_map] at h
  obtain ⟨k, hk, rfl⟩ := h
  exact unravel_valid shape hnn k (List.mem_range.mp hk)

theorem rowMajor_nodup (shape : List Int) (hnn : ∀ d ∈ shape, 0 ≤ d) :
    (rowMajor shape).Nodup := by
  rw [rowMajor_eq_map_unravel shape hnn]
  apply List.Nodup.map_on _ (List.nodup_range _)
  intro x hx y hy hxy
  have h1 := dot_unravel shape hnn x (List.mem_range.mp hx)
  have h2 := dot_unravel shape hnn y (List.mem_range.mp hy)
  rw [hxy, h2] at h1
  exact_mod_cast h1.symm
/-! ## Bias kernels -/

theorem getD_set_eq {α : Type} (l : List α) (k : Nat) (x d : α) (h : k < l.length) :
    (l.set k x).getD k d = x := by
  rw [getD_of_lt _ _ _ (by simpa using h)]
  simp

theorem getD_set_ne {α : Type} (l : List α) (k j : Nat) (x d : α) (h : k ≠ j) :
    (l.set k x).getD j d = l.getD j d := by
  simp only [List.getD_eq_getElem?_getD, List.getElem?_set_ne h]

/-- A run of cell updates at pairwise distinct cells inside the buffer completes; every
listed cell is combined once with its own operand and every other cell is left as it
was. -/
theorem scatter_run {F : Type} [Zero F] (op : F → F → F) (strides : List Int)
    (biasData : List F) :
    ∀ (L : List (List Int)) (data : List F),
      (∀ index ∈ L, 0 ≤ dot index strides ∧ (dot index strides).toNat < data.length) →
      (L.map (fun index => (dot index strides).toNat)).Nodup →
      ∃ d1, runList (biasCellOf op strides biasData) L data = .ok d1 ∧
        d1.length = data.length ∧
        (∀ index ∈ L, d1.getD (dot index strides).toNat 0
          = op (data.getD (dot index strides).toNat 0)
              (biasData.getD (index.getD 1 0).toNat 0)) ∧
        (∀ k, (∀ index ∈ L, (dot index strides).toNat ≠ k) → d1.getD k 0 = data.getD k 0) := by
  intro L
  induction L with
  | nil =>
    intro data _ _
    exact ⟨data, rfl, rfl, fun _ h => absurd h (List.not_mem_nil _), fun _ _ => rfl⟩
  | cons a L ih =>
    intro data hb hnd
    obtain ⟨ha0, ha1⟩ := hb a (List.mem_cons_self _ _)
    rw [List.map_cons, List.nodup_cons] at hnd
    obtain ⟨hnot, hnd'⟩ := hnd
    have hstep : biasCellOf op strides biasData a data
        = .ok (data.set (dot a strides).toNat
            (op (data.getD (dot a strides).toNat 0) (biasData.getD (a.getD 1 0).toNat 0))) := by
      rw [biasCellOf, vecGetInt_of_bounds _ _ 0 ha0 ha1]
      simp only
      rw [vecSetInt_of_bounds _ _ _ ha0 ha1]
    obtain ⟨d1, hrun, hlen, hin, hout⟩ := ih
      (data.set (dot a strides).toNat
        (op (data.getD (dot a strides).toNat 0) (biasData.getD (a.getD 1 0).toNat 0)))
      (fun index hi => by
        have := hb index (List.mem_cons_of_mem _ hi)
        simpa using this)
      hnd'
    have hne : ∀ index ∈ L, (dot a strides).toNat ≠ (dot index strides).toNat := by
      intro index hi heq
      apply hnot
      rw [heq]
      exact List.mem_map.mpr ⟨index, hi, rfl⟩
    refine ⟨d1, by rw [runList, hstep]; exact hrun, by rw [hlen]; simp, ?_, ?_⟩
    · intro index hi
      rcases List.mem_cons.mp hi with rfl | hi
      · rw [hout _ (fun i2 h2 => (hne i2 h2).symm), getD_set_eq _ _ _ _ ha1]
      · rw [hin index hi, getD_set_ne _ _ _ _ _ (hne index hi)]
    · intro k hk
      rw [hout k (fun index hi => hk index (List.mem_cons_of_mem _ hi)),
        getD_set_ne _ _ _ _ _ (hk a (List.mem_cons_self _ _))]

theorem length_four {α : Type} (l : List α) (h : l.length = 4) :
    ∃ a b c d, l = [a, b, c, d] := by
  match l, h with
  | [a, b, c, d], _ => exact ⟨a, b, c, d, rfl⟩

/-- On a well-formed rank-4 tensor on the CPU and a well-formed bias vector whose length is
the number of channels, a bias kernel completes; it changes only the values buffer, and the
element at every valid multi-index is combined with the bias entry of its channel. -/
theorem biasKernel_elements {F : Type} [Zero F] (op : F → F → F) (t bias : Tensor F)
    (hw : t.WellFormed) (hwb : bias.WellFormed) (hr : t.shape.length = 4)
    (hb : bias.shape = [t.shape.getD 1 0]) :
    ∃ d1, t.biasKernel op bias = .done { t with cpuData := d1 } ∧
      d1.length = t.cpuData.length ∧
      ∀ index, ValidIndex t.shape index →
        ∃ v b, t.elemAt index = .ok v ∧ bias.elemAt [index.getD 1 0] = .ok b ∧
          ({ t with cpuData := d1 } : Tensor F).elemAt index = .ok (op v b) := by
  obtain ⟨hs, hnn, htot, hdata, hbase, hflag⟩ := id hw
  obtain ⟨N, C, H, W, hshape⟩ := length_four t.shape hr
  obtain ⟨s0, s1, s2, s3, hstr⟩ := length_four t.strides (by rw [hs, hr])
  have hC : t.shape.getD 1 0 = C := by rw [hshape]; rfl
  have hbl : bias.cpuData.length = C.toNat := by
    rw [hwb.2.2.2.1, hwb.2.2.1, hb, hC]; simp
  have hbstr : bias.strides = [1] := rank1_strides bias hwb _ hb
  -- the loop as a run over the enumeration
  have hloop := biasLoop_eq_runList op bias.cpuData t.cpuData N C H W s0 s1 s2 s3
    (by omega)
  rw [← hstr, ← hshape] at hloop
  -- the run as a scatter
  have hbounds : ∀ index ∈ rowMajor t.shape,
      0 ≤ dot index t.strides ∧ (dot index t.strides).toNat < t.cpuData.length := by
    intro index hi
    obtain ⟨h0, h1⟩ := hw.offset_bounds (valid_of_mem_rowMajor hnn hi)
    exact ⟨h0, by omega⟩
  have hnodup : ((rowMajor t.shape).map (fun index => (dot index t.strides).toNat)).Nodup := by
    apply List.Nodup.map_on _ (rowMajor_nodup t.shape hnn)
    intro x hx y hy hxy
    have hvx := valid_of_mem_rowMajor hnn hx
    have hvy := valid_of_mem_rowMajor hnn hy
    have h1 := (hw.offset_bounds hvx).1
    have h2 := (hw.offset_bounds hvy).1
    exact hw.offset_injective hvx hvy (by omega)
  obtain ⟨d1, hrun, hlen, hin, _⟩ :=
    scatter_run op t.strides bias.cpuData (rowMajor t.shape) t.cpuData hbounds hnodup
  have hw1 : ({ t with cpuData := d1 } : Tensor F).WellFormed :=
    ⟨hs, hnn, htot, by rw [← hdata]; exact hlen, hbase, hflag⟩
  refine ⟨d1, ?_, hlen, ?_⟩
  · have h4 : t.shape.getD 0 0 = N ∧ t.shape.getD 1 0 = C ∧ t.shape.getD 2 0 = H
        ∧ t.shape.getD 3 0 = W := by
      rw [hshape]; exact ⟨rfl, rfl, rfl, rfl⟩
    simp only [Tensor.biasKernel, h4.1, h4.2.1, h4.2.2.1, h4.2.2.2, hloop, hrun]
  · intro index hv
    have hmem := mem_rowMajor_of_valid hnn hv
    have hc : 0 ≤ index.getD 1 0 ∧ index.getD 1 0 < C := by
      have := validIndex_getD hv 1 (by omega)
      rw [hC] at this
      exact this
    have hvb : ValidIndex bias.shape [index.getD 1 0] := by
      rw [hb, hC]
      exact List.Forall₂.cons hc List.Forall₂.nil
    refine ⟨_, _, hw.elemAt_eq hv, hwb.elemAt_eq hvb, ?_⟩
    rw [hw1.elemAt_eq hv]
    show Except.ok (d1.getD (dot index t.strides).toNat 0) = _
    rw [hin index hmem, hbstr, dot_singleton_one]

/-- C17.  For a well-formed rank-4 CPU tensor of shape `[N, C, H, W]` and a well-formed
rank-1 bias tensor of length `C`, `addBias(bias)` completes and changes only the values
buffer; afterwards the element at `[n, c, h, w]` equals its value before the call plus
`bias[c]`, for every `n < N`, `c < C`, `h < H`, `w < W`.  The bias tensor is passed by
constant reference and is not part of the resulting state. -/
theorem addBias_elements {F : Type} [Zero F] [Add F] (t bias : Tensor F) (N C H W : Int)
    (hw : t.WellFormed) (hdev : t.device = Device.CPU) (hshape : t.shape = [N, C, H, W])
    (hwb : bias.WellFormed) (hbs : bias.shape = [C]) :
    ∃ t1, t.addBias bias = .done t1 ∧
      t1.shape = t.shape ∧ t1.strides = t.strides ∧ t1.totalSize = t.totalSize ∧
      t1.contiguous = t.contiguous ∧ t1.cpuData.length = t.cpuData.length ∧
      ∀ n c h w : Int, 0 ≤ n → n < N → 0 ≤ c → c < C → 0 ≤ h → h < H → 0 ≤ w → w < W →
        ∃ v b, t.elemAt [n, c, h, w] = .ok v ∧ bias.elemAt [c] = .ok b ∧
          t1.elemAt [n, c, h, w] = .ok (v + b) := by
  have hr : t.shape.length = 4 := by rw [hshape]; rfl
  have hC : t.shape.getD 1 0 = C := by rw [hshape]; rfl
  obtain ⟨d1, hrun, hlen, helem⟩ := biasKernel_elements (fun x b => x + b) t bias hw hwb hr
    (by rw [hC]; exact hbs)
  have hok : biasShapesOk t.shape bias.shape := by
    refine ⟨hr, by rw [hbs]; rfl, ?_⟩
    rw [hC, hbs]; rfl
  refine ⟨{ t with cpuData := d1 }, ?_, rfl, rfl, rfl, rfl, hlen, ?_⟩
  · rw [Tensor.addBias, if_pos hok, Tensor.dispatch, if_pos hdev]
    exact hrun
  · intro n c h w hn0 hn1 hc0 hc1 hh0 hh1 hw0 hw1
    have hv : ValidIndex t.shape [n, c, h, w] := by
      rw [hshape]
      exact List.Forall₂.cons ⟨hn0, hn1⟩ (List.Forall₂.cons ⟨hc0, hc1⟩
        (List.Forall₂.cons ⟨hh0, hh1⟩ (List.Forall₂.cons ⟨hw0, hw1⟩ List.Forall₂.nil)))
    exact helem [n, c, h, w] hv

/-- C17 on the shape `[2, 3, 4, 4]` with the bias `[1, 2, 3]`. -/
theorem addBias_elements_witness :
    sample2344.WellFormed ∧ sample2344.device = Device.CPU ∧
    sample2344.shape = [2, 3, 4, 4] ∧ sampleBias.WellFormed ∧ sampleBias.shape = [3] ∧
    ∃ t1, sample2344.addBias sampleBias = .done t1 ∧
      t1.shape = sample2344.shape ∧ t1.strides = sample2344.strides ∧
      t1.totalSize = sample2344.totalSize ∧ t1.contiguous = sample2344.contiguous ∧
      t1.cpuData.length = sample2344.cpuData.length ∧
      ∀ n c h w : Int, 0 ≤ n → n < 2 → 0 ≤ c → c < 3 → 0 ≤ h → h < 4 → 0 ≤ w → w < 4 →
        ∃ v b, sample2344.elemAt [n, c, h, w] = .ok v ∧ sampleBias.elemAt [c] = .ok b ∧
          t1.elemAt [n, c, h, w] = .ok (v + b) :=
  have h1 : sample2344.WellFormed :=
    ⟨by decide, by decide, by decide, by decide, ⟨[2, 3, 4, 4], List.Perm.refl _⟩,
      fun _ => rfl⟩
  have h2 : sampleBias.WellFormed :=
    ⟨by decide, by decide, by decide, by decide, ⟨[3], List.Perm.refl _⟩, fun _ => rfl⟩
  ⟨h1, rfl, rfl, h2, rfl, addBias_elements sample2344 sampleBias 2 3 4 4 h1 rfl rfl h2 rfl⟩

/-! ## Materialization twice -/

/-- The state left by a completed `makeContiguous` is left as it is by another call. -/
theorem makeContiguous_stable {F : Type} [Zero F] (t t1 : Tensor F)
    (h : t.makeContiguous = .done t1) : t1.makeContiguous = .done t1 := by
  rw [Tensor.makeContiguous] at h
  split at h
  · rename_i hc
    cases h
    rw [Tensor.makeContiguous, if_pos hc]
  · rename_i hc
    split at h
    · rw [Tensor.makeContiguousCpu, if_neg hc] at h
      split at h
      · cases h
      · split at h
        · cases h
          rw [Tensor.makeContiguous, if_pos (by rw [computeStrides_eq])]
        · cases h
    · rename_i hd
      cases h
      rw [Tensor.makeContiguous, if_neg hc, if_neg hd]

theorem makeContiguous_eq_ensured {F : Type} [Zero F] (t : Tensor F) (hw : t.WellFormed) :
    t.makeContiguous = .done t.ensured := by
  have h := ensure_step t hw
  by_cases hc : t.contiguous = true
  · rw [Tensor.makeContiguous, if_pos hc, Tensor.ensured, if_neg (by simp [hc])]
  · simpa [hc] using h

/-- C21.  `makeContiguous` leaves a tensor whose flag is set exactly as it is (shape,
strides, flag, values buffer and every other field), and for every tensor, on the CPU or
not, two calls in sequence end in the same outcome as one call.  On a well-formed tensor
the call completes, and the state it leaves is a fixed point of `makeContiguous`. -/
theorem makeContiguous_idempotent {F : Type} [Zero F] (t : Tensor F) :
    (t.contiguous = true → t.makeContiguous = .done t) ∧
    Res.andThen t.makeContiguous Tensor.makeContiguous = t.makeContiguous ∧
    (t.WellFormed → ∃ t1, t.makeContiguous = .done t1 ∧ t1.makeContiguous = .done t1) := by
  refine ⟨fun hc => by rw [Tensor.makeContiguous, if_pos hc], ?_, ?_⟩
  · cases h : t.makeContiguous with
    | done t1 => exact makeContiguous_stable t t1 h
    | failed e t1 => rfl
  · intro hw
    exact ⟨t.ensured, makeContiguous_eq_ensured t hw,
      makeContiguous_stable t _ (makeContiguous_eq_ensured t hw)⟩

/-! ## The flag and the canonical strides -/

theorem create_canonical {F : Type} [Zero F] (shape : List Int) (dev : Device)
    (t : Tensor F) (h : Tensor.create shape dev = .ok t) :
    t.strides = canonicalStrides t.shape := by
  rw [Tensor.create] at h
  split at h
  · cases h
    rw [computeStrides_eq]
  · cases h

theorem reshape_canonical {F : Type} [Zero F] (t t1 : Tensor F) (newShape : List Int)
    (h : t.reshape newShape = .done t1) :
    t1.shape = newShape ∧ t1.strides = canonicalStrides newShape := by
  rw [Tensor.reshape] at h
  split at h
  · cases h
  · simp only at h
    split at h
    · cases h
      rw [computeStrides_eq]
      exact ⟨rfl, rfl⟩
    · cases h

theorem flatten_canonical {F : Type} [Zero F] (t t1 : Tensor F)
    (h : t.flatten = .done t1) : t1.strides = canonicalStrides t1.shape := by
  rw [Tensor.flatten] at h
  split at h
  · cases h
  · cases h
    simp [canonicalStrides]

theorem permuteBy_eq_of_getD (i j order : List Int) (hj : j.length = order.length)
    (h : ∀ k, k < order.length → i.getD (order.getD k 0).toNat 0 = j.getD k 0) :
    permuteBy i order = j := by
  apply List.ext_getElem
  · rw [permuteBy_length, hj]
  · intro k h1 h2
    have hk : k < order.length := by rwa [permuteBy_length] at h1
    have := h k hk
    rw [getD_of_lt order k 0 hk, getD_of_lt j k 0 h2] at this
    simp only [permuteBy, List.getElem_map]
    exact this

theorem validIndex_of_permuteBy {shape index order : List Int}
    (hl : index.length = shape.length) (hp : IsPermutation order shape.length)
    (hv : ValidIndex (permuteBy shape order) (permuteBy index order)) :
    ValidIndex shape index := by
  have hq : IsPermutation (inversePerm order) (permuteBy shape order).length := by
    rw [permuteBy_length, hp.1]
    exact inversePerm_isPermutation hp
  have h := validIndex_permuteBy hv hq
  rw [permuteBy_inversePerm shape hp, permuteBy_inversePerm index (by rw [hl]; exact hp)] at h
  exact h

/-- C24.  For every tensor of rank `r` (shape and strides of length `r`), every permutation
`order` of `[0, r)` and index vectors `i`, `j` with `i[order[k]] = j[k]` for every `k < r`:
`transpose(order)` completes, and when `j` is a valid multi-index of the transposed shape,
`i` is a valid multi-index of the shape before the call and `at(j)` after the call is
`at(i)` before it; on a well-formed tensor both are the same stored value. -/
theorem transpose_moves_no_data {F : Type} [Zero F] (t : Tensor F) (order i j : List Int)
    (hs : t.strides.length = t.shape.length) (hp : IsPermutation order t.shape.length)
    (hi : i.length = t.shape.length)
    (hij : ∀ k, k < t.shape.length → i.getD (order.getD k 0).toNat 0 = j.getD k 0) :
    ∃ t1, t.transpose order = .done t1 ∧
      (ValidIndex t1.shape j →
        ValidIndex t.shape i ∧ t1.elemAt j = t.elemAt i ∧
        (t.WellFormed → ∃ v, t.elemAt i = .ok v ∧ t1.elemAt j = .ok v)) := by
  refine ⟨_, transpose_done t order hs hp, ?_⟩
  intro hv
  have hv1 : ValidIndex (permuteBy t.shape order) j := hv
  have hjl : j.length = order.length := by
    rw [hv1.length_eq, permuteBy_length]
  have hj : permuteBy i order = j :=
    permuteBy_eq_of_getD i j order hjl (by rw [hp.1]; exact hij)
  rw [← hj] at hv1
  have hvi : ValidIndex t.shape i := validIndex_of_permuteBy hi hp hv1
  have hel : ({ t with shape := permuteBy t.shape order, strides := permuteBy t.strides order,
                       contiguous := false } : Tensor F).elemAt j = t.elemAt i := by
    rw [Tensor.elemAt, Tensor.elemAt, linearOffset_valid t i hs hvi,
      linearOffset_valid _ j (by simp only [permuteBy_length]) hv]
    show vecGetInt t.cpuData (dot j (permuteBy t.strides order)) = _
    rw [← hj, dot_permuteBy i t.strides order (by rw [hi, hs]) (by rw [hi]; exact hp)]
  refine ⟨hvi, hel, ?_⟩
  intro hw
  exact ⟨_, hw.elemAt_eq hvi, by rw [hel]; exact hw.elemAt_eq hvi⟩

/-- C24 on the `2 x 3` tensor, the order `[1, 0]` and the indices `i = [1, 2]`,
`j = [2, 1]`. -/
theorem transpose_moves_no_data_witness :
    sample23.strides.length = sample23.shape.length ∧
    IsPermutation [1, 0] sample23.shape.length ∧
    ([1, 2] : List Int).length = sample23.shape.length ∧
    (∀ k, k < sample23.shape.length →
      ([1, 2] : List Int).getD (([1, 0] : List Int).getD k 0).toNat 0
        = ([2, 1] : List Int).getD k 0) ∧
    ∃ t1, sample23.transpose [1, 0] = .done t1 ∧
      (ValidIndex t1.shape [2, 1] →
        ValidIndex sample23.shape [1, 2] ∧ t1.elemAt [2, 1] = sample23.elemAt [1, 2] ∧
        (sample23.WellFormed →
          ∃ v, sample23.elemAt [1, 2] = .ok v ∧ t1.elemAt [2, 1] = .ok v)) :=
  ⟨rfl, by decide, rfl, by decide,
    transpose_moves_no_data sample23 [1, 0] [1, 2] [2, 1] rfl (by decide) rfl (by decide)⟩

/-! ## Routing by the device tag -/

theorem DataOnly.refl {F : Type} (t : Tensor F) : DataOnly t t :=
  ⟨t.cpuData, t.cpuGrad, rfl⟩

theorem unaryKernel_dataOnly {F : Type} (f : F → F) (t t1 : Tensor F)
    (h : t.unaryKernel f = .done t1) : DataOnly t t1 := by
  rw [unaryKernel_eq] at h
  cases h
  exact ⟨_, t.cpuGrad, rfl⟩

theorem binaryKernel_dataOnly {F : Type} (op : F → F → F) (t other t1 : Tensor F)
    (h : t.binaryKernel op other = .done t1) : DataOnly t t1 := by
  rw [Tensor.binaryKernel] at h
  split at h
  · cases h
    exact ⟨_, t.cpuGrad, rfl⟩
  · cases h

theorem biasKernel_dataOnly {F : Type} (op : F → F → F) (t bias t1 : Tensor F)
    (h : t.biasKernel op bias = .done t1) : DataOnly t t1 := by
  rw [Tensor.biasKernel] at h
  split at h
  · cases h
    exact ⟨_, t.cpuGrad, rfl⟩
  · cases h

theorem dispatch_dataOnly {F : Type} (kernel : Tensor F → Res F) (t t1 : Tensor F)
    (hk : ∀ s1, kernel t = .done s1 → DataOnly t s1) (h : t.dispatch kernel = .done t1) :
    DataOnly t t1 := by
  rw [Tensor.dispatch] at h
  split at h
  · exact hk t1 h
  · cases h; exact DataOnly.refl t

theorem guarded_done {F : Type} (p : Prop) [Decidable p] (r : Res F) (t t1 : Tensor F)
    (h : (if p then r else .failed .shapeMismatch t) = .done t1) : p ∧ r = .done t1 := by
  split at h
  · rename_i hp
    exact ⟨hp, h⟩
  · cases h

/-- A successful elementwise member function changes the values and gradient buffers
only. -/
theorem elementwise_dataOnly {F : Type} [FloatOps F] (op : Op F) (t t1 : Tensor F)
    (hop : op.isElementwise) (h : op.run t = .done t1) : DataOnly t t1 := by
  cases op with
  | reshape newShape => exact absurd hop (fun hx => hx)
  | flatten => exact absurd hop (fun hx => hx)
  | transpose order => exact absurd hop (fun hx => hx)
  | makeContiguous => exact absurd hop (fun hx => hx)
  | edit index val => exact absurd hop (fun hx => hx)
  | broadcastSource newShape => exact absurd hop (fun hx => hx)
  | fill val =>
    have h1 : t.dispatch (fun s => .done (s.fillCpu val)) = .done t1 := h
    refine dispatch_dataOnly _ t t1 ?_ h1
    intro s1 hs1
    cases hs1
    exact ⟨_, t.cpuGrad, rfl⟩
  | addTensor other =>
    exact dispatch_dataOnly _ t t1 (fun s1 hs1 => binaryKernel_dataOnly _ t other s1 hs1)
      (guarded_done _ _ t t1 h).2
  | addScalar val =>
    exact dispatch_dataOnly _ t t1 (fun s1 hs1 => unaryKernel_dataOnly _ t s1 hs1) h
  | addBias bias =>
    exact dispatch_dataOnly _ t t1 (fun s1 hs1 => biasKernel_dataOnly _ t bias s1 hs1)
      (guarded_done _ _ t t1 h).2
  | subtractTensor other =>
    exact dispatch_dataOnly _ t t1 (fun s1 hs1 => binaryKernel_dataOnly _ t other s1 hs1)
      (guarded_done _ _ t t1 h).2
  | subtractScalar val =>
    exact dispatch_dataOnly _ t t1 (fun s1 hs1 => unaryKernel_dataOnly _ t s1 hs1) h
  | multiplyTensor other =>
    exact dispatch_dataOnly _ t t1 (fun s1 hs1 => binaryKernel_dataOnly _ t other s1 hs1)
      (guarded_done _ _ t t1 h).2
  | multiplyScalar val =>
    exact dispatch_dataOnly _ t t1 (fun s1 hs1 => unaryKernel_dataOnly _ t s1 hs1) h
  | multiplyBias bias =>
    exact dispatch_dataOnly _ t t1 (fun s1 hs1 => biasKernel_dataOnly _ t bias s1 hs1)
      (guarded_done _ _ t t1 h).2
  | divideTensor other =>
    exact dispatch_dataOnly _ t t1 (fun s1 hs1 => binaryKernel_dataOnly _ t other s1 hs1)
      (guarded_done _ _ t t1 h).2
  | divideScalar val =>
    exact dispatch_dataOnly _ t t1 (fun s1 hs1 => unaryKernel_dataOnly _ t s1 hs1) h
  | negate =>
    exact dispatch_dataOnly _ t t1 (fun s1 hs1 => unaryKernel_dataOnly _ t s1 hs1) h
  | ReLU =>
    exact dispatch_dataOnly _ t t1 (fun s1 hs1 => unaryKernel_dataOnly _ t s1 hs1) h
  | sigmoid =>
    exact dispatch_dataOnly _ t t1 (fun s1 hs1 => unaryKernel_dataOnly _ t s1 hs1) h
  | tanh =>
    exact dispatch_dataOnly _ t t1 (fun s1 hs1 => unaryKernel_dataOnly _ t s1 hs1) h
  | LReLU alpha =>
    exact dispatch_dataOnly _ t t1 (fun s1 hs1 => unaryKernel_dataOnly _ t s1 hs1) h
  | ELU alpha =>
    exact dispatch_dataOnly _ t t1 (fun s1 hs1 => unaryKernel_dataOnly _ t s1 hs1) h
  | square =>
    exact dispatch_dataOnly _ t t1 (fun s1 hs1 => unaryKernel_dataOnly _ t s1 hs1) h
  | sqrt =>
    exact dispatch_dataOnly _ t t1 (fun s1 hs1 => unaryKernel_dataOnly _ t s1 hs1) h
  | exp =>
    exact dispatch_dataOnly _ t t1 (fun s1 hs1 => unaryKernel_dataOnly _ t s1 hs1) h
  | log =>
    exact dispatch_dataOnly _ t t1 (fun s1 hs1 => unaryKernel_dataOnly _ t s1 hs1) h
  | zeroGrad =>
    have h1 : t.dispatch (fun s => .done s.zeroGradCpu) = .done t1 := h
    refine dispatch_dataOnly _ t t1 ?_ h1
    intro s1 hs1
    cases hs1
    exact ⟨t.cpuData, _, rfl⟩
theorem dispatch_gpu {F : Type} (t : Tensor F) (kernel : Tensor F → Res F)
    (hd : t.device = Device.GPU) : t.dispatch kernel = .done t := by
  rw [Tensor.dispatch, if_neg (by rw [hd]; decide)]

theorem makeContiguous_gpu {F : Type} [Zero F] (t : Tensor F) (hd : t.device = Device.GPU) :
    t.makeContiguous = .done t := by
  rw [Tensor.makeContiguous]
  split
  · rfl
  · rw [if_neg (by rw [hd]; decide)]

theorem routedAlike_of_done {F : Type} (rg rc : Res F) (tg tc : Tensor F)
    (h : rg = .done tg) : RoutedAlike rg rc tg tc :=
  ⟨Or.inl h, fun _ _ => h, fun hf => by rw [h] at hf; cases hf⟩

theorem routedAlike_guarded {F : Type} (p q : Prop) [Decidable p] [Decidable q]
    (hpq : p ↔ q) (kg kc : Tensor F → Res F) (tg tc : Tensor F)
    (hd : tg.device = Device.GPU) :
    RoutedAlike (if p then tg.dispatch kg else .failed .shapeMismatch tg)
      (if q then tc.dispatch kc else .failed .shapeMismatch tc) tg tc := by
  by_cases hp : p
  · apply routedAlike_of_done
    rw [if_pos hp]
    exact dispatch_gpu tg kg hd
  · have hq : ¬ q := fun h => hp (hpq.mpr h)
    refine ⟨Or.inr (if_neg hp), ?_, fun _ => if_neg hq⟩
    intro t1 h
    rw [if_neg hq] at h
    cases h

theorem routed_alike_of_shape {F : Type} [FloatOps F] (op : Op F) (tg tc : Tensor F)
    (hop : op.isRouted) (hd : tg.device = Device.GPU) (hs : tg.shape = tc.shape) :
    RoutedAlike (op.run tg) (op.run tc) tg tc := by
  cases op with
  | reshape newShape => exact absurd hop (fun hx => hx)
  | flatten => exact absurd hop (fun hx => hx)
  | transpose order => exact absurd hop (fun hx => hx)
  | edit index val => exact absurd hop (fun hx => hx)
  | broadcastSource newShape => exact absurd hop (fun hx => hx)
  | makeContiguous => exact routedAlike_of_done _ _ _ _ (makeContiguous_gpu tg hd)
  | fill val =>
    exact routedAlike_of_done _ _ _ _ (dispatch_gpu tg (fun s => .done (s.fillCpu val)) hd)
  | addTensor other => exact routedAlike_guarded _ _ (by rw [hs]) _ _ _ _ hd
  | addScalar val => exact routedAlike_of_done _ _ _ _ (dispatch_gpu tg _ hd)
  | addBias bias => exact routedAlike_guarded _ _ (by rw [hs]) _ _ _ _ hd
  | subtractTensor other => exact routedAlike_guarded _ _ (by rw [hs]) _ _ _ _ hd
  | subtractScalar val => exact routedAlike_of_done _ _ _ _ (dispatch_gpu tg _ hd)
  | multiplyTensor other => exact routedAlike_guarded _ _ (by rw [hs]) _ _ _ _ hd
  | multiplyScalar val => exact routedAlike_of_done _ _ _ _ (dispatch_gpu tg _ hd)
  | multiplyBias bias => exact routedAlike_guarded _ _ (by rw [hs]) _ _ _ _ hd
  | divideTensor other => exact routedAlike_guarded _ _ (by rw [hs]) _ _ _ _ hd
  | divideScalar val => exact routedAlike_of_done _ _ _ _ (dispatch_gpu tg _ hd)
  | negate => exact routedAlike_of_done _ _ _ _ (dispatch_gpu tg _ hd)
  | ReLU => exact routedAlike_of_done _ _ _ _ (dispatch_gpu tg _ hd)
  | sigmoid => exact routedAlike_of_done _ _ _ _ (dispatch_gpu tg _ hd)
  | tanh => exact routedAlike_of_done _ _ _ _ (dispatch_gpu tg _ hd)
  | LReLU alpha => exact routedAlike_of_done _ _ _ _ (dispatch_gpu tg _ hd)
  | ELU alpha => exact routedAlike_of_done _ _ _ _ (dispatch_gpu tg _ hd)
  | square => exact routedAlike_of_done _ _ _ _ (dispatch_gpu tg _ hd)
  | sqrt => exact routedAlike_of_done _ _ _ _ (dispatch_gpu tg _ hd)
  | exp => exact routedAlike_of_done _ _ _ _ (dispatch_gpu tg _ hd)
  | log => exact routedAlike_of_done _ _ _ _ (dispatch_gpu tg _ hd)
  | zeroGrad =>
    exact routedAlike_of_done _ _ _ _ (dispatch_gpu tg (fun s => .done s.zeroGradCpu) hd)

/-- Without `USE_CUDA` every routed member function treats the tensor tagged `GPU` as
described by `RoutedAlike`. -/
theorem routed_alike {F : Type} [FloatOps F] (op : Op F) (t : Tensor F) (hop : op.isRouted) :
    RoutedAlike (op.run (t.onDevice Device.GPU)) (op.run (t.onDevice Device.CPU))
      (t.onDevice Device.GPU) (t.onDevice Device.CPU) :=
  routed_alike_of_shape op _ _ hop rfl rfl

/-- C22, as stated, fails without `USE_CUDA`: `fill(7)` leaves the values of the constructed
tensor tagged `GPU` at zero while the CPU run writes `7` everywhere, and `makeContiguous()`
leaves the transposed view tagged `GPU` with strides `[1, 3]`, the flag cleared and the
buffer in the old order, while the CPU run ends with strides `[2, 1]`, the flag set and the
buffer gathered. -/
theorem dispatch_counterexample :
    Op.run (Op.fill 7) sampleGpu23 = .done sampleGpu23 ∧
    Op.run (Op.fill 7) (sampleGpu23.onDevice Device.CPU) = .done sampleFill7 ∧
    sampleGpu23.cpuData ≠ sampleFill7.cpuData ∧
    Op.run Op.makeContiguous sampleGpu32T = .done sampleGpu32T ∧
    Op.run Op.makeContiguous (sampleGpu32T.onDevice Device.CPU) = .done sample32M ∧
    sampleGpu32T.strides ≠ sample32M.strides ∧
    sampleGpu32T.contiguous ≠ sample32M.contiguous ∧
    sampleGpu32T.cpuData ≠ sample32M.cpuData := by
  decide

/-- C22, amended.  The routing is keyed on the device tag only, and without `USE_CUDA` the
accelerator branch is compiled out: for every tensor state and every operation among
`makeContiguous`, `fill`, the arithmetic operations and the activations, the run on the
tensor tagged `GPU` checks the same shape assertion as the run on the otherwise identical
tensor tagged `CPU` and then leaves every field as it was before the call.  It completes
whenever the CPU run completes; for the operations other than `makeContiguous` the CPU run
ends with the same shape, strides and flag, which it does not change either. -/
theorem dispatch_routing {F : Type} [FloatOps F] (op : Op F) (t : Tensor F)
    (hop : op.isRouted) :
    (op.run (t.onDevice Device.GPU) = .done (t.onDevice Device.GPU) ∨
      op.run (t.onDevice Device.GPU) = .failed .shapeMismatch (t.onDevice Device.GPU)) ∧
    (op.run (t.onDevice Device.GPU) = .failed .shapeMismatch (t.onDevice Device.GPU) →
      op.run (t.onDevice Device.CPU) = .failed .shapeMismatch (t.onDevice Device.CPU)) ∧
    (∀ t1, op.run (t.onDevice Device.CPU) = .done t1 →
      op.run (t.onDevice Device.GPU) = .done (t.onDevice Device.GPU) ∧
      (op.isElementwise →
        t1.shape = t.shape ∧ t1.strides = t.strides ∧ t1.contiguous = t.contiguous)) := by
  obtain ⟨h1, h2, h3⟩ := routed_alike op t hop
  refine ⟨h1, h3, fun t1 hc => ⟨h2 t1 hc, fun he => ?_⟩⟩
  obtain ⟨d, g, rfl⟩ := elementwise_dataOnly op _ t1 he hc
  exact ⟨rfl, rfl, rfl⟩

/-- The amended C22 on `fill(7)` and the constructed `2 x 3` tensor. -/
theorem dispatch_routing_witness :
    (Op.fill 7 : Op Int).isRouted ∧
    (Op.run (Op.fill 7) (sampleNew23.onDevice Device.GPU)
        = .done (sampleNew23.onDevice Device.GPU) ∨
      Op.run (Op.fill 7) (sampleNew23.onDevice Device.GPU)
        = .failed .shapeMismatch (sampleNew23.onDevice Device.GPU)) ∧
    (Op.run (Op.fill 7) (sampleNew23.onDevice Device.GPU)
        = .failed .shapeMismatch (sampleNew23.onDevice Device.GPU) →
      Op.run (Op.fill 7) (sampleNew23.onDevice Device.CPU)
        = .failed .shapeMismatch (sampleNew23.onDevice Device.CPU)) ∧
    (∀ t1, Op.run (Op.fill 7) (sampleNew23.onDevice Device.CPU) = .done t1 →
      Op.run (Op.fill 7) (sampleNew23.onDevice Device.GPU)
        = .done (sampleNew23.onDevice Device.GPU) ∧
      ((Op.fill 7 : Op Int).isElementwise →
        t1.shape = sampleNew23.shape ∧ t1.strides = sampleNew23.strides ∧
        t1.contiguous = sampleNew23.contiguous)) :=
  ⟨trivial, dispatch_routing (Op.fill 7) sampleNew23 trivial⟩

/-! ## The layout invariant of the reachable tensors -/

theorem wellFormed_of_canonical {F : Type} (t : Tensor F) (hi : t.SizeInvariant)
    (hs : t.strides = canonicalStrides t.shape) (hnn : ∀ d ∈ t.shape, 0 ≤ d)
    (hfit : FitsInt t.shape.prod) : t.WellFormed := by
  obtain ⟨h1, h2, h3⟩ := hi
  refine ⟨h1.symm, hnn, by rw [h2, accumulateMul_eq_prod _ hfit], by omega, ⟨t.shape, ?_⟩,
    fun _ => hs⟩
  rw [hs]

theorem layoutInvariant_of_canonical {F : Type} (t : Tensor F) (hi : t.SizeInvariant)
    (hs : t.strides = canonicalStrides t.shape) : t.LayoutInvariant :=
  ⟨hi, wellFormed_of_canonical t hi hs⟩

theorem layoutInvariant_of_dataOnly {F : Type} {t t1 : Tensor F} (h : DataOnly t t1)
    (hi1 : t1.SizeInvariant) (hl : t.LayoutInvariant) : t1.LayoutInvariant := by
  obtain ⟨d, g, rfl⟩ := h
  refine ⟨hi1, fun hnn hfit => ?_⟩
  obtain ⟨h1, h2, h3, _, h5, h6⟩ := hl.2 hnn hfit
  have h4 := hi1.2.2
  exact ⟨h1, h2, h3, by omega, h5, h6⟩

theorem edit_dataOnly {F : Type} (t t1 : Tensor F) (index : List Int) (val : F)
    (h : t.edit index val = .done t1) : DataOnly t t1 := by
  rw [Tensor.edit] at h
  split at h
  · split at h
    · cases h
      exact ⟨_, t.cpuGrad, rfl⟩
    · cases h
  · cases h

theorem makeContiguous_shape {F : Type} [Zero F] (t t1 : Tensor F)
    (h : t.makeContiguous = .done t1) : t1.shape = t.shape := by
  rw [Tensor.makeContiguous] at h
  split at h
  · cases h
    rfl
  · rename_i hc
    split at h
    · rw [Tensor.makeContiguousCpu, if_neg hc] at h
      split at h
      · cases h
      · split at h
        · cases h
          rw [computeStrides_eq]
        · cases h
    · cases h
      rfl

theorem makeContiguous_layoutInvariant {F : Type} [Zero F] (t t1 : Tensor F)
    (hl : t.LayoutInvariant) (h : t.makeContiguous = .done t1) : t1.LayoutInvariant := by
  refine ⟨makeContiguous_sizeInvariant t t1 hl.1 h, fun hnn hfit => ?_⟩
  rw [makeContiguous_shape t t1 h] at hnn hfit
  have hw := hl.2 hnn hfit
  rw [makeContiguous_eq_ensured t hw] at h
  cases h
  exact ensured_wellFormed t hw

theorem transpose_layoutInvariant {F : Type} (t t1 : Tensor F) (order : List Int)
    (hl : t.LayoutInvariant) (h : t.transpose order = .done t1) : t1.LayoutInvariant := by
  refine ⟨transpose_sizeInvariant t t1 order hl.1 h, fun hnn hfit => ?_⟩
  by_cases hp : IsPermutation order t.shape.length
  · rw [transpose_done t order hl.1.1.symm hp] at h
    cases h
    have hperm : (permuteBy t.shape order).Perm t.shape := map_getD_perm t.shape 0 hp
    have hw := hl.2 (fun d hd => hnn d (hperm.mem_iff.mpr hd))
      (by rw [← hperm.prod_eq]; exact hfit)
    exact transpose_wellFormed t order hw hp
  · rw [transpose_failed t order hl.1.1.symm hp] at h
    cases h

/-- What a successful `broadcast` leaves: the source after the materialization step, and a
result with canonical strides. -/
theorem broadcast_parts {F : Type} [Zero F] (t src result : Tensor F) (newShape : List Int)
    (h : t.broadcast newShape = .done src result) :
    (if !t.contiguous then t.makeContiguous else Res.done t) = .done src ∧
    result.strides = canonicalStrides result.shape := by
  rw [Tensor.broadcast] at h
  split at h
  · split at h
    · cases h
    · split at h
      · cases h
      · rename_i t2 h2
        split at h
        · cases h
        · rename_i res hres
          split at h
          · cases h
            exact ⟨h2, create_canonical newShape _ res hres⟩
          · cases h
  · cases h

theorem ensureStep_layoutInvariant {F : Type} [Zero F] (t t1 : Tensor F)
    (hl : t.LayoutInvariant)
    (h : (if !t.contiguous then t.makeContiguous else Res.done t) = .done t1) :
    t1.LayoutInvariant := by
  split at h
  · exact makeContiguous_layoutInvariant t t1 hl h
  · cases h
    exact hl

theorem broadcast_layoutInvariant {F : Type} [Zero F] (t src result : Tensor F)
    (newShape : List Int) (hl : t.LayoutInvariant)
    (h : t.broadcast newShape = .done src result) :
    src.LayoutInvariant ∧ result.LayoutInvariant := by
  obtain ⟨h1, h2⟩ := broadcast_parts t src result newShape h
  exact ⟨ensureStep_layoutInvariant t src hl h1,
    layoutInvariant_of_canonical result (broadcast_sizeInvariant t src result newShape hl.1 h).2
      h2⟩

/-- Every successful operation keeps the layout invariant. -/
theorem Op.run_layoutInvariant {F : Type} [FloatOps F] (op : Op F) (t t1 : Tensor F)
    (hl : t.LayoutInvariant) (h : op.run t = .done t1) : t1.LayoutInvariant := by
  have hi1 := Op.run_sizeInvariant op t t1 hl.1 h
  cases op with
  | reshape newShape =>
    obtain ⟨h1, h2⟩ := reshape_canonical t t1 newShape h
    exact layoutInvariant_of_canonical t1 hi1 (by rw [h1, h2])
  | flatten => exact layoutInvariant_of_canonical t1 hi1 (flatten_canonical t t1 h)
  | transpose order => exact transpose_layoutInvariant t t1 order hl h
  | makeContiguous => exact makeContiguous_layoutInvariant t t1 hl h
  | edit index val => exact layoutInvariant_of_dataOnly (edit_dataOnly t t1 index val h) hi1 hl
  | broadcastSource newShape =>
    rw [Op.run] at h
    split at h
    · rename_i src res hb
      cases h
      exact (broadcast_layoutInvariant t _ res newShape hl hb).1
    · cases h
  | _ => exact layoutInvariant_of_dataOnly (elementwise_dataOnly _ t t1 (by trivial) h) hi1 hl

/-- Every tensor built by the constructor and modified by successful operations, and every
tensor returned by `broadcast` on such a tensor, satisfies the layout invariant. -/
theorem reachableVia_layoutInvariant {F : Type} [FloatOps F] (okShape : List Int → Prop)
    (allowed : Op F → Prop) (t : Tensor F) (hr : ReachableVia okShape allowed t) :
    t.LayoutInvariant := by
  induction hr with
  | create shape dev t _ hc =>
    exact layoutInvariant_of_canonical t (create_sizeInvariant shape dev t hc)
      (create_canonical shape dev t hc)
  | step t t1 op _ _ hrun ih => exact Op.run_layoutInvariant op t t1 ih hrun
  | broadcast t src result newShape _ _ hb ih =>
    exact (broadcast_layoutInvariant t src result newShape ih hb).2

/-! ## The addressing map is onto the buffer -/

theorem Tensor.WellFormed.offsets_nodup {F : Type} {t : Tensor F} (hw : t.WellFormed) :
    ((rowMajor t.shape).map (fun index => (dot index t.strides).toNat)).Nodup := by
  have hnn := hw.2.1
  apply List.Nodup.map_on _ (rowMajor_nodup t.shape hnn)
  intro x hx y hy hxy
  have hvx := valid_of_mem_rowMajor hnn hx
  have hvy := valid_of_mem_rowMajor hnn hy
  have h1 := (hw.offset_bounds hvx).1
  have h2 := (hw.offset_bounds hvy).1
  exact hw.offset_injective hvx hvy (by omega)

/-- In a well-formed tensor every cell of the buffer is addressed by a valid multi-index. -/
theorem Tensor.WellFormed.offset_surjective {F : Type} {t : Tensor F} (hw : t.WellFormed)
    (k : Int) (h0 : 0 ≤ k) (h1 : k < t.totalSize) :
    ∃ index, ValidIndex t.shape index ∧ dot index t.strides = k := by
  have hnn := hw.2.1
  have hnd := hw.offsets_nodup
  have hlen : ((rowMajor t.shape).map (fun index => (dot index t.strides).toNat)).length
      = t.totalSize.toNat := by
    rw [List.length_map, rowMajor_length t.shape hnn, hw.2.2.1]
  have hsub : ((rowMajor t.shape).map (fun index => (dot index t.strides).toNat)).toFinset
      ⊆ Finset.range t.totalSize.toNat := by
    intro x hx
    rw [List.mem_toFinset, List.mem_map] at hx
    obtain ⟨index, hi, rfl⟩ := hx
    obtain ⟨hb0, hb1⟩ := hw.offset_bounds (valid_of_mem_rowMajor hnn hi)
    rw [Finset.mem_range]
    omega
  have heq := Finset.eq_of_subset_of_card_le hsub
    (by rw [List.toFinset_card_of_nodup hnd, hlen, Finset.card_range])
  have hk : k.toNat ∈ Finset.range t.totalSize.toNat := by
    rw [Finset.mem_range]; omega
  rw [← heq, List.mem_toFinset, List.mem_map] at hk
  obtain ⟨index, hi, hik⟩ := hk
  have hv := valid_of_mem_rowMajor hnn hi
  have hb0 := (hw.offset_bounds hv).1
  exact ⟨index, hv, by omega⟩

/-! ## Addressing of the reachable tensors -/

theorem positive_of_valid {shape index : List Int} (hv : ValidIndex shape index) :
    ∀ d ∈ shape, 0 < d := by
  rw [ValidIndex] at hv
  induction hv with
  | nil => intro d hd; cases hd
  | cons h _ ih =>
    intro d hd
    rcases List.mem_cons.mp hd with rfl | hd
    · omega
    · exact ih d hd

/-- C23, as stated, fails after a `reshape` to negative dimensions: `reshape([-2, -3])` on the
constructed `2 x 3` tensor passes the size assertion and leaves a shape with no valid
multi-index, so no index addresses cell `0` of the six cells; and after
`reshape([-1, 2, -1])` and `transpose([0, 1, 2])` on the constructed `1 x 2 x 1` tensor,
`makeContiguousCpu` reads outside the buffer. -/
theorem addressing_counterexample :
    ReachableVia PositiveShape Op.isLayoutCall sampleNeg23 ∧
    (0 : Int) < sampleNeg23.totalSize ∧
    (¬ ∃ index, ValidIndex sampleNeg23.shape index ∧ dot index sampleNeg23.strides = 0) ∧
    ReachableVia PositiveShape Op.isLayoutCall sampleNeg121T ∧
    sampleNeg121T.makeContiguousCpu = .failed .outOfBounds sampleNeg121T := by
  refine ⟨?_, by decide, ?_, ?_, by decide⟩
  · exact ReachableVia.step sampleNew23 sampleNeg23 (Op.reshape [-2, -3])
      (ReachableVia.create [2, 3] Device.CPU sampleNew23 (by decide) rfl) trivial (by decide)
  · rintro ⟨index, hv, _⟩
    have := positive_of_valid hv (-2) (by decide)
    omega
  · exact ReachableVia.step sampleNeg121 sampleNeg121T (Op.transpose [0, 1, 2])
      (ReachableVia.step sampleNew121 sampleNeg121 (Op.reshape [-1, 2, -1])
        (ReachableVia.create [1, 2, 1] Device.CPU sampleNew121 (by decide) rfl)
        trivial (by decide))
      trivial (by decide)

/-- C23, amended.  For every tensor built by the shape constructor with positive dimensions
and then modified by any sequence of successful `transpose`, `reshape`, `flatten` and
`makeContiguous` calls, whenever the current shape has only positive dimensions and their
product fits in `int`, the addressing map `index -> sum(index[i] * strides[i])` is a
bijection from the valid multi-indices of the shape onto `[0, totalSize)`, and `totalSize`
is the length of the values buffer: every valid index addresses a cell inside the buffer,
two valid indices with the same cell are equal, every cell is addressed, and `at`, `edit`
and `makeContiguousCpu` complete without a read or write outside the buffer. -/
theorem addressing_bijective {F : Type} [FloatOps F] (t : Tensor F)
    (hr : ReachableVia PositiveShape Op.isLayoutCall t) (hpos : PositiveShape t.shape)
    (hfit : FitsInt t.shape.prod) :
    (t.cpuData.length : Int) = t.totalSize ∧
    (∀ index, ValidIndex t.shape index →
      t.linearOffset index = .ok (dot index t.strides) ∧
      0 ≤ dot index t.strides ∧ dot index t.strides < t.totalSize) ∧
    (∀ i j, ValidIndex t.shape i → ValidIndex t.shape j →
      dot i t.strides = dot j t.strides → i = j) ∧
    (∀ k, 0 ≤ k → k < t.totalSize →
      ∃ index, ValidIndex t.shape index ∧ dot index t.strides = k) ∧
    (∀ index, ValidIndex t.shape index → ∃ v, t.elemAt index = .ok v) ∧
    (∀ index val, ValidIndex t.shape index → ∃ t1, t.edit index val = .done t1) ∧
    (∃ t1, t.makeContiguousCpu = .done t1) := by
  have hl := reachableVia_layoutInvariant _ _ t hr
  have hw : t.WellFormed := hl.2 (fun d hd => le_of_lt (hpos d hd)) hfit
  refine ⟨hl.1.2.2, ?_, ?_, ?_, ?_, ?_, ?_⟩
  · intro index hv
    exact ⟨linearOffset_valid t index hw.1 hv, hw.offset_bounds hv⟩
  · intro i j hi hj h
    exact hw.offset_injective hi hj h
  · intro k h0 h1
    exact hw.offset_surjective k h0 h1
  · intro index hv
    exact ⟨_, hw.elemAt_eq hv⟩
  · intro index val hv
    exact ⟨_, hw.edit_eq hv val⟩
  · by_cases hc : t.contiguous = true
    · exact ⟨t, by rw [Tensor.makeContiguousCpu, if_pos hc]⟩
    · exact ⟨_, makeContiguousCpu_done t hw (by simpa using hc)⟩

/-- The amended C23 on the constructed `2 x 3` tensor after `transpose([1, 0])`. -/
theorem addressing_bijective_witness :
    ReachableVia PositiveShape Op.isLayoutCall sampleNew32T ∧
    PositiveShape sampleNew32T.shape ∧ FitsInt sampleNew32T.shape.prod ∧
    (sampleNew32T.cpuData.length : Int) = sampleNew32T.totalSize ∧
    (∀ index, ValidIndex sampleNew32T.shape index →
      sampleNew32T.linearOffset index = .ok (dot index sampleNew32T.strides) ∧
      0 ≤ dot index sampleNew32T.strides ∧
      dot index sampleNew32T.strides < sampleNew32T.totalSize) ∧
    (∀ i j, ValidIndex sampleNew32T.shape i → ValidIndex sampleNew32T.shape j →
      dot i sampleNew32T.strides = dot j sampleNew32T.strides → i = j) ∧
    (∀ k, 0 ≤ k → k < sampleNew32T.totalSize →
      ∃ index, ValidIndex sampleNew32T.shape index ∧ dot index sampleNew32T.strides = k) ∧
    (∀ index, ValidIndex sampleNew32T.shape index →
      ∃ v, sampleNew32T.elemAt index = .ok v) ∧
    (∀ index val, ValidIndex sampleNew32T.shape index →
      ∃ t1, sampleNew32T.edit index val = .done t1) ∧
    (∃ t1, sampleNew32T.makeContiguousCpu = .done t1) :=
  have hr : ReachableVia PositiveShape Op.isLayoutCall sampleNew32T :=
    ReachableVia.step sampleNew23 sampleNew32T (Op.transpose [1, 0])
      (ReachableVia.create [2, 3] Device.CPU sampleNew23 (by decide) rfl) trivial (by decide)
  ⟨hr, by decide, by decide, addressing_bijective sampleNew32T hr (by decide) (by decide)⟩

/-! ## `edit` followed by `at` -/

/-- C25.  For every tensor built by the shape constructor with positive dimensions and
modified by any sequence of successful view operations (`reshape`, `flatten`, `transpose`,
`makeContiguous`, `broadcast`, the tensors returned by `broadcast` included), on the CPU or
not, with the product of the current shape inside the `int` range, every valid multi-index
`idx` and every value `v`: `edit(idx, v)` completes;
afterwards `at(idx)` returns `v`, `at(idx2)` returns its value from before the call for
every other valid index `idx2`, and shape, strides and the `contiguous` flag are
unchanged. -/
theorem edit_then_at {F : Type} [FloatOps F] (t : Tensor F) (idx : List Int) (v : F)
    (hr : ReachableVia PositiveShape Op.isView t) (hfit : FitsInt t.shape.prod)
    (hv : ValidIndex t.shape idx) :
    ∃ t1, t.edit idx v = .done t1 ∧ t1.elemAt idx = .ok v ∧
      (∀ idx2, ValidIndex t.shape idx2 → idx2 ≠ idx →
        ∃ x, t.elemAt idx2 = .ok x ∧ t1.elemAt idx2 = .ok x) ∧
      t1.shape = t.shape ∧ t1.strides = t.strides ∧ t1.contiguous = t.contiguous := by
  have hl := reachableVia_layoutInvariant _ _ t hr
  have hw : t.WellFormed := hl.2 (fun d hd => le_of_lt (positive_of_valid hv d hd)) hfit
  obtain ⟨hb0, hb1⟩ := hw.offset_bounds hv
  have hlt : (dot idx t.strides).toNat < t.cpuData.length := by
    have := hw.2.2.2.1; omega
  have hw1 : ({ t with cpuData := t.cpuData.set (dot idx t.strides).toNat v } :
      Tensor F).WellFormed :=
    ⟨hw.1, hw.2.1, hw.2.2.1, by rw [← hw.2.2.2.1]; simp, hw.2.2.2.2.1, hw.2.2.2.2.2⟩
  refine ⟨_, hw.edit_eq hv v, ?_, ?_, rfl, rfl, rfl⟩
  · rw [hw1.elemAt_eq hv]
    show Except.ok ((t.cpuData.set (dot idx t.strides).toNat v).getD
      (dot idx t.strides).toNat 0) = _
    rw [getD_set_eq _ _ _ _ hlt]
  · intro idx2 hv2 hne
    refine ⟨_, hw.elemAt_eq hv2, ?_⟩
    rw [hw1.elemAt_eq hv2]
    show Except.ok ((t.cpuData.set (dot idx t.strides).toNat v).getD
      (dot idx2 t.strides).toNat 0) = _
    have hb2 := (hw.offset_bounds hv2).1
    rw [getD_set_ne _ _ _ _ _ (fun h => hne (hw.offset_injective hv2 hv (by omega)))]

/-- C25 on the constructed `2 x 3` tensor after `transpose([1, 0])`, the index `[2, 1]` and
the value `9`. -/
theorem edit_then_at_witness :
    ReachableVia PositiveShape Op.isView sampleNew32T ∧
    FitsInt sampleNew32T.shape.prod ∧ ValidIndex sampleNew32T.shape [2, 1] ∧
    ∃ t1, sampleNew32T.edit [2, 1] 9 = .done t1 ∧ t1.elemAt [2, 1] = .ok 9 ∧
      (∀ idx2, ValidIndex sampleNew32T.shape idx2 → idx2 ≠ [2, 1] →
        ∃ x, sampleNew32T.elemAt idx2 = .ok x ∧ t1.elemAt idx2 = .ok x) ∧
      t1.shape = sampleNew32T.shape ∧ t1.strides = sampleNew32T.strides ∧
      t1.contiguous = sampleNew32T.contiguous :=
  have hr : ReachableVia PositiveShape Op.isView sampleNew32T :=
    ReachableVia.step sampleNew23 sampleNew32T (Op.transpose [1, 0])
      (ReachableVia.create [2, 3] Device.CPU sampleNew23 (by decide) rfl) trivial (by decide)
  ⟨hr, by decide, by decide, edit_then_at sampleNew32T [2, 1] 9 hr (by decide) (by decide)⟩

end TensorEngine
